import Mathlib

/-!
# trace-cmd split: the ring-buffer page re-encoder

A shallow embedding of `tracecmd/trace-split.c` (`create_type_len`,
`write_record`, `write_page`, `parse_cpu`, `parse_file`) and theorems about it.

Conventions of the embedding.

* C integers are natural numbers; where the C type truncates, the
  truncation is written out (`% 2 ^ 32`, `% 2 ^ 64`).
* Memory is a function from byte offsets to bytes.  A page buffer is the
  memory that starts at the `page` pointer; offsets `≥ page_size` lie
  outside the allocation.
* A store through a typed pointer (`*(unsigned *)ptr = v`, `memcpy(ptr, &v, 4)`)
  writes the bytes of `v` in the byte order of the host.
* `die(...)` is a `Fault`; the functions that can reach it return `Except`.
-/

namespace TraceSplit

/-! ## Bytes and memory -/

/-- Byte-addressed memory, indexed by the offset from some base pointer. -/
abbrev Mem := Nat → Nat

/-- The `w` low bytes of `v`, least significant first. -/
def le_bytes : Nat → Nat → List Nat
  | 0, _ => []
  | w + 1, v => (v % 256) :: le_bytes w (v / 256)

/-- The number whose bytes, least significant first, are `bs`. -/
def of_le_bytes : List Nat → Nat
  | [] => 0
  | b :: bs => b + 256 * of_le_bytes bs

/-- The `w` low bytes of `v`, most significant first. -/
def be_bytes (w v : Nat) : List Nat := (le_bytes w v).reverse

/-- The number whose bytes, most significant first, are `bs`. -/
def of_be_bytes (bs : List Nat) : Nat := of_le_bytes bs.reverse

/-- The bytes `m[off], ..., m[off + n - 1]`. -/
def mem_read (m : Mem) (off n : Nat) : List Nat :=
  (List.range n).map (fun i => m (off + i))

/-- The memory `m` after the bytes `bs` were stored at offset `off`. -/
def mem_write (m : Mem) (off : Nat) (bs : List Nat) : Mem :=
  fun i => if off ≤ i ∧ i < off + bs.length then bs.getD (i - off) 0 else m i

/-- The effect of `memset(m, 0, n)`. -/
def mem_zero (m : Mem) (n : Nat) : Mem :=
  fun i => if i < n then 0 else m i

/-! ## The data model -/

/-- The split predicates, `enum split_types`. -/
inductive split_types
  | SPLIT_NONE
  | SPLIT_SECONDS
  | SPLIT_MSECS
  | SPLIT_USECS
  | SPLIT_EVENTS
  | SPLIT_PAGES
  deriving DecidableEq, Repr

/-- Modelled from the spec: the part of `struct tep_handle` (declared in the
event-parsing library, not in this file) that the re-encoder consults, namely
the byte order of the capture and the byte order of the host. -/
structure tep_handle where
  file_bigendian : Bool
  host_bigendian : Bool
  deriving DecidableEq, Repr

/-- Modelled from the spec: `struct tep_record` (declared in the event-parsing
library).  `size` is the un-padded payload length, `record_size` the framed
size on disk, `data` the memory readable at the `data` pointer. -/
structure tep_record where
  ts : Nat
  offset : Nat
  missed_events : Nat
  record_size : Nat
  size : Nat
  data : Mem

/-- The per-CPU page builder, `struct cpu_data`.  `page` is `none` for the
NULL pointer; `commit` is the offset of the commit slot inside the page.
The fields `cpu`, `fd` and `file` name the temp file and are not modelled:
what is written to the file is recorded in the event log of `parse_cpu`. -/
structure cpu_data where
  ts : Nat
  offset : Nat
  missed_events : Nat
  index : Nat
  commit : Nat
  page : Option Mem

/-- What stops the program: `die` in `write_record`, a NULL page pointer in
`write_record`, and the exhaustion of the fuel of a loop of the model. -/
inductive Fault
  | bad_record_len
  | null_page
  | out_of_fuel
  deriving DecidableEq, Repr

/-! ## Endian/number codec -/

/-- The bytes of the `w`-byte integer `v` as the host keeps them in memory. -/
def host_bytes (pevent : tep_handle) (w v : Nat) : List Nat :=
  if pevent.host_bigendian then be_bytes w v else le_bytes w v

/-- The bytes of the `w`-byte integer `v` in the byte order of the capture. -/
def file_bytes (pevent : tep_handle) (w v : Nat) : List Nat :=
  if pevent.file_bigendian then be_bytes w v else le_bytes w v

/-- The number that `bs` encodes in the byte order of the capture. -/
def of_file_bytes (pevent : tep_handle) (bs : List Nat) : Nat :=
  if pevent.file_bigendian then of_be_bytes bs else of_le_bytes bs

/-- Modelled from the spec: `tep_read_number(pevent, ptr, size)` of the
event-parsing library (spec 4.1, endian/number codec): the `size` bytes at
`ptr` are read as a number in the byte order of the capture.  `bs` is the
content of the memory at `ptr`. -/
def tep_read_number (pevent : tep_handle) (bs : List Nat) : Nat :=
  of_file_bytes pevent bs

/-- The call `tep_read_number(pevent, &v, w)` on a `w`-byte host variable `v`. -/
def tep_read_var (pevent : tep_handle) (w v : Nat) : Nat :=
  tep_read_number pevent (host_bytes pevent w v)

/-! ## Type-length-time encoder -/

/-- Modelled from the spec: `RINGBUF_TYPE_TIME_EXTEND`, a constant of the
kernel ring-buffer header; spec 4.2 gives the value 30. -/
def RINGBUF_TYPE_TIME_EXTEND : Nat := 30

/-- The header word before serialisation: what `create_type_len` leaves in its
32-bit variable `time` after the bit packing. -/
def type_len_word (pevent : tep_handle) (time len : Nat) : Nat :=
  if pevent.file_bigendian then
    (time ||| (len <<< 27)) % 2 ^ 32
  else
    ((time <<< 5) ||| len) % 2 ^ 32

/-- The function `create_type_len`.  The static `bigendian` probe of the host
is computed by the source but never used, and is left out. -/
def create_type_len (pevent : tep_handle) (time len : Nat) : Nat :=
  tep_read_var pevent 4 (type_len_word pevent time len)

/-- The `len_field` that a reader of the capture decodes from a header word. -/
def header_len_field (pevent : tep_handle) (word : Nat) : Nat :=
  if pevent.file_bigendian then word >>> 27 else word &&& 31

/-- The 27-bit delta that a reader of the capture decodes from a header word. -/
def header_delta (pevent : tep_handle) (word : Nat) : Nat :=
  if pevent.file_bigendian then word &&& (2 ^ 27 - 1) else word >>> 5

/-- The function `write_record`: `(0, cd)` after a TIME_EXTEND, `(1, cd)` after
the record itself was written.  The parameters `handle` and `type` of the
source only supply `pevent`. -/
def write_record (pevent : tep_handle) (record : tep_record) (cd : cpu_data) :
    Except Fault (Nat × cpu_data) :=
  match cd.page with
  | none => .error .null_page
  | some page =>
    let diff := (record.ts + 2 ^ 64 - cd.ts) % 2 ^ 64
    if diff > 1 <<< 27 then
      let len := RINGBUF_TYPE_TIME_EXTEND
      let time := (diff &&& ((1 <<< 27) - 1)) % 2 ^ 32
      let time := create_type_len pevent time len
      let page := mem_write page cd.index (host_bytes pevent 4 time)
      let time := (diff >>> 27) % 2 ^ 32
      let page := mem_write page (cd.index + 4)
        (host_bytes pevent 4 (tep_read_var pevent 4 time))
      .ok (0, { cd with page := some page, ts := record.ts, index := cd.index + 8 })
    else
      let len := if record.size ≠ 0 ∧ record.size ≤ 28 * 4 then record.size / 4 else 0
      let time := diff % 2 ^ 32
      let time := create_type_len pevent time len
      let page := mem_write page cd.index (host_bytes pevent 4 time)
      if len = 0 then
        let len := record.size + 4
        if len + 4 > record.record_size then
          .error .bad_record_len
        else
          let page := mem_write page (cd.index + 4)
            (host_bytes pevent 4 (tep_read_var pevent 4 len))
          let len := (record.size + 3) &&& 0xFFFFFFFC
          let page := mem_write page (cd.index + 8) (mem_read record.data 0 len)
          .ok (1, { cd with page := some page, index := cd.index + (8 + len),
                            ts := record.ts })
      else
        let len := (record.size + 3) &&& 0xFFFFFFFC
        let page := mem_write page (cd.index + 4) (mem_read record.data 0 len)
        .ok (1, { cd with page := some page, index := cd.index + (4 + len),
                          ts := record.ts })


/-! ## Per-CPU page builder: flushing a page -/

/-- The flag `MISSING_EVENTS`. -/
def MISSING_EVENTS : Nat := 1 <<< 31

/-- The flag `MISSING_STORED`. -/
def MISSING_STORED : Nat := 1 <<< 30

/-- The local `flags` of `write_page` when the commit value is computed. -/
def page_flags (cd : cpu_data) : Nat :=
  if cd.missed_events ≠ 0 then
    if cd.missed_events > 0 then (0 ||| MISSING_EVENTS) ||| MISSING_STORED
    else 0 ||| MISSING_EVENTS
  else 0

/-- The local `ptr` of `write_page`: where the missed-events count goes, as an
offset into the page; `none` is the NULL pointer. -/
def missed_ptr (cd : cpu_data) : Option Nat :=
  if cd.missed_events ≠ 0 then
    if cd.missed_events > 0 then some cd.index else none
  else none

/-- The local `index` of `write_page`: the commit value.  `cpu_data->index` and
the constant are `int`, `flags` is `unsigned int`, so the sum is computed
modulo `2 ^ 32` in both branches and widened afterwards. -/
def commit_value (cd : cpu_data) (long_size : Nat) : Nat :=
  if long_size = 8 then (cd.index + 2 ^ 32 - 16 + page_flags cd) % 2 ^ 32
  else (cd.index + 2 ^ 32 - 12 + page_flags cd) % 2 ^ 32

/-- The page memory after `write_page` stored the commit value and the
missed-events count. -/
def write_page_mem (pevent : tep_handle) (cd : cpu_data) (long_size : Nat) (page : Mem) : Mem :=
  let page :=
    if long_size = 8 then
      mem_write page cd.commit
        (host_bytes pevent 8 (tep_read_var pevent 8 (commit_value cd long_size)))
    else
      mem_write page cd.commit
        (host_bytes pevent 4 (tep_read_var pevent 4 (commit_value cd long_size)))
  match missed_ptr cd with
  | some p => mem_write page p (host_bytes pevent 8 (tep_read_var pevent 8 cd.missed_events))
  | none => page

/-- The function `write_page`, up to its final `write`: the builder with the
page memory as it is handed to `write`. -/
def write_page (pevent : tep_handle) (cd : cpu_data) (long_size : Nat) : cpu_data :=
  { cd with page := cd.page.map (write_page_mem pevent cd long_size) }

/-- The bytes that the final `write(fd, page, page_size)` of `write_page` sends
to the temp file, `cd` being the builder that `write_page` returned. -/
def page_image (page_size : Nat) (cd : cpu_data) : List Nat :=
  match cd.page with
  | some page => mem_read page 0 page_size
  | none => []

/-! ## The input trace -/

/-- Modelled from the spec: the input handle `struct tracecmd_input` of the
trace container library (spec 6, input side).  `recs c` are the records of
CPU `c` in file order, `next c` those not yet read (the cursor of CPU `c`). -/
structure tracecmd_input where
  pevent : tep_handle
  long_size : Nat
  page_size : Nat
  cpus : Nat
  recs : Nat → List tep_record
  next : Nat → List tep_record

/-- Modelled from the spec: `tracecmd_read_data(handle, cpu)`, the per-CPU
iterator: the next record of `cpu`, which is consumed. -/
def tracecmd_read_data (handle : tracecmd_input) (cpu : Nat) :
    Option tep_record × tracecmd_input :=
  match handle.next cpu with
  | [] => (none, handle)
  | r :: rest => (some r, { handle with next := Function.update handle.next cpu rest })

/-- Modelled from the spec: the choice made by `tracecmd_read_next_data`: the
CPU whose pending record has the smallest timestamp, the lowest CPU first
among equals. -/
def next_cpu (handle : tracecmd_input) : Option (Nat × Nat) :=
  (List.range handle.cpus).foldl
    (fun best cpu =>
      match handle.next cpu with
      | [] => best
      | r :: _ =>
        match best with
        | none => some (cpu, r.ts)
        | some (_, ts) => if r.ts < ts then some (cpu, r.ts) else best)
    none

/-- Modelled from the spec: `tracecmd_read_next_data(handle, &cpu)`, the
global iterator: the next record in timestamp order across all CPUs and the
CPU that produced it; `cpu` is left alone when there is no record. -/
def tracecmd_read_next_data (handle : tracecmd_input) (cpu : Nat) :
    Option tep_record × Nat × tracecmd_input :=
  match next_cpu handle with
  | none => (none, cpu, handle)
  | some (c, _) =>
    let (r, h) := tracecmd_read_data handle c
    (r, c, h)

/-- Modelled from the spec: `tracecmd_set_cpu_to_timestamp(handle, cpu, ts)`:
the iterator of `cpu` is directed to its first record at or after `ts`. -/
def tracecmd_set_cpu_to_timestamp (handle : tracecmd_input) (cpu ts : Nat) : tracecmd_input :=
  { handle with
    next := Function.update handle.next cpu ((handle.recs cpu).dropWhile (fun r => r.ts < ts)) }

/-- The function `read_record`: the record, the new value of `cpu`, the handle. -/
def read_record (handle : tracecmd_input) (percpu : Bool) (cpu : Nat) :
    Option tep_record × Nat × tracecmd_input :=
  if percpu then
    let (r, h) := tracecmd_read_data handle cpu
    (r, cpu, h)
  else
    tracecmd_read_next_data handle cpu

/-- The function `set_cpu_time`. -/
def set_cpu_time (handle : tracecmd_input) (percpu : Bool) (start cpu cpus : Nat) :
    tracecmd_input :=
  if percpu then
    tracecmd_set_cpu_to_timestamp handle cpu start
  else
    (List.range cpus).foldl (fun h c => tracecmd_set_cpu_to_timestamp h c start) handle

/-- The number of records that `read_record` can still return. -/
def pending (handle : tracecmd_input) (percpu : Bool) (cpu : Nat) : Nat :=
  if percpu then (handle.next cpu).length
  else ((List.range handle.cpus).map (fun c => (handle.next c).length)).sum

/-! ## The chunk driver -/

/-- What `parse_cpu` does to the output, in the order in which it does it. -/
inductive Event
  /-- The page of `cpu` was zeroed and started for `record`. -/
  | opened (cpu : Nat) (record : tep_record)
  /-- The call `write_page` handed the page of `cpu` to `write`; `cd` is the builder then. -/
  | flushed (cpu : Nat) (cd : cpu_data)
  /-- The call `write_record` wrote `record` at offset `idx` and returned 1. -/
  | appended (cpu : Nat) (record : tep_record) (idx : Nat)
  /-- The call `write_record` wrote a TIME_EXTEND at offset `idx` and returned 0. -/
  | extended (cpu : Nat) (record : tep_record) (idx : Nat)

/-- The variables of `parse_cpu` that its loops change, and the event log. -/
structure parse_state where
  handle : tracecmd_input
  cpu_data : Nat → cpu_data
  record : Option tep_record
  cpu : Nat
  start : Nat
  count : Nat
  pages : Nat
  log : List Event

/-- The test that sends a record to a new page (the first `if` of the main loop). -/
def needs_new_page (page_size : Nat) (cd : cpu_data) (record : tep_record) : Bool :=
  decide (cd.index + record.record_size > page_size) || decide (record.missed_events ≠ 0)

/-- The builder after the new-page branch started a page for `record` in the
buffer `page`: the buffer is zeroed, the timestamp of the record is stored in
its first 8 bytes, the commit slot follows, `index` is set past both. -/
def start_page (h : tracecmd_input) (cd : cpu_data) (page : Mem) (record : tep_record) :
    cpu_data :=
  { cd with
    missed_events := record.missed_events
    page := some (mem_write (mem_zero page h.page_size) 0
      (host_bytes h.pevent 8 (tep_read_var h.pevent 8 record.ts)))
    ts := record.ts
    commit := 8
    index := 8 + h.long_size }

/-- The body of the new-page branch after the `SPLIT_PAGES` test: flush the open
page or allocate the buffer, then start the page for `record`. -/
def new_page (s : parse_state) (record : tep_record) : parse_state :=
  let h := s.handle
  let cd := s.cpu_data s.cpu
  match cd.page with
  | some _ =>
    let flushedcd := write_page h.pevent cd h.long_size
    { s with
      cpu_data := Function.update s.cpu_data s.cpu
        (start_page h flushedcd (flushedcd.page.getD (fun _ => 0)) record)
      log := s.log ++ [Event.flushed s.cpu flushedcd, Event.opened s.cpu record] }
  | none =>
    { s with
      cpu_data := Function.update s.cpu_data s.cpu (start_page h cd (fun _ => 0) record)
      log := s.log ++ [Event.opened s.cpu record] }

/-- The clearing of the offsets when the input is exhausted: the new
`cpu_data` and the new value of `cpu`. -/
def clear_offsets (cpus : Nat) (percpu : Bool) (cpu : Nat) (cds : Nat → cpu_data) :
    (Nat → cpu_data) × Nat :=
  if percpu then
    (Function.update cds cpu { cds cpu with offset := 0 }, cpu)
  else
    ((List.range cpus).foldl (fun f c => Function.update f c { f c with offset := 0 }) cds, cpus)

/-- The `switch (type)` after a record was written: the new `record` and `count`. -/
def apply_split (type : split_types) (start count_limit : Nat)
    (record : Option tep_record) (count : Nat) : Option tep_record × Nat :=
  match type with
  | .SPLIT_NONE => (record, count)
  | .SPLIT_SECONDS =>
    match record with
    | some r =>
      if r.ts > (start + (count_limit * 1000000000) % 2 ^ 64) % 2 ^ 64 then (none, count)
      else (record, count)
    | none => (record, count)
  | .SPLIT_MSECS =>
    match record with
    | some r =>
      if r.ts > (start + (count_limit * 1000000) % 2 ^ 64) % 2 ^ 64 then (none, count)
      else (record, count)
    | none => (record, count)
  | .SPLIT_USECS =>
    match record with
    | some r =>
      if r.ts > (start + (count_limit * 1000) % 2 ^ 64) % 2 ^ 64 then (none, count)
      else (record, count)
    | none => (record, count)
  | .SPLIT_EVENTS =>
    if count + 1 ≥ count_limit then (none, count + 1) else (record, count + 1)
  | .SPLIT_PAGES => (record, count)

/-- The first `if` of the body of the main loop: the boolean is `true` when the
`SPLIT_PAGES` limit left the loop by `break`; otherwise the state is the one
after the new-page branch, or the old one when the record fits. -/
def page_step (type : split_types) (count_limit : Nat) (s : parse_state) (record : tep_record) :
    Bool × parse_state :=
  if needs_new_page s.handle.page_size (s.cpu_data s.cpu) record then
    if type = .SPLIT_PAGES then
      if s.pages + 1 > count_limit then (true, { s with pages := s.pages + 1 })
      else (false, new_page { s with pages := s.pages + 1 } record)
    else (false, new_page s record)
  else (false, s)

/-- The state after `write_record` returned 1 and left the builder `cd`: the
next record is read, the offsets are cleared at the end of the input, and the
split predicate is consulted. -/
def consume (type : split_types) (count_limit : Nat) (percpu : Bool) (s : parse_state)
    (record : tep_record) (cd : cpu_data) : parse_state :=
  let cds := Function.update s.cpu_data s.cpu cd
  let log := s.log ++ [Event.appended s.cpu record (s.cpu_data s.cpu).index]
  let next := read_record s.handle percpu s.cpu
  let cleared :=
    match next.1 with
    | none => clear_offsets s.handle.cpus percpu next.2.1 cds
    | some _ => (cds, next.2.1)
  let split := apply_split type s.start count_limit next.1 s.count
  { s with handle := next.2.2, cpu_data := cleared.1, record := split.1, cpu := cleared.2,
           count := split.2, log := log }

/-- The rest of the body of the main loop: the offset is noted, `write_record`
is called, and the record is consumed when it was written. -/
def record_step (type : split_types) (count_limit : Nat) (percpu : Bool) (s : parse_state)
    (record : tep_record) : Except Fault parse_state :=
  match write_record s.handle.pevent record { s.cpu_data s.cpu with offset := record.offset } with
  | .error e => .error e
  | .ok (ret, cd) =>
    if ret ≠ 0 then .ok (consume type count_limit percpu s record cd)
    else
      .ok { s with cpu_data := Function.update s.cpu_data s.cpu cd
                   log := s.log ++ [Event.extended s.cpu record (s.cpu_data s.cpu).index] }

/-- One pass through the body of the main loop of `parse_cpu` for the current
`record`.  The boolean is `true` when the body left the loop by `break`. -/
def loop_body (type : split_types) (count_limit : Nat) (percpu : Bool)
    (s : parse_state) (record : tep_record) : Except Fault (Bool × parse_state) :=
  match page_step type count_limit s record with
  | (true, s) => .ok (true, s)
  | (false, s) =>
    match record_step type count_limit percpu s record with
    | .error e => .error e
    | .ok s => .ok (false, s)

/-- The main loop of `parse_cpu`, `while (record && (!end || record->ts <= end))`. -/
def main_loop (type : split_types) (stop count_limit : Nat) (percpu : Bool) :
    Nat → parse_state → Except Fault parse_state
  | 0, _ => .error .out_of_fuel
  | fuel + 1, s =>
    match s.record with
    | none => .ok s
    | some record =>
      if stop = 0 ∨ record.ts ≤ stop then
        match loop_body type count_limit percpu s record with
        | .error e => .error e
        | .ok (true, s) => .ok s
        | .ok (false, s) => main_loop type stop count_limit percpu fuel s
      else .ok s

/-- The loop of `parse_cpu` that drops the records before `start`,
`while (record && record->ts < start)`. -/
def skip_loop (percpu : Bool) (start : Nat) :
    Nat → Option tep_record × Nat × tracecmd_input →
      Except Fault (Option tep_record × Nat × tracecmd_input)
  | 0, _ => .error .out_of_fuel
  | fuel + 1, (record, cpu, handle) =>
    match record with
    | none => .ok (record, cpu, handle)
    | some r =>
      if r.ts < start then skip_loop percpu start fuel (read_record handle percpu cpu)
      else .ok (record, cpu, handle)

/-- The start of `parse_cpu`: every builder concerned is marked as having no
open page; the new `cpu_data` and the new value of `cpu`. -/
def force_new_pages (page_size cpus : Nat) (percpu : Bool) (cpu : Nat) (cds : Nat → cpu_data) :
    (Nat → cpu_data) × Nat :=
  if percpu then
    (Function.update cds cpu { cds cpu with index := page_size + 1, page := none }, cpu)
  else
    ((List.range cpus).foldl
      (fun f c => Function.update f c { f c with index := page_size + 1, page := none }) cds,
     cpus)

/-- The flush of one builder at the end of `parse_cpu`. -/
def final_flush_one (h : tracecmd_input) (cds : Nat → cpu_data) (log : List Event) (cpu : Nat) :
    (Nat → cpu_data) × List Event :=
  match (cds cpu).page with
  | some _ =>
    let cd := write_page h.pevent (cds cpu) h.long_size
    (Function.update cds cpu { cd with page := none }, log ++ [Event.flushed cpu cd])
  | none => (cds, log)

/-- The end of `parse_cpu`: the pages still open are flushed and freed. -/
def final_flush (percpu : Bool) (s : parse_state) : parse_state :=
  let (cds, log) :=
    if percpu then final_flush_one s.handle s.cpu_data s.log s.cpu
    else
      (List.range s.handle.cpus).foldl
        (fun acc c => final_flush_one s.handle acc.1 acc.2 c) (s.cpu_data, s.log)
  { s with cpu_data := cds, log := log, cpu := if percpu then s.cpu else s.handle.cpus }

/-- The state of `parse_cpu` when it enters its main loop. -/
def parse_start (handle : tracecmd_input) (cpu_data : Nat → cpu_data) (start : Nat)
    (percpu : Bool) (cpu : Nat) : Except Fault parse_state :=
  let (cds, cpu) := force_new_pages handle.page_size handle.cpus percpu cpu cpu_data
  let first := read_record handle percpu cpu
  if start ≠ 0 then
    let h := set_cpu_time first.2.2 percpu start first.2.1 handle.cpus
    match skip_loop percpu start (pending h percpu first.2.1 + 2) (first.1, first.2.1, h) with
    | .error e => .error e
    | .ok (record, cpu, h) =>
      .ok { handle := h, cpu_data := cds, record := record, cpu := cpu, start := start,
            count := 0, pages := 0, log := [] }
  else
    let start := match first.1 with
      | some r => r.ts
      | none => start
    .ok { handle := first.2.2, cpu_data := cds, record := first.1, cpu := first.2.1,
          start := start, count := 0, pages := 0, log := [] }

/-- The function `parse_cpu`.  The result is the final state: the builders,
the input handle and the log of what was written. -/
def parse_cpu (handle : tracecmd_input) (cpu_data : Nat → cpu_data) (start stop count_limit : Nat)
    (percpu : Bool) (cpu : Nat) (type : split_types) : Except Fault parse_state :=
  match parse_start handle cpu_data start percpu cpu with
  | .error e => .error e
  | .ok s =>
    match main_loop type stop count_limit percpu (2 * pending s.handle percpu s.cpu + 3) s with
    | .error e => .error e
    | .ok s => .ok (final_flush percpu s)

/-! ## Reading back what was written -/

/-- The 32-bit word that a reader of the capture finds at offset `idx` of the page of `cd`. -/
def read_word (pevent : tep_handle) (cd : cpu_data) (idx : Nat) : Nat :=
  match cd.page with
  | some page => of_file_bytes pevent (mem_read page idx 4)
  | none => 0

/-- The 64-bit word that a reader of the capture finds at offset `idx` of the page of `cd`. -/
def read_long (pevent : tep_handle) (cd : cpu_data) (idx : Nat) : Nat :=
  match cd.page with
  | some page => of_file_bytes pevent (mem_read page idx 8)
  | none => 0

/-- The return value of a call of `write_record`, with the `len_field` and the
delta that a reader decodes from the header word left at offset `idx`. -/
def written_header (pevent : tep_handle) (idx : Nat) (res : Except Fault (Nat × cpu_data)) :
    Option (Nat × Nat × Nat) :=
  match res with
  | .ok (ret, cd) =>
    some (ret, header_len_field pevent (read_word pevent cd idx),
      header_delta pevent (read_word pevent cd idx))
  | .error _ => none

/-- The `len` that `write_record` passes to `create_type_len` for a normal record. -/
def inline_len (record : tep_record) : Nat :=
  if record.size ≠ 0 ∧ record.size ≤ 28 * 4 then record.size / 4 else 0

/-- The size of a record as `write_record` frames it: the header word, the
length word when the `len_field` is 0, and the payload padded to 4 bytes. -/
def framed_size (record : tep_record) : Nat :=
  (if inline_len record = 0 then 8 else 4) + (record.size + 3) / 4 * 4

/-- The `n` bytes at offset `off` of the page of `cd`. -/
def page_read (cd : cpu_data) (off n : Nat) : List Nat :=
  match cd.page with
  | some page => mem_read page off n
  | none => []

/-- The difference `record->ts - cpu_data->ts` of `write_record`, in 64-bit arithmetic. -/
def ts_diff (record : tep_record) (cd : cpu_data) : Nat :=
  (record.ts + 2 ^ 64 - cd.ts) % 2 ^ 64

/-! ## Reading the event log -/

/-- The effect of one event on the record that opened the page still open on each CPU. -/
def track (cur : Nat → Option tep_record) (e : Event) : Nat → Option tep_record :=
  match e with
  | .opened c r => Function.update cur c (some r)
  | .flushed c _ => Function.update cur c none
  | .appended _ _ _ => cur
  | .extended _ _ _ => cur

/-- The record that opened the page of CPU `c` that is open after the events
`log`; `none` when no page of `c` is open then. -/
def open_at (log : List Event) : Nat → Option tep_record :=
  log.foldl track (fun _ => none)

/-- Every event of `log` satisfies `φ` with respect to the events before it. -/
def Every (φ : List Event → Event → Prop) (log : List Event) : Prop :=
  ∀ l1 e l2, log = l1 ++ e :: l2 → φ l1 e

/-- The CPU of an event. -/
def Event.cpu : Event → Nat
  | .opened c _ => c
  | .flushed c _ => c
  | .appended c _ _ => c
  | .extended c _ _ => c

/-- The CPUs that a call of `parse_cpu` works on: the CPU `cpu0` of the call in
per-CPU mode, every CPU of the capture otherwise. -/
def relevant (percpu : Bool) (cpu0 cpus : Nat) (c : Nat) : Prop :=
  if percpu then c = cpu0 else c < cpus

/-- A summary of an event that can be compared: the kind (0 opened, 1 flushed,
2 appended, 3 extended), the CPU, the timestamp of the record (for a flush the
base timestamp of the builder), and the offset (for an opened page 0, for a
flush the `index` of the builder). -/
def Event.key : Event → Nat × Nat × Nat × Nat
  | .opened c r => (0, c, r.ts, 0)
  | .flushed c cd => (1, c, cd.ts, cd.index)
  | .appended c r i => (2, c, r.ts, i)
  | .extended c r i => (3, c, r.ts, i)

/-- The summaries of the events of a run; `none` when the run ended in a fault. -/
def run_keys (res : Except Fault parse_state) : Option (List (Nat × Nat × Nat × Nat)) :=
  match res with
  | .ok s => some (s.log.map Event.key)
  | .error _ => none

/-! ## Invariants of the chunk driver -/

/-- The handles `h2` and `h` differ at most in their cursors. -/
def same_static (h2 h : tracecmd_input) : Prop :=
  h2.pevent = h.pevent ∧ h2.long_size = h.long_size ∧ h2.page_size = h.page_size ∧
  h2.cpus = h.cpus ∧ h2.recs = h.recs

/-- The state of the iterator of `parse_cpu` (the record in hand, the variable
`cpu`, the handle) is in order: the handle is `h` up to the cursors, the
record in hand and the records still to be read on the CPUs of the call
satisfy `G`, and `cpu` is a CPU that the call works on. -/
def iter_ok (G : tep_record → Prop) (h : tracecmd_input) (percpu : Bool) (cpu0 : Nat)
    (it : Option tep_record × Nat × tracecmd_input) : Prop :=
  same_static it.2.2 h ∧
  (∀ c y, relevant percpu cpu0 h.cpus c → y ∈ it.2.2.next c → G y) ∧
  (∀ y, it.1 = some y → G y) ∧
  (percpu = true → it.2.1 = cpu0) ∧
  (percpu = false → it.1 ≠ none → it.2.1 < h.cpus)

/-- A flush in order: a page of the CPU is open, opened by some record `r`; the
builder `cd0` that was flushed holds a page and satisfies `Q r`; the event shows
the builder that `write_page` made of it. -/
def flush_ok (h : tracecmd_input) (Q : tep_record → cpu_data → Prop)
    (before : List Event) (e : Event) : Prop :=
  ∀ c cd, e = Event.flushed c cd →
    ∃ r cd0, open_at before c = some r ∧ cd0.page ≠ none ∧ Q r cd0 ∧
      cd = write_page h.pevent cd0 h.long_size

/-- A page start in order: no page of the CPU is open. -/
def open_ok (before : List Event) (e : Event) : Prop :=
  ∀ c r, e = Event.opened c r → open_at before c = none

/-- An append in order: a page of the CPU is open, and a record that carries
missed events is written right after its page was started, at the first
offset behind the page header. -/
def append_ok (h : tracecmd_input) (before : List Event) (e : Event) : Prop :=
  ∀ c r i, e = Event.appended c r i →
    (∃ r0, open_at before c = some r0) ∧
    (r.missed_events ≠ 0 →
      before.getLast? = some (Event.opened c r) ∧ i = 8 + h.long_size)

/-- The invariant of the main loop of `parse_cpu` that pairs page starts with
flushes.  `Q r cd` is what is known of a builder `cd` whose open page was
started for the record `r`. -/
def pages_inv (G : tep_record → Prop) (Q : tep_record → cpu_data → Prop)
    (h : tracecmd_input) (percpu : Bool) (cpu0 : Nat) (s : parse_state) : Prop :=
  iter_ok G h percpu cpu0 (s.record, s.cpu, s.handle) ∧
  (∀ e ∈ s.log, relevant percpu cpu0 h.cpus e.cpu) ∧
  (∀ c r, open_at s.log c = some r → (s.cpu_data c).page ≠ none ∧ Q r (s.cpu_data c)) ∧
  (∀ c, open_at s.log c = none → relevant percpu cpu0 h.cpus c → (s.cpu_data c).page = none) ∧
  Every (flush_ok h Q) s.log ∧ Every open_ok s.log ∧ Every (append_ok h) s.log

/-- What the invariant needs of `Q`: it holds when a page is started, it
survives `write_record` (called either on a page that the record fits in, or on
the page just started for the record), and it does not depend on `offset`. -/
def page_fact (G : tep_record → Prop) (Q : tep_record → cpu_data → Prop)
    (h : tracecmd_input) : Prop :=
  (∀ cd page record, G record → Q record (start_page h cd page record)) ∧
  (∀ r record cd ret cd2, Q r cd → G record →
    (needs_new_page h.page_size cd record = false ∨
      (r = record ∧ ∃ cd0 page, cd = start_page h cd0 page record)) →
    write_record h.pevent record { cd with offset := record.offset } = .ok (ret, cd2) →
    Q r cd2) ∧
  (∀ r cd, Q r cd → Q r { cd with offset := 0 })

/-- The record is consistently framed for `write_record` and fits in an empty
page: its `record_size` covers the framed size (it is the framed size, or more
when the input kept a length word that `write_record` does not write), and an
empty page has room for it. -/
def well_framed (h : tracecmd_input) (r : tep_record) : Prop :=
  framed_size r ≤ r.record_size ∧ 8 + h.long_size + r.record_size ≤ h.page_size

/-- What holds of the builder `cd` of a page started for the record `r` when
the records are well framed: the pending missed-events count is that of `r`,
the commit slot is at offset 8, and `index` lies between the end of the page
header and the end of the page. -/
def page_bounds (h : tracecmd_input) (r : tep_record) (cd : cpu_data) : Prop :=
  cd.missed_events = r.missed_events ∧ cd.commit = 8 ∧
  8 + h.long_size ≤ cd.index ∧ cd.index ≤ h.page_size

/-- The commit value that a reader of the capture finds in a flushed page. -/
def read_commit (h : tracecmd_input) (cd : cpu_data) : Nat :=
  of_file_bytes h.pevent (page_read cd 8 h.long_size)

/-! ## A small capture for the examples -/

/-- A record of the example capture: timestamp `ts`, payload of `size` bytes
`1, 2, 3, ...`, `missed` missed events, framed as `write_record` frames it. -/
def demo_record (ts size missed : Nat) : tep_record :=
  { ts := ts, offset := ts, missed_events := missed,
    record_size := (if size < 4 ∨ 112 < size then 8 else 4) + (size + 3) / 4 * 4,
    size := size, data := fun i => i + 1 }

/-- The records of CPU 0 of the example capture. -/
def demo_records : List tep_record :=
  [demo_record 100 4 0, demo_record 110 8 0, demo_record 120 24 0, demo_record 130 4 7,
   demo_record (130 + 2 ^ 27 + 5) 4 0]

/-- The example capture: little-endian, 8-byte long, pages of 64 bytes, one CPU. -/
def demo_handle : tracecmd_input :=
  { pevent := ⟨false, false⟩, long_size := 8, page_size := 64, cpus := 1,
    recs := fun c => if c = 0 then demo_records else [],
    next := fun c => if c = 0 then demo_records else [] }

/-- The builders before the first chunk, as `parse_file` leaves them. -/
def demo_cpu_data : Nat → cpu_data :=
  fun _ => { ts := 0, offset := 0, missed_events := 0, index := 0, commit := 0, page := none }

/-- The final state of a run, or the state `d` when the run ended in a fault. -/
def final_state (res : Except Fault parse_state) (d : parse_state) : parse_state :=
  match res with
  | .ok s => s
  | .error _ => d

/-- A state with nothing in it. -/
def empty_state (h : tracecmd_input) : parse_state :=
  { handle := h, cpu_data := demo_cpu_data, record := none, cpu := 0, start := 0, count := 0,
    pages := 0, log := [] }

/-- The event starts or flushes a page of CPU `c`. -/
def page_event (c : Nat) (e : Event) : Prop :=
  (∃ r, e = Event.opened c r) ∨ (∃ cd, e = Event.flushed c cd)

/-- The record is one of the records of the input. -/
def input_record (h : tracecmd_input) (y : tep_record) : Prop :=
  ∃ c, y ∈ h.recs c ∨ y ∈ h.next c

/-- The record is a record of the input at or after `start`. -/
def from_start (h : tracecmd_input) (start : Nat) (y : tep_record) : Prop :=
  start ≤ y.ts ∧ input_record h y

/-- The builders that a log shows as flushed, in the order of the flushes. -/
def flushed_builders (log : List Event) : List cpu_data :=
  log.filterMap (fun e =>
    match e with
    | .flushed _ cd => some cd
    | _ => none)

/-- What a flushed builder shows of the missed-events count: `index`, the offset
at which `write_page` stored the count, whether MISSING_STORED (bit 30) is set
in the commit value read from the page, whether the 8 bytes of the count lie
inside the page, and the count read back at `index`. -/
def stored_count_summary (h : tracecmd_input) (cd : cpu_data) :
    Nat × Option Nat × Bool × Bool × Nat :=
  (cd.index, missed_ptr cd, (read_commit h cd).testBit 30,
    decide (cd.index + 8 ≤ h.page_size), read_long h.pevent cd cd.index)

/-- A capture with pages of 4096 bytes whose only record follows 7 missed
events and fills its page to the last byte (4072 bytes of payload). -/
def full_page_handle : tracecmd_input :=
  { pevent := ⟨false, false⟩, long_size := 8, page_size := 4096, cpus := 1,
    recs := fun c => if c = 0 then [demo_record 100 4072 7] else [],
    next := fun c => if c = 0 then [demo_record 100 4072 7] else [] }

/-- A capture with pages of 64 bytes whose second record fills the first page
to the last byte and lies more than `1 << 27` after the first. -/
def far_record_handle : tracecmd_input :=
  { pevent := ⟨false, false⟩, long_size := 8, page_size := 64, cpus := 1,
    recs := fun c => if c = 0 then [demo_record 100 4 0, demo_record (101 + 2 ^ 27) 36 0] else [],
    next := fun c => if c = 0 then [demo_record 100 4 0, demo_record (101 + 2 ^ 27) 36 0] else [] }

/-- The measure that every pass through the body of the main loop decreases:
twice the number of records still to be read, plus 2 for a record in hand,
or 1 when the base timestamp of its builder is already its timestamp. -/
def loop_measure (percpu : Bool) (s : parse_state) : Nat :=
  2 * pending s.handle percpu s.cpu +
    (match s.record with
     | none => 0
     | some r => if (s.cpu_data s.cpu).ts = r.ts then 1 else 2)

/-- On the CPUs of the call a builder without a page has the `index` that
forces a new page. -/
def closed_inv (h : tracecmd_input) (percpu : Bool) (cpu0 : Nat) (s : parse_state) : Prop :=
  ∀ c, relevant percpu cpu0 h.cpus c → (s.cpu_data c).page = none →
    (s.cpu_data c).index = h.page_size + 1

/-! ## Observers and examples for the claims about the loop -/

/-- The state after a pass through the body of the main loop, or the state `d`
when the pass ended in a fault. -/
def body_state (res : Except Fault (Bool × parse_state)) (d : parse_state) : parse_state :=
  match res with
  | .ok (_, s) => s
  | .error _ => d

/-- A state of the main loop on the capture `far_record_handle`: the first page
holds the first record, the second record is in hand, and the page counter of
`SPLIT_PAGES` has counted the first page. -/
def retry_state : parse_state :=
  { handle := far_record_handle,
    cpu_data := fun _ => ⟨100, 0, 0, 24, 8, some (fun _ => 0)⟩,
    record := some (demo_record (101 + 2 ^ 27) 36 0), cpu := 0, start := 100, count := 0,
    pages := 1, log := [] }

/-- The rest of the open page of the builder `cd` is clean: `commit` is the
offset 8, `index` lies behind the page header, and every byte from `index` to
the end of the page is zero. -/
def tail_zero (h : tracecmd_input) (_r : tep_record) (cd : cpu_data) : Prop :=
  cd.commit = 8 ∧ 8 + h.long_size ≤ cd.index ∧
  ∀ page i, cd.page = some page → cd.index ≤ i → i < h.page_size → page i = 0

/-- The page of the builder `cd`, started for the record `r`, holds its first
record: `commit` is the offset 8, `index` lies at least 8 bytes behind the page
header, the first 8 bytes of the page are the timestamp of `r` in the byte order
of the capture, and the word behind the page header is the header word of a
normal record with delta 0 and the `len_field` of `r`. -/
def first_written (h : tracecmd_input) (r : tep_record) (cd : cpu_data) : Prop :=
  cd.commit = 8 ∧ 8 + h.long_size + 8 ≤ cd.index ∧
  page_read cd 0 8 = file_bytes h.pevent 8 r.ts ∧
  page_read cd (8 + h.long_size) 4
    = file_bytes h.pevent 4 (type_len_word h.pevent 0 (inline_len r))

/-- The event that follows the start of a page for the record `r` is the append
of `r` at the first offset behind the page header. -/
def after_open_ok (h : tracecmd_input) (before : List Event) (e : Event) : Prop :=
  ∀ c r, before.getLast? = some (Event.opened c r) → e = Event.appended c r (8 + h.long_size)

/-- The invariant of the main loop of `parse_cpu` that says that every open
page holds its first record: the pairing of page starts and flushes, with
`first_written` for every open page and for every page flushed so far; every
page start is followed by the append of its record; and the log does not end
with a page start. -/
def started_inv (h : tracecmd_input) (percpu : Bool) (cpu0 : Nat) (s : parse_state) : Prop :=
  pages_inv (fun _ => True) (fun _ _ => True) h percpu cpu0 s ∧
  (∀ c r, open_at s.log c = some r → first_written h r (s.cpu_data c)) ∧
  Every (flush_ok h (first_written h)) s.log ∧
  Every (after_open_ok h) s.log ∧
  (∀ c r, s.log.getLast? ≠ some (Event.opened c r))

/-- What a reader of the capture finds of the record `r` in the flushed page of
the builder `cd`: records were written (`index` lies at least 8 bytes behind
the page header); the first 8 bytes of the page are the timestamp of `r` in the
byte order of the capture, and read back as that timestamp; the header word
behind the page header has the `len_field` of `r`, which is at most 28 (a
normal record, not a TIME_EXTEND), and the delta 0. -/
def page_well_started (h : tracecmd_input) (r : tep_record) (cd : cpu_data) : Prop :=
  8 + h.long_size + 8 ≤ cd.index ∧
  page_read cd 0 8 = file_bytes h.pevent 8 r.ts ∧
  read_long h.pevent cd 0 = r.ts % 2 ^ 64 ∧
  header_len_field h.pevent (read_word h.pevent cd (8 + h.long_size)) = inline_len r ∧
  inline_len r ≤ 28 ∧
  header_delta h.pevent (read_word h.pevent cd (8 + h.long_size)) = 0

/-! ## Counting pages -/

/-- The number of pages started in a log. -/
def page_starts (log : List Event) : Nat :=
  log.countP (fun e =>
    match e with
    | .opened _ _ => true
    | _ => false)

/-- The invariant of the main loop of a per-CPU run with `SPLIT_PAGES` and the
limit `n`: the pages started so far are as many as `pages` counts, up to the
limit, and all of them are flushed but the one that is open. -/
def pages_count_inv (h : tracecmd_input) (cpu0 n : Nat) (s : parse_state) : Prop :=
  pages_inv (fun _ => True) (fun _ _ => True) h true cpu0 s ∧
  page_starts s.log = min s.pages n ∧
  page_starts s.log
    = (flushed_builders s.log).length + (if (s.cpu_data cpu0).page.isSome then 1 else 0)

/-! ## The time predicates -/

/-- The records that `read_record` returns from the handle `h` in `fuel` calls,
in the order in which it returns them. -/
def drain (percpu : Bool) : Nat → tracecmd_input → Nat → List tep_record
  | 0, _, _ => []
  | fuel + 1, h, cpu =>
    match (read_record h percpu cpu).1 with
    | none => []
    | some r =>
      r :: drain percpu fuel (read_record h percpu cpu).2.2 (read_record h percpu cpu).2.1

/-- The records available to the main loop in the state `s`: the record in hand
and those that `read_record` returns after it, in this order. -/
def avail (percpu : Bool) (s : parse_state) : List tep_record :=
  match s.record with
  | none => []
  | some r => r :: drain percpu (pending s.handle percpu s.cpu) s.handle s.cpu

/-- The records appended in a log, in the order of the appends. -/
def appended_records (log : List Event) : List tep_record :=
  log.filterMap (fun e =>
    match e with
    | .appended _ r _ => some r
    | _ => none)

/-- The invariant of the main loop under `SPLIT_EVENTS` with the limit `n`:
`count` is the number of records appended; the loop goes on only below the
limit; and the records appended so far followed by those still to be taken,
the first `n - count` of the available records up to the first one beyond
`stop`, make up the list `T`. -/
def events_inv (percpu : Bool) (stop n : Nat) (T : List tep_record) (s : parse_state) : Prop :=
  s.count = (appended_records s.log).length ∧
  (s.count < n ∨ s.record = none) ∧
  appended_records s.log ++
    (((avail percpu s).takeWhile (fun r => decide (stop = 0 ∨ r.ts ≤ stop))).take
      (n - s.count)) = T

/-! ## The function `parse_file` -/

/-- Modelled from the spec: `tracecmd_read_at(handle, offset, NULL)`, the record
of the capture that lies at `offset`, of the first CPU that has one; what the
call does to the cursor is left out. -/
def tracecmd_read_at (handle : tracecmd_input) (offset : Nat) : Option tep_record :=
  (List.range handle.cpus).foldl
    (fun found c =>
      match found with
      | some r => some r
      | none => (handle.recs c).find? (fun r => decide (r.offset = offset)))
    none

/-- The first loop of `parse_file`: for every CPU the `offset` of the builder is
cleared, and the cursor is sent to `start` when a start was requested.  The
other fields of the builders are what `malloc` left, the argument `cds`. -/
def parse_file_start (handle : tracecmd_input) (cds : Nat → cpu_data) (start : Nat) :
    tracecmd_input × (Nat → cpu_data) :=
  (List.range handle.cpus).foldl
    (fun (acc : tracecmd_input × (Nat → cpu_data)) cpu =>
      (if start ≠ 0 then tracecmd_set_cpu_to_timestamp acc.1 cpu start else acc.1,
       Function.update acc.2 cpu { acc.2 cpu with offset := 0 }))
    (handle, cds)

/-- The loop `for (cpu = 0; cpu < cpus; cpu++) parse_cpu(..., percpu, cpu, type)` of
`parse_file` over the CPUs `cpus`: the handle and the builders go from one call
to the next, and the logs are joined. -/
def parse_cpus (type : split_types) (start stop count : Nat) :
    List Nat → tracecmd_input × (Nat → cpu_data) × List Event →
      Except Fault (tracecmd_input × (Nat → cpu_data) × List Event)
  | [], acc => .ok acc
  | cpu :: rest, (h, cds, log) =>
    match parse_cpu h cds start stop count true cpu type with
    | .error e => .error e
    | .ok s => parse_cpus type start stop count rest (s.handle, s.cpu_data, log ++ s.log)

/-- One pass of the last loop of `parse_file`, which computes `current`: the
record at the noted `offset` of the CPU is read back, and when `current` is 0
or the timestamp of the record is greater than `current`, `current` becomes
that timestamp plus one (in 64 bits). -/
def next_start_step (handle : tracecmd_input) (cds : Nat → cpu_data) (current cpu : Nat) : Nat :=
  if (cds cpu).offset ≠ 0 then
    match tracecmd_read_at handle (cds cpu).offset with
    | some record =>
      if current = 0 ∨ record.ts > current then (record.ts + 1) % 2 ^ 64 else current
    | none => current
  else current

/-- The conversion of the `unsigned long long` value `v` to `double` that
`return current` performs in `parse_file`, whose result type is `double`: the
nearest number with 53 significant bits, the even one of two that are equally
near (IEEE 754 binary64 with the default rounding).  The `double` is given by
its value, a natural number; `v` is below `2 ^ 64`, and `e` is the number of
low bits that do not fit. -/
def double_of_u64 (v : Nat) : Nat :=
  if v < 2 ^ 53 then v
  else
    let e := ((List.range 11).filter (fun k => decide (2 ^ (53 + k) ≤ v))).length
    let q := v / 2 ^ e
    let rem := v % 2 ^ e
    if rem > 2 ^ (e - 1) ∨ (rem = 2 ^ (e - 1) ∧ q % 2 = 1) then (q + 1) * 2 ^ e
    else q * 2 ^ e

/-- What `parse_file` leaves: its return value, the `double` made of `current`,
the handle, the builders, and the log of its calls of `parse_cpu`. -/
structure file_state where
  current : Nat
  handle : tracecmd_input
  cpu_data : Nat → cpu_data
  log : List Event

/-- The function `parse_file`, without the output handle and the temp files:
the first loop, the call or calls of `parse_cpu` (`only_cpu` is the `int` of the
code, negative for none; in the call for all CPUs the argument `cpu` is -1 and
is overwritten before it is read, here 0), and the computation of `current`
from `end` (here `stop`).  The value `current` is the `unsigned long long` of
the code; the `return` converts it to the result type `double`, which changes
no value below `2 ^ 53` and rounds the others. -/
def parse_file (handle : tracecmd_input) (cpu_data : Nat → cpu_data) (start stop : Nat)
    (percpu : Bool) (only_cpu : Int) (count : Nat) (type : split_types) :
    Except Fault file_state :=
  let init := parse_file_start handle cpu_data start
  let chunk : Except Fault (tracecmd_input × (Nat → TraceSplit.cpu_data) × List Event) :=
    if only_cpu ≥ 0 then
      match parse_cpu init.1 init.2 start stop count true only_cpu.toNat type with
      | .error e => .error e
      | .ok s => .ok (s.handle, s.cpu_data, s.log)
    else if percpu then
      parse_cpus type start stop count (List.range init.1.cpus) (init.1, init.2, [])
    else
      match parse_cpu init.1 init.2 start stop count false 0 type with
      | .error e => .error e
      | .ok s => .ok (s.handle, s.cpu_data, s.log)
  match chunk with
  | .error e => .error e
  | .ok (h, cds, log) =>
    .ok { current := double_of_u64 ((List.range h.cpus).foldl (next_start_step h cds) stop),
          handle := h, cpu_data := cds, log := log }

/-- The final state of a call of `parse_file`, or the state `d` when the call
ended in a fault. -/
def file_final (res : Except Fault file_state) (d : file_state) : file_state :=
  match res with
  | .ok s => s
  | .error _ => d

/-- A result of `parse_file` with nothing in it. -/
def empty_file (h : tracecmd_input) : file_state :=
  { current := 0, handle := h, cpu_data := demo_cpu_data, log := [] }

/-! ## The pages that a list of records needs -/

/-- The records of a list up to the first one beyond `stop`, the end of the
window (`stop = 0` is no end): those that pass the test of the main loop. -/
def in_window (stop : Nat) (l : List tep_record) : List tep_record :=
  l.takeWhile (fun r => decide (stop = 0 ∨ r.ts ≤ stop))

/-- The record in hand and the records behind the cursor of its CPU, for a
triple of the record, the CPU and the handle as `read_record` returns it. -/
def held (x : Option tep_record × Nat × tracecmd_input) : List tep_record :=
  match x.1 with
  | none => []
  | some r => r :: x.2.2.next x.2.1

/-- The records that a per-CPU pass of `parse_cpu` has before it for its main
loop, in terms of the input (`record = read_record(...)`, then, `if (start)`,
`set_cpu_time` and the skip loop): without a requested start the records behind
the cursor of the CPU; with one, the records of the CPU from `start` on,
preceded by the record that was read before the seek unless that record is
before `start`, and nothing when the cursor had no record. -/
def pass_records (handle : tracecmd_input) (start cpu : Nat) : List tep_record :=
  if start = 0 then handle.next cpu
  else
    match handle.next cpu with
    | [] => []
    | first :: _ =>
      if first.ts < start then (handle.recs cpu).dropWhile (fun r => decide (r.ts < start))
      else first :: (handle.recs cpu).dropWhile (fun r => decide (r.ts < start))

/-! ## Lemmas: bytes, memory, bit operations -/

theorem le_bytes_length (w v : Nat) : (le_bytes w v).length = w := by
  induction w generalizing v with
  | zero => rfl
  | succ n ih => simp [le_bytes, ih]

theorem le_bytes_lt (w v : Nat) : ∀ b ∈ le_bytes w v, b < 256 := by
  induction w generalizing v with
  | zero => simp [le_bytes]
  | succ n ih =>
    intro b hb
    simp only [le_bytes, List.mem_cons] at hb
    rcases hb with rfl | hb
    · exact Nat.mod_lt _ (by norm_num)
    · exact ih _ b hb

theorem of_le_bytes_le_bytes (w v : Nat) : of_le_bytes (le_bytes w v) = v % 256 ^ w := by
  induction w generalizing v with
  | zero => simp [le_bytes, of_le_bytes, Nat.mod_one]
  | succ n ih =>
    simp only [le_bytes, of_le_bytes, ih]
    rw [pow_succ, mul_comm (256 ^ n) 256, Nat.mod_mul]

theorem le_bytes_of_le_bytes (bs : List Nat) (h : ∀ b ∈ bs, b < 256) :
    le_bytes bs.length (of_le_bytes bs) = bs := by
  induction bs with
  | nil => rfl
  | cons b bs ih =>
    have hb : b < 256 := h b (List.mem_cons_self _ _)
    have ih2 := ih (fun x hx => h x (List.mem_cons_of_mem _ hx))
    simp only [List.length_cons, le_bytes, of_le_bytes]
    have h1 : (b + 256 * of_le_bytes bs) % 256 = b := by omega
    have h2 : (b + 256 * of_le_bytes bs) / 256 = of_le_bytes bs := by omega
    rw [h1, h2, ih2]

theorem host_bytes_length (pevent : tep_handle) (w v : Nat) :
    (host_bytes pevent w v).length = w := by
  unfold host_bytes be_bytes
  split <;> simp [le_bytes_length]

theorem file_bytes_length (pevent : tep_handle) (w v : Nat) :
    (file_bytes pevent w v).length = w := by
  unfold file_bytes be_bytes
  split <;> simp [le_bytes_length]

/-- Storing the result of `tep_read_number(pevent, &v, w)` through a host
pointer leaves the bytes of `v` in the byte order of the capture. -/
theorem host_bytes_tep_read_var (pevent : tep_handle) (w v : Nat) :
    host_bytes pevent w (tep_read_var pevent w v) = file_bytes pevent w v := by
  have hrev : ∀ b ∈ (le_bytes w v).reverse, b < 256 := by
    intro b hb
    exact le_bytes_lt w v b (List.mem_reverse.mp hb)
  have hlen : (le_bytes w v).reverse.length = w := by simp [le_bytes_length]
  have e1 := le_bytes_of_le_bytes (le_bytes w v) (le_bytes_lt w v)
  have e2 := le_bytes_of_le_bytes (le_bytes w v).reverse hrev
  rw [le_bytes_length] at e1
  rw [hlen] at e2
  unfold tep_read_var tep_read_number of_file_bytes host_bytes file_bytes be_bytes of_be_bytes
  cases pevent.host_bigendian <;> cases pevent.file_bigendian <;>
    simp [e1, e2]

theorem of_file_bytes_file_bytes (pevent : tep_handle) (w v : Nat) :
    of_file_bytes pevent (file_bytes pevent w v) = v % 256 ^ w := by
  unfold of_file_bytes file_bytes be_bytes of_be_bytes
  cases pevent.file_bigendian <;> simp [of_le_bytes_le_bytes]

theorem mem_read_length (m : Mem) (off n : Nat) : (mem_read m off n).length = n := by
  simp [mem_read]

theorem mem_write_outside (m : Mem) (off : Nat) (bs : List Nat) (i : Nat)
    (h : i < off ∨ off + bs.length ≤ i) : mem_write m off bs i = m i := by
  unfold mem_write
  rw [if_neg]
  omega

theorem mem_write_inside (m : Mem) (off : Nat) (bs : List Nat) (i : Nat)
    (h : i < bs.length) : mem_write m off bs (off + i) = bs.getD i 0 := by
  unfold mem_write
  rw [if_pos (by omega)]
  simp

theorem mem_read_mem_write_same (m : Mem) (off : Nat) (bs : List Nat) :
    mem_read (mem_write m off bs) off bs.length = bs := by
  apply List.ext_getElem
  · simp [mem_read]
  · intro i h1 h2
    simp only [mem_read, List.getElem_map, List.getElem_range]
    rw [mem_write_inside m off bs i h2]
    simp [List.getD_eq_getElem?_getD, h2]

theorem mem_read_mem_write_disjoint (m : Mem) (off : Nat) (bs : List Nat) (a n : Nat)
    (h : a + n ≤ off ∨ off + bs.length ≤ a) :
    mem_read (mem_write m off bs) a n = mem_read m a n := by
  unfold mem_read
  apply List.map_congr_left
  intro i hi
  have := List.mem_range.mp hi
  apply mem_write_outside
  omega

theorem lor_shiftLeft_27 (a l : Nat) (ha : a < 2 ^ 27) : a ||| (l <<< 27) = 2 ^ 27 * l + a := by
  rw [Nat.shiftLeft_eq, Nat.lor_comm, Nat.mul_comm l, Nat.mul_add_lt_is_or ha]

theorem shiftLeft_5_lor (a l : Nat) (hl : l < 32) : (a <<< 5) ||| l = 2 ^ 5 * a + l := by
  rw [Nat.shiftLeft_eq, Nat.mul_comm a]
  exact (Nat.mul_add_lt_is_or (by simpa using hl) a).symm

theorem land_mask_27 (x : Nat) : x &&& (2 ^ 27 - 1) = x % 2 ^ 27 :=
  Nat.and_pow_two_sub_one_eq_mod x 27

theorem land_31 (x : Nat) : x &&& 31 = x % 2 ^ 5 :=
  Nat.and_pow_two_sub_one_eq_mod x 5

theorem land_not_3 (x : Nat) (h : x < 2 ^ 32) : x &&& 0xFFFFFFFC = x / 4 * 4 := by
  apply Nat.eq_of_testBit_eq
  intro i
  have e1 : (0xFFFFFFFC : Nat) = 2 ^ 2 * (2 ^ 30 - 1) := by norm_num
  have e2 : x / 4 * 4 = 2 ^ 2 * (x >>> 2) := by
    rw [Nat.shiftRight_eq_div_pow]; ring
  rw [Nat.testBit_and, e1, e2, Nat.testBit_mul_pow_two, Nat.testBit_mul_pow_two,
    Nat.testBit_two_pow_sub_one, Nat.testBit_shiftRight]
  by_cases h2 : i ≥ 2
  · have e3 : 2 + (i - 2) = i := by omega
    rw [e3]
    by_cases h3 : i - 2 < 30
    · simp [h2, h3]
    · have : x.testBit i = false := by
        apply Nat.testBit_lt_two_pow
        calc x < 2 ^ 32 := h
          _ ≤ 2 ^ i := Nat.pow_le_pow_right (by norm_num) (by omega)
      simp [this]
  · simp [h2]

/-! ## The header word -/

theorem type_len_word_be (pevent : tep_handle) (time len : Nat) (hb : pevent.file_bigendian = true)
    (ht : time < 2 ^ 27) (hl : len < 32) :
    type_len_word pevent time len = 2 ^ 27 * len + time := by
  unfold type_len_word
  rw [if_pos hb, lor_shiftLeft_27 time len ht]
  apply Nat.mod_eq_of_lt
  omega

theorem type_len_word_le (pevent : tep_handle) (time len : Nat) (hb : pevent.file_bigendian = false)
    (ht : time < 2 ^ 27) (hl : len < 32) :
    type_len_word pevent time len = 2 ^ 5 * time + len := by
  unfold type_len_word
  rw [if_neg (by simp [hb]), shiftLeft_5_lor time len hl]
  apply Nat.mod_eq_of_lt
  omega

theorem type_len_word_lt (pevent : tep_handle) (time len : Nat) :
    type_len_word pevent time len < 2 ^ 32 := by
  unfold type_len_word
  split <;> exact Nat.mod_lt _ (by norm_num)

theorem header_decode (pevent : tep_handle) (time len : Nat)
    (ht : time < 2 ^ 27) (hl : len < 32) :
    header_delta pevent (type_len_word pevent time len) = time ∧
    header_len_field pevent (type_len_word pevent time len) = len := by
  cases hb : pevent.file_bigendian
  · rw [type_len_word_le pevent time len hb ht hl]
    unfold header_delta header_len_field
    simp only [hb, Bool.false_eq_true, if_false]
    rw [land_31, Nat.shiftRight_eq_div_pow]
    constructor <;> omega
  · rw [type_len_word_be pevent time len hb ht hl]
    unfold header_delta header_len_field
    simp only [hb, if_true]
    rw [land_mask_27, Nat.shiftRight_eq_div_pow]
    constructor <;> omega

/-- The bytes that a host store of the result of `create_type_len` leaves in memory. -/
theorem host_bytes_create_type_len (pevent : tep_handle) (time len : Nat) :
    host_bytes pevent 4 (create_type_len pevent time len)
      = file_bytes pevent 4 (type_len_word pevent time len) := by
  unfold create_type_len
  exact host_bytes_tep_read_var pevent 4 _

/-- C4: for `delta_time < 2 ^ 27` and `len_field < 32`, `create_type_len` yields the
header word `delta_time | (len_field << 27)` (big-endian capture) or
`(delta_time << 5) | len_field` (little-endian capture); stored by the caller the
word lies in memory in the byte order of the capture, reads back as the same
word, and the inverse shift and mask recover `delta_time` and `len_field`. -/
theorem create_type_len_roundtrip (pevent : tep_handle) (delta_time len_field : Nat)
    (ht : delta_time < 2 ^ 27) (hl : len_field < 32) :
    type_len_word pevent delta_time len_field
        = (if pevent.file_bigendian then delta_time ||| (len_field <<< 27)
           else (delta_time <<< 5) ||| len_field) ∧
    host_bytes pevent 4 (create_type_len pevent delta_time len_field)
        = file_bytes pevent 4 (type_len_word pevent delta_time len_field) ∧
    of_file_bytes pevent (host_bytes pevent 4 (create_type_len pevent delta_time len_field))
        = type_len_word pevent delta_time len_field ∧
    header_delta pevent (type_len_word pevent delta_time len_field) = delta_time ∧
    header_len_field pevent (type_len_word pevent delta_time len_field) = len_field := by
  refine ⟨?_, host_bytes_create_type_len pevent _ _, ?_, header_decode pevent _ _ ht hl⟩
  · cases hb : pevent.file_bigendian
    · rw [type_len_word_le pevent _ _ hb ht hl, shiftLeft_5_lor _ _ hl]; simp
    · rw [type_len_word_be pevent _ _ hb ht hl, lor_shiftLeft_27 _ _ ht]; simp
  · rw [host_bytes_create_type_len, of_file_bytes_file_bytes]
    exact Nat.mod_eq_of_lt (type_len_word_lt pevent _ _)

/-- Witness of C4: a big-endian capture read on a little-endian host, delta 5, length field 3. -/
theorem create_type_len_roundtrip_witness :
    host_bytes ⟨true, false⟩ 4 (create_type_len ⟨true, false⟩ 5 3) = [24, 0, 0, 5] ∧
    header_delta ⟨true, false⟩ (type_len_word ⟨true, false⟩ 5 3) = 5 ∧
    header_len_field ⟨true, false⟩ (type_len_word ⟨true, false⟩ 5 3) = 3 :=
  ⟨by decide,
   (create_type_len_roundtrip ⟨true, false⟩ 5 3 (by decide) (by decide)).2.2.2.1,
   (create_type_len_roundtrip ⟨true, false⟩ 5 3 (by decide) (by decide)).2.2.2.2⟩

/-! ## write_record -/

theorem shl27 : (1 <<< 27 : Nat) = 2 ^ 27 := by decide

theorem write_record_extend_eq (pevent : tep_handle) (record : tep_record) (cd : cpu_data)
    (page : Mem) (hp : cd.page = some page) (hd : 2 ^ 27 < ts_diff record cd) :
    write_record pevent record cd = .ok (0,
      { cd with
        page := some (mem_write
          (mem_write page cd.index
            (file_bytes pevent 4 (type_len_word pevent (ts_diff record cd % 2 ^ 27 % 2 ^ 32) 30)))
          (cd.index + 4) (file_bytes pevent 4 (ts_diff record cd / 2 ^ 27 % 2 ^ 32)))
        ts := record.ts
        index := cd.index + 8 }) := by
  unfold write_record
  simp only [hp]
  have hd2 : (record.ts + 2 ^ 64 - cd.ts) % 2 ^ 64 > 1 <<< 27 := by
    rw [shl27]; exact hd
  rw [if_pos hd2]
  simp only [host_bytes_create_type_len, host_bytes_tep_read_var, RINGBUF_TYPE_TIME_EXTEND,
    shl27, land_mask_27, Nat.shiftRight_eq_div_pow, ts_diff]

theorem write_record_inline_eq (pevent : tep_handle) (record : tep_record) (cd : cpu_data)
    (page : Mem) (hp : cd.page = some page) (hd : ts_diff record cd ≤ 2 ^ 27)
    (h4 : 4 ≤ record.size) (h112 : record.size ≤ 112) :
    write_record pevent record cd = .ok (1,
      { cd with
        page := some (mem_write
          (mem_write page cd.index
            (file_bytes pevent 4
              (type_len_word pevent (ts_diff record cd % 2 ^ 32) (record.size / 4))))
          (cd.index + 4) (mem_read record.data 0 ((record.size + 3) / 4 * 4)))
        index := cd.index + (4 + (record.size + 3) / 4 * 4)
        ts := record.ts }) := by
  unfold write_record
  simp only [hp]
  have hd2 : ¬ (record.ts + 2 ^ 64 - cd.ts) % 2 ^ 64 > 1 <<< 27 := by
    rw [shl27]; unfold ts_diff at hd; omega
  rw [if_neg hd2]
  have hl : (if record.size ≠ 0 ∧ record.size ≤ 28 * 4 then record.size / 4 else 0)
      = record.size / 4 := by
    rw [if_pos]; omega
  have hl2 : record.size / 4 ≠ 0 := by omega
  simp only [hl, if_neg hl2, host_bytes_create_type_len,
    land_not_3 (record.size + 3) (by omega), ts_diff]

theorem write_record_explicit_eq (pevent : tep_handle) (record : tep_record) (cd : cpu_data)
    (page : Mem) (hp : cd.page = some page) (hd : ts_diff record cd ≤ 2 ^ 27)
    (hs : record.size < 4 ∨ 112 < record.size) (h32 : record.size + 3 < 2 ^ 32)
    (hrs : record.size + 8 ≤ record.record_size) :
    write_record pevent record cd = .ok (1,
      { cd with
        page := some (mem_write (mem_write
          (mem_write page cd.index
            (file_bytes pevent 4 (type_len_word pevent (ts_diff record cd % 2 ^ 32) 0)))
          (cd.index + 4) (file_bytes pevent 4 (record.size + 4)))
          (cd.index + 8) (mem_read record.data 0 ((record.size + 3) / 4 * 4)))
        index := cd.index + (8 + (record.size + 3) / 4 * 4)
        ts := record.ts }) := by
  unfold write_record
  simp only [hp]
  have hd2 : ¬ (record.ts + 2 ^ 64 - cd.ts) % 2 ^ 64 > 1 <<< 27 := by
    rw [shl27]; unfold ts_diff at hd; omega
  rw [if_neg hd2]
  have hl : (if record.size ≠ 0 ∧ record.size ≤ 28 * 4 then record.size / 4 else 0) = 0 := by
    split
    · omega
    · rfl
  have hrs2 : ¬ (record.size + 4 + 4 > record.record_size) := by omega
  simp only [hl, if_true, if_neg hrs2, host_bytes_create_type_len, host_bytes_tep_read_var,
    land_not_3 (record.size + 3) h32, ts_diff]

theorem write_record_explicit_die (pevent : tep_handle) (record : tep_record) (cd : cpu_data)
    (page : Mem) (hp : cd.page = some page) (hd : ts_diff record cd ≤ 2 ^ 27)
    (hs : record.size < 4 ∨ 112 < record.size)
    (hrs : record.record_size < record.size + 8) :
    write_record pevent record cd = .error .bad_record_len := by
  unfold write_record
  simp only [hp]
  have hd2 : ¬ (record.ts + 2 ^ 64 - cd.ts) % 2 ^ 64 > 1 <<< 27 := by
    rw [shl27]; unfold ts_diff at hd; omega
  rw [if_neg hd2]
  have hl : (if record.size ≠ 0 ∧ record.size ≤ 28 * 4 then record.size / 4 else 0) = 0 := by
    split
    · omega
    · rfl
  have hrs2 : record.size + 4 + 4 > record.record_size := by omega
  simp only [hl, if_true, if_pos hrs2]

theorem ts_diff_eq (record : tep_record) (cd : cpu_data) (h1 : cd.ts ≤ record.ts)
    (h2 : record.ts - cd.ts < 2 ^ 64) : ts_diff record cd = record.ts - cd.ts := by
  unfold ts_diff
  omega

theorem read_word_written (pevent : tep_handle) (cd : cpu_data) (page : Mem) (idx v : Nat)
    (hp : cd.page = some page)
    (hm : mem_read page idx 4 = file_bytes pevent 4 v) (hv : v < 2 ^ 32) :
    read_word pevent cd idx = v := by
  unfold read_word
  rw [hp]
  simp only [hm, of_file_bytes_file_bytes]
  exact Nat.mod_eq_of_lt (by simpa using hv)

/-- C3: for a delta `d = record.ts - base_ts` with `1 << 27 < d < 1 << 59`,
`write_record` returns 0 (no payload written), advances `index` by 8, sets the base
timestamp to `record.ts`, and changes exactly the 8 bytes at `index`: a header word
with `len_field` 30 and delta field `d mod 2^27`, then a word equal to `d >> 27`,
so that low + (high << 27) = d. -/
theorem write_record_time_extend (pevent : tep_handle) (record : tep_record) (cd : cpu_data)
    (page : Mem) (hp : cd.page = some page)
    (hlo : 1 <<< 27 < record.ts - cd.ts) (hhi : record.ts - cd.ts < 1 <<< 59) :
    ∃ cd2 page2, write_record pevent record cd = .ok (0, cd2) ∧
      cd2.page = some page2 ∧
      cd2.index = cd.index + 8 ∧ cd2.ts = record.ts ∧
      header_len_field pevent (read_word pevent cd2 cd.index) = 30 ∧
      header_delta pevent (read_word pevent cd2 cd.index) = (record.ts - cd.ts) &&& (2 ^ 27 - 1) ∧
      read_word pevent cd2 (cd.index + 4) = (record.ts - cd.ts) >>> 27 ∧
      header_delta pevent (read_word pevent cd2 cd.index)
        + (read_word pevent cd2 (cd.index + 4)) <<< 27 = record.ts - cd.ts ∧
      (∀ i, i < cd.index ∨ cd.index + 8 ≤ i → page2 i = page i) := by
  have h59 : (1 <<< 59 : Nat) = 2 ^ 59 := by decide
  rw [shl27] at hlo
  rw [h59] at hhi
  have hts : cd.ts ≤ record.ts := by omega
  have hdiff : ts_diff record cd = record.ts - cd.ts := ts_diff_eq record cd hts (by omega)
  have heq := write_record_extend_eq pevent record cd page hp (by omega)
  rw [hdiff] at heq
  have hlow : (record.ts - cd.ts) % 2 ^ 27 % 2 ^ 32 = (record.ts - cd.ts) % 2 ^ 27 := by omega
  have hhigh : (record.ts - cd.ts) / 2 ^ 27 % 2 ^ 32 = (record.ts - cd.ts) / 2 ^ 27 := by omega
  rw [hlow, hhigh] at heq
  have hdec := header_decode pevent ((record.ts - cd.ts) % 2 ^ 27) 30
    (Nat.mod_lt _ (by norm_num)) (by norm_num)
  have hw1 : read_word pevent
      { cd with
        page := some (mem_write
          (mem_write page cd.index
            (file_bytes pevent 4 (type_len_word pevent ((record.ts - cd.ts) % 2 ^ 27) 30)))
          (cd.index + 4) (file_bytes pevent 4 ((record.ts - cd.ts) / 2 ^ 27)))
        ts := record.ts
        index := cd.index + 8 } cd.index
      = type_len_word pevent ((record.ts - cd.ts) % 2 ^ 27) 30 := by
    apply read_word_written pevent _ _ _ _ rfl _ (type_len_word_lt pevent _ _)
    rw [mem_read_mem_write_disjoint _ _ _ _ _ (Or.inl (le_refl _))]
    have := mem_read_mem_write_same page cd.index
      (file_bytes pevent 4 (type_len_word pevent ((record.ts - cd.ts) % 2 ^ 27) 30))
    rwa [file_bytes_length] at this
  have hw2 : read_word pevent
      { cd with
        page := some (mem_write
          (mem_write page cd.index
            (file_bytes pevent 4 (type_len_word pevent ((record.ts - cd.ts) % 2 ^ 27) 30)))
          (cd.index + 4) (file_bytes pevent 4 ((record.ts - cd.ts) / 2 ^ 27)))
        ts := record.ts
        index := cd.index + 8 } (cd.index + 4)
      = (record.ts - cd.ts) / 2 ^ 27 := by
    apply read_word_written pevent _ _ _ _ rfl _ (by omega)
    have := mem_read_mem_write_same (mem_write page cd.index
      (file_bytes pevent 4 (type_len_word pevent ((record.ts - cd.ts) % 2 ^ 27) 30)))
      (cd.index + 4) (file_bytes pevent 4 ((record.ts - cd.ts) / 2 ^ 27))
    rwa [file_bytes_length] at this
  refine ⟨_, _, heq, rfl, rfl, rfl, ?_, ?_, ?_, ?_, ?_⟩
  · rw [hw1]; exact hdec.2
  · rw [hw1, land_mask_27]; exact hdec.1
  · rw [hw2, Nat.shiftRight_eq_div_pow]
  · rw [hw1, hw2, hdec.1, Nat.shiftLeft_eq]
    have := Nat.mod_add_div (record.ts - cd.ts) (2 ^ 27)
    omega
  · intro i hi
    rw [mem_write_outside _ _ _ _ (by rw [file_bytes_length]; omega),
      mem_write_outside _ _ _ _ (by rw [file_bytes_length]; omega)]

/-- Witness of C3: base timestamp 1000, record 2^40 later, page of zeros, index 16. -/
theorem write_record_time_extend_witness :
    ∃ cd2 page2, write_record ⟨false, false⟩ ⟨1000 + 2 ^ 40, 0, 0, 8, 4, fun _ => 0⟩
          ⟨1000, 0, 0, 16, 8, some (fun _ => 0)⟩ = .ok (0, cd2) ∧
      cd2.page = some page2 ∧
      cd2.index = 16 + 8 ∧ cd2.ts = 1000 + 2 ^ 40 ∧
      header_len_field ⟨false, false⟩ (read_word ⟨false, false⟩ cd2 16) = 30 ∧
      header_delta ⟨false, false⟩ (read_word ⟨false, false⟩ cd2 16)
        = (1000 + 2 ^ 40 - 1000) &&& (2 ^ 27 - 1) ∧
      read_word ⟨false, false⟩ cd2 (16 + 4) = (1000 + 2 ^ 40 - 1000) >>> 27 ∧
      header_delta ⟨false, false⟩ (read_word ⟨false, false⟩ cd2 16)
        + (read_word ⟨false, false⟩ cd2 (16 + 4)) <<< 27 = 1000 + 2 ^ 40 - 1000 ∧
      (∀ i, i < 16 ∨ 16 + 8 ≤ i → page2 i = (fun _ => 0) i) :=
  write_record_time_extend ⟨false, false⟩ ⟨1000 + 2 ^ 40, 0, 0, 8, 4, fun _ => 0⟩
    ⟨1000, 0, 0, 16, 8, some (fun _ => 0)⟩ (fun _ => 0) rfl (by decide) (by decide)

/-- The part of C1 that the code keeps: a record whose delta is below `1 << 27` is
written as a normal record whose header decodes to that delta, and the base
timestamp moves to the timestamp of the record. -/
theorem write_record_normal_delta (pevent : tep_handle) (record : tep_record) (cd cd2 : cpu_data)
    (ret : Nat) (page : Mem) (hp : cd.page = some page) (hts : cd.ts ≤ record.ts)
    (hd : record.ts - cd.ts < 2 ^ 27) (h31 : record.size < 2 ^ 31)
    (hw : write_record pevent record cd = .ok (ret, cd2)) :
    ret = 1 ∧ cd2.ts = record.ts ∧
    header_delta pevent (read_word pevent cd2 cd.index) = record.ts - cd.ts := by
  have hdiff : ts_diff record cd = record.ts - cd.ts := ts_diff_eq record cd hts (by omega)
  have hmod : (record.ts - cd.ts) % 2 ^ 32 = record.ts - cd.ts := by omega
  by_cases hs : record.size < 4 ∨ 112 < record.size
  · by_cases hrs : record.size + 8 ≤ record.record_size
    · have heq := write_record_explicit_eq pevent record cd page hp (by omega) hs (by omega) hrs
      rw [hw, hdiff, hmod] at heq
      injection heq with heq
      injection heq with h1 h2
      subst h1 h2
      refine ⟨rfl, rfl, ?_⟩
      rw [read_word_written pevent _ _ cd.index
        (type_len_word pevent (record.ts - cd.ts) 0) rfl _ (type_len_word_lt pevent _ _)]
      · exact (header_decode pevent _ 0 hd (by norm_num)).1
      · rw [mem_read_mem_write_disjoint _ _ _ _ _ (Or.inl (by omega)),
          mem_read_mem_write_disjoint _ _ _ _ _ (Or.inl (by omega))]
        have := mem_read_mem_write_same page cd.index
          (file_bytes pevent 4 (type_len_word pevent (record.ts - cd.ts) 0))
        rwa [file_bytes_length] at this
    · have heq := write_record_explicit_die pevent record cd page hp (by omega) hs (by omega)
      rw [hw] at heq
      cases heq
  · have heq := write_record_inline_eq pevent record cd page hp (by omega) (by omega) (by omega)
    rw [hw, hdiff, hmod] at heq
    injection heq with heq
    injection heq with h1 h2
    subst h1 h2
    refine ⟨rfl, rfl, ?_⟩
    rw [read_word_written pevent _ _ cd.index
      (type_len_word pevent (record.ts - cd.ts) (record.size / 4)) rfl _
      (type_len_word_lt pevent _ _)]
    · exact (header_decode pevent _ _ hd (by omega)).1
    · rw [mem_read_mem_write_disjoint _ _ _ _ _ (Or.inl (by omega))]
      have := mem_read_mem_write_same page cd.index
        (file_bytes pevent 4 (type_len_word pevent (record.ts - cd.ts) (record.size / 4)))
      rwa [file_bytes_length] at this

/-- C1, the code at the boundary: with base timestamp 1000 and a record exactly
`1 << 27` later, `write_record` returns 1 (a normal record, no TIME_EXTEND); the
header it leaves decodes to delta 0 on a little-endian capture (4-byte payload,
`len_field` 1), and on a big-endian capture (8-byte payload) to delta 0 with
`len_field` 3 instead of 2. -/
theorem write_record_delta_boundary :
    written_header ⟨false, false⟩ 16
      (write_record ⟨false, false⟩ ⟨1000 + 2 ^ 27, 0, 0, 8, 4, fun _ => 0⟩
        ⟨1000, 0, 0, 16, 8, some (fun _ => 0)⟩) = some (1, 1, 0) ∧
    written_header ⟨true, false⟩ 16
      (write_record ⟨true, false⟩ ⟨1000 + 2 ^ 27, 0, 0, 12, 8, fun _ => 0⟩
        ⟨1000, 0, 0, 16, 8, some (fun _ => 0)⟩) = some (1, 3, 0) := by
  constructor <;> decide

theorem page_read_written (cd : cpu_data) (page : Mem) (off : Nat) (bs : List Nat)
    (hp : cd.page = some page) (hm : mem_read page off bs.length = bs) :
    page_read cd off bs.length = bs := by
  unfold page_read
  rw [hp]
  exact hm

/-- C2, the claim fails for an empty payload: a record of size 0 (not greater
than 28 * 4) is written as a normal record, `write_record` returns 1, and the
header it leaves has `len_field` 0, not a value in 1..=28; the word after the
header is the length word, with value 4. -/
theorem write_record_len_field_zero_size :
    written_header ⟨false, false⟩ 16
      (write_record ⟨false, false⟩ ⟨1000, 0, 0, 8, 0, fun _ => 0⟩
        ⟨1000, 0, 0, 16, 8, some (fun _ => 0)⟩) = some (1, 0, 0) ∧
    (write_record ⟨false, false⟩ ⟨1000, 0, 0, 8, 0, fun _ => 0⟩
        ⟨1000, 0, 0, 16, 8, some (fun _ => 0)⟩).toOption.map
      (fun x => (read_word ⟨false, false⟩ x.2 20, x.2.index)) = some (4, 24) ∧
    ¬ ((⟨1000, 0, 0, 8, 0, fun _ => 0⟩ : tep_record).size > 28 * 4) := by
  refine ⟨by decide, by decide, by decide⟩

/-- C2 as amended: for a record that `write_record` appends as a normal record
with a delta below `1 << 27`: when the payload size is below 4 or above 28 * 4 the
`len_field` is 0, a length word holding `size + 4` follows the header and the
payload, padded to a multiple of 4, follows the length word; when the size is a
multiple of 4 in 4..=112 the `len_field` is `size / 4`, lies in 1..=28, and the
`len_field * 4` payload bytes follow the header. -/
theorem write_record_len_field (pevent : tep_handle) (record : tep_record) (cd cd2 : cpu_data)
    (page : Mem) (hp : cd.page = some page) (hts : cd.ts ≤ record.ts)
    (hd : record.ts - cd.ts < 2 ^ 27) (h31 : record.size < 2 ^ 31)
    (hw : write_record pevent record cd = .ok (1, cd2)) :
    (record.size < 4 ∨ 28 * 4 < record.size →
      header_len_field pevent (read_word pevent cd2 cd.index) = 0 ∧
      read_word pevent cd2 (cd.index + 4) = record.size + 4 ∧
      cd2.index = cd.index + 8 + (record.size + 3) / 4 * 4 ∧
      page_read cd2 (cd.index + 8) ((record.size + 3) / 4 * 4)
        = mem_read record.data 0 ((record.size + 3) / 4 * 4)) ∧
    (4 ≤ record.size ∧ record.size ≤ 28 * 4 ∧ record.size % 4 = 0 →
      header_len_field pevent (read_word pevent cd2 cd.index) = record.size / 4 ∧
      1 ≤ header_len_field pevent (read_word pevent cd2 cd.index) ∧
      header_len_field pevent (read_word pevent cd2 cd.index) ≤ 28 ∧
      cd2.index = cd.index + 4 + header_len_field pevent (read_word pevent cd2 cd.index) * 4 ∧
      page_read cd2 (cd.index + 4) (header_len_field pevent (read_word pevent cd2 cd.index) * 4)
        = mem_read record.data 0 record.size) := by
  have hdiff : ts_diff record cd = record.ts - cd.ts := ts_diff_eq record cd hts (by omega)
  have hmod : (record.ts - cd.ts) % 2 ^ 32 = record.ts - cd.ts := by omega
  constructor
  · intro hs
    by_cases hrs : record.size + 8 ≤ record.record_size
    · have heq := write_record_explicit_eq pevent record cd page hp (by omega) (by omega) (by omega) hrs
      rw [hw, hdiff, hmod] at heq
      injection heq with heq
      injection heq with h1 h2
      subst h2
      have hw1 : mem_read (mem_write (mem_write
          (mem_write page cd.index
            (file_bytes pevent 4 (type_len_word pevent (record.ts - cd.ts) 0)))
          (cd.index + 4) (file_bytes pevent 4 (record.size + 4)))
          (cd.index + 8) (mem_read record.data 0 ((record.size + 3) / 4 * 4))) cd.index 4
          = file_bytes pevent 4 (type_len_word pevent (record.ts - cd.ts) 0) := by
        rw [mem_read_mem_write_disjoint _ _ _ _ _ (Or.inl (by omega)),
          mem_read_mem_write_disjoint _ _ _ _ _ (Or.inl (by omega))]
        have := mem_read_mem_write_same page cd.index
          (file_bytes pevent 4 (type_len_word pevent (record.ts - cd.ts) 0))
        rwa [file_bytes_length] at this
      have hw2 : mem_read (mem_write (mem_write
          (mem_write page cd.index
            (file_bytes pevent 4 (type_len_word pevent (record.ts - cd.ts) 0)))
          (cd.index + 4) (file_bytes pevent 4 (record.size + 4)))
          (cd.index + 8) (mem_read record.data 0 ((record.size + 3) / 4 * 4))) (cd.index + 4) 4
          = file_bytes pevent 4 (record.size + 4) := by
        rw [mem_read_mem_write_disjoint _ _ _ _ _ (Or.inl (by omega))]
        have := mem_read_mem_write_same (mem_write page cd.index
          (file_bytes pevent 4 (type_len_word pevent (record.ts - cd.ts) 0))) (cd.index + 4)
          (file_bytes pevent 4 (record.size + 4))
        rwa [file_bytes_length] at this
      refine ⟨?_, ?_, by simp only []; omega, ?_⟩
      · rw [read_word_written pevent _ _ cd.index _ rfl hw1 (type_len_word_lt pevent _ _)]
        exact (header_decode pevent _ 0 hd (by norm_num)).2
      · exact read_word_written pevent _ _ (cd.index + 4) _ rfl hw2 (by omega)
      · have := page_read_written
          { cd with
            page := some (mem_write (mem_write
              (mem_write page cd.index
                (file_bytes pevent 4 (type_len_word pevent (record.ts - cd.ts) 0)))
              (cd.index + 4) (file_bytes pevent 4 (record.size + 4)))
              (cd.index + 8) (mem_read record.data 0 ((record.size + 3) / 4 * 4)))
            index := cd.index + (8 + (record.size + 3) / 4 * 4)
            ts := record.ts } _ (cd.index + 8)
          (mem_read record.data 0 ((record.size + 3) / 4 * 4)) rfl
          (mem_read_mem_write_same _ _ _)
        rwa [mem_read_length] at this
    · have heq := write_record_explicit_die pevent record cd page hp (by omega) (by omega)
        (by omega)
      rw [hw] at heq
      cases heq
  · intro hs
    have heq := write_record_inline_eq pevent record cd page hp (by omega) (by omega) (by omega)
    rw [hw, hdiff, hmod] at heq
    injection heq with heq
    injection heq with h1 h2
    subst h2
    have hpad : (record.size + 3) / 4 * 4 = record.size := by omega
    have hw1 : mem_read (mem_write
        (mem_write page cd.index
          (file_bytes pevent 4 (type_len_word pevent (record.ts - cd.ts) (record.size / 4))))
        (cd.index + 4) (mem_read record.data 0 ((record.size + 3) / 4 * 4))) cd.index 4
        = file_bytes pevent 4 (type_len_word pevent (record.ts - cd.ts) (record.size / 4)) := by
      rw [mem_read_mem_write_disjoint _ _ _ _ _ (Or.inl (by omega))]
      have := mem_read_mem_write_same page cd.index
        (file_bytes pevent 4 (type_len_word pevent (record.ts - cd.ts) (record.size / 4)))
      rwa [file_bytes_length] at this
    have hlf : header_len_field pevent (read_word pevent
        { cd with
          page := some (mem_write
            (mem_write page cd.index
              (file_bytes pevent 4 (type_len_word pevent (record.ts - cd.ts) (record.size / 4))))
            (cd.index + 4) (mem_read record.data 0 ((record.size + 3) / 4 * 4)))
          index := cd.index + (4 + (record.size + 3) / 4 * 4)
          ts := record.ts } cd.index) = record.size / 4 := by
      rw [read_word_written pevent _ _ cd.index _ rfl hw1 (type_len_word_lt pevent _ _)]
      exact (header_decode pevent _ _ hd (by omega)).2
    rw [hlf]
    refine ⟨rfl, by omega, by omega, by simp only []; omega, ?_⟩
    have := page_read_written
      { cd with
        page := some (mem_write
          (mem_write page cd.index
            (file_bytes pevent 4 (type_len_word pevent (record.ts - cd.ts) (record.size / 4))))
          (cd.index + 4) (mem_read record.data 0 ((record.size + 3) / 4 * 4)))
        index := cd.index + (4 + (record.size + 3) / 4 * 4)
        ts := record.ts } _ (cd.index + 4)
      (mem_read record.data 0 ((record.size + 3) / 4 * 4)) rfl
      (mem_read_mem_write_same _ _ _)
    have h4 : record.size / 4 * 4 = record.size := by omega
    rw [mem_read_length] at this
    rw [h4]
    rw [hpad] at this ⊢
    exact this

/-- Witness of C2 as amended: an 8-byte payload at delta 5 on a little-endian capture. -/
theorem write_record_len_field_witness :
    header_len_field ⟨false, false⟩ (read_word ⟨false, false⟩
      { ts := 1005, offset := 0, missed_events := 0, index := 28, commit := 8,
        page := some (mem_write (mem_write (fun _ => 0) 16
          (file_bytes ⟨false, false⟩ 4 (type_len_word ⟨false, false⟩ 5 2)))
          20 (mem_read (fun i => i + 1) 0 8)) } 16) = 2 :=
  ((write_record_len_field ⟨false, false⟩ ⟨1005, 0, 0, 12, 8, fun i => i + 1⟩
    ⟨1000, 0, 0, 16, 8, some (fun _ => 0)⟩
    { ts := 1005, offset := 0, missed_events := 0, index := 28, commit := 8,
      page := some (mem_write (mem_write (fun _ => 0) 16
        (file_bytes ⟨false, false⟩ 4 (type_len_word ⟨false, false⟩ 5 2)))
        20 (mem_read (fun i => i + 1) 0 8)) }
    (fun _ => 0) rfl (by decide) (by decide) (by decide)
    (write_record_inline_eq ⟨false, false⟩ ⟨1005, 0, 0, 12, 8, fun i => i + 1⟩
      ⟨1000, 0, 0, 16, 8, some (fun _ => 0)⟩ (fun _ => 0) rfl (by decide) (by decide)
      (by decide))).2 ⟨by decide, by decide, by decide⟩).1

/-! ## write_page -/

theorem page_flags_eq (cd : cpu_data) :
    page_flags cd = if cd.missed_events ≠ 0 then 2 ^ 30 * 3 else 0 := by
  unfold page_flags MISSING_EVENTS MISSING_STORED
  by_cases h : cd.missed_events ≠ 0
  · have h2 : cd.missed_events > 0 := Nat.pos_of_ne_zero h
    rw [if_pos h, if_pos h2, if_pos h]
    decide
  · rw [if_neg h, if_neg h]

theorem page_flags_lor : (MISSING_EVENTS ||| MISSING_STORED) = 2 ^ 30 * 3 := by decide

theorem missed_ptr_eq (cd : cpu_data) :
    missed_ptr cd = if cd.missed_events ≠ 0 then some cd.index else none := by
  unfold missed_ptr
  by_cases h : cd.missed_events ≠ 0
  · have h2 : cd.missed_events > 0 := Nat.pos_of_ne_zero h
    rw [if_pos h, if_pos h2, if_pos h]
  · rw [if_neg h, if_neg h]

/-- The commit value when the page is within bounds: no carry reaches the flags. -/
theorem commit_value_eq (cd : cpu_data) (long_size : Nat)
    (hl : long_size = 4 ∨ long_size = 8) (hlo : 8 + long_size ≤ cd.index)
    (hi : cd.index - (8 + long_size) < 2 ^ 30) :
    commit_value cd long_size = page_flags cd + (cd.index - (8 + long_size)) ∧
    commit_value cd long_size = (cd.index - (8 + long_size)) ||| page_flags cd ∧
    commit_value cd long_size % 2 ^ 30 = cd.index - (8 + long_size) ∧
    commit_value cd long_size < 2 ^ 32 := by
  have hsum : commit_value cd long_size = page_flags cd + (cd.index - (8 + long_size)) := by
    unfold commit_value
    rw [page_flags_eq]
    by_cases hm : cd.missed_events = 0
    · rcases hl with h | h <;> subst h <;> simp [hm] <;> omega
    · rcases hl with h | h <;> subst h <;> simp [hm] <;> omega
  have hor : (cd.index - (8 + long_size)) ||| page_flags cd
      = page_flags cd + (cd.index - (8 + long_size)) := by
    rw [page_flags_eq, Nat.lor_comm]
    split
    · exact (Nat.mul_add_lt_is_or hi 3).symm
    · simp
  refine ⟨hsum, by rw [hsum, hor], ?_, ?_⟩
  · rw [hsum, page_flags_eq]
    split <;> omega
  · rw [hsum, page_flags_eq]
    split <;> omega

theorem write_page_page (pevent : tep_handle) (cd : cpu_data) (long_size : Nat) (page : Mem)
    (hp : cd.page = some page) :
    (write_page pevent cd long_size).page = some (write_page_mem pevent cd long_size page) := by
  unfold write_page
  simp [hp]

theorem write_page_fields (pevent : tep_handle) (cd : cpu_data) (long_size : Nat) :
    (write_page pevent cd long_size).index = cd.index ∧
    (write_page pevent cd long_size).ts = cd.ts ∧
    (write_page pevent cd long_size).missed_events = cd.missed_events ∧
    (write_page pevent cd long_size).commit = cd.commit ∧
    (write_page pevent cd long_size).offset = cd.offset := by
  unfold write_page
  exact ⟨rfl, rfl, rfl, rfl, rfl⟩

/-- The commit slot of the page that `write_page` hands to `write`. -/
theorem write_page_commit_bytes (pevent : tep_handle) (cd : cpu_data) (long_size : Nat)
    (page : Mem) (hp : cd.page = some page) (hl : long_size = 4 ∨ long_size = 8)
    (hc : cd.commit + long_size ≤ cd.index) :
    page_read (write_page pevent cd long_size) cd.commit long_size
      = file_bytes pevent long_size (commit_value cd long_size) := by
  unfold page_read
  rw [write_page_page pevent cd long_size page hp]
  simp only []
  unfold write_page_mem
  have hsame : ∀ w, mem_read (mem_write page cd.commit
      (file_bytes pevent w (commit_value cd long_size))) cd.commit w
      = file_bytes pevent w (commit_value cd long_size) := by
    intro w
    have := mem_read_mem_write_same page cd.commit
      (file_bytes pevent w (commit_value cd long_size))
    rwa [file_bytes_length] at this
  rw [missed_ptr_eq]
  by_cases hm : cd.missed_events ≠ 0
  · rw [if_pos hm]
    rcases hl with h | h <;> subst h <;>
      simp only [host_bytes_tep_read_var, Nat.reduceEqDiff, if_false, if_true] <;>
      rw [mem_read_mem_write_disjoint _ _ _ _ _ (Or.inl hc)] <;> exact hsame _
  · rw [if_neg hm]
    rcases hl with h | h <;> subst h <;>
      simp only [host_bytes_tep_read_var, Nat.reduceEqDiff, if_false, if_true] <;>
      exact hsame _

/-- C6: for a page within bounds (`index ≤ page_size ≤ 2^30`), `write_page` leaves in
the commit slot, in the byte order of the capture and with width `long_size`, the
value `(index - header_bytes) | flags` with `header_bytes` 16 when `long_size` is 8
and 12 otherwise; the flags are both set or both clear, and the bits below bit 30
of the value are the number of record-stream bytes, `index - (8 + long_size)`. -/
theorem write_page_commit (pevent : tep_handle) (cd : cpu_data) (long_size page_size : Nat)
    (page : Mem) (hp : cd.page = some page) (hl : long_size = 4 ∨ long_size = 8)
    (hc : cd.commit + long_size ≤ cd.index) (hlo : 8 + long_size ≤ cd.index)
    (hi : cd.index ≤ page_size) (hps : page_size ≤ 2 ^ 30) :
    page_read (write_page pevent cd long_size) cd.commit long_size
      = file_bytes pevent long_size
          ((cd.index - (if long_size = 8 then 16 else 12)) ||| page_flags cd) ∧
    of_file_bytes pevent (page_read (write_page pevent cd long_size) cd.commit long_size)
      = (cd.index - (if long_size = 8 then 16 else 12)) ||| page_flags cd ∧
    page_flags cd = (if cd.missed_events ≠ 0 then MISSING_EVENTS ||| MISSING_STORED else 0) ∧
    ((cd.index - (if long_size = 8 then 16 else 12)) ||| page_flags cd) % 2 ^ 30
      = cd.index - (8 + long_size) := by
  have hcv := commit_value_eq cd long_size hl hlo (by omega)
  have hhdr : (if long_size = 8 then 16 else 12) = 8 + long_size := by
    rcases hl with h | h <;> subst h <;> simp
  rw [hhdr, ← hcv.2.1]
  refine ⟨write_page_commit_bytes pevent cd long_size page hp hl hc, ?_, ?_, hcv.2.2.1⟩
  · rw [write_page_commit_bytes pevent cd long_size page hp hl hc, of_file_bytes_file_bytes]
    apply Nat.mod_eq_of_lt
    have h1 : (2 : Nat) ^ 32 ≤ 256 ^ long_size := by
      rcases hl with h | h <;> subst h <;> norm_num
    omega
  · rw [page_flags_eq, page_flags_lor]

/-- Witness of C6: a 64-byte page with 24 record bytes, opened by a record with 7 missed events. -/
theorem write_page_commit_witness :
    page_read (write_page ⟨false, false⟩ ⟨0, 0, 7, 40, 8, some (fun _ => 0)⟩ 8) 8 8
      = [24, 0, 0, 192, 0, 0, 0, 0] ∧
    ((40 - (if 8 = 8 then 16 else 12)) ||| page_flags ⟨0, 0, 7, 40, 8, some (fun _ => 0)⟩) % 2 ^ 30
      = 40 - (8 + 8) :=
  ⟨by decide,
   (write_page_commit ⟨false, false⟩ ⟨0, 0, 7, 40, 8, some (fun _ => 0)⟩ 8 64 (fun _ => 0) rfl
     (by decide) (by decide) (by decide) (by decide) (by decide)).2.2.2⟩

/-! ## The event log -/

theorem open_at_append (l : List Event) (e : Event) :
    open_at (l ++ [e]) = track (open_at l) e := by
  unfold open_at
  rw [List.foldl_append]
  rfl

theorem Every_nil (φ : List Event → Event → Prop) : Every φ [] := by
  intro l1 e l2 h
  cases l1 <;> simp at h

theorem Every_append_one (φ : List Event → Event → Prop) (l : List Event) (e : Event)
    (h : Every φ l) (he : φ l e) : Every φ (l ++ [e]) := by
  intro l1 x l2 heq
  rcases List.eq_nil_or_concat l2 with h2 | ⟨l3, b, h2⟩
  · subst h2
    have := List.append_inj' heq (by simp)
    obtain ⟨h1, h3⟩ := this
    simp only [List.cons.injEq, and_true] at h3
    subst h1 h3
    exact he
  · subst h2
    have heq2 : l ++ [e] = (l1 ++ x :: l3) ++ [b] := by simpa using heq
    have := List.append_inj' heq2 (by simp)
    exact h l1 x l3 this.1

theorem Every_mem (φ : List Event → Event → Prop) (l : List Event) (e : Event)
    (h : Every φ l) (he : e ∈ l) : ∃ l1 l2, l = l1 ++ e :: l2 ∧ φ l1 e := by
  obtain ⟨l1, l2, heq⟩ := List.append_of_mem he
  exact ⟨l1, l2, heq, h l1 e l2 heq⟩

theorem open_at_irrelevant (percpu : Bool) (cpu0 cpus : Nat) (l : List Event)
    (h : ∀ e ∈ l, relevant percpu cpu0 cpus e.cpu) (c : Nat)
    (hc : ¬ relevant percpu cpu0 cpus c) : open_at l c = none := by
  induction l using List.reverseRecOn with
  | nil => rfl
  | append_singleton l e ih =>
    rw [open_at_append]
    have hl : ∀ x ∈ l, relevant percpu cpu0 cpus x.cpu :=
      fun x hx => h x (List.mem_append_left _ hx)
    have he : relevant percpu cpu0 cpus e.cpu := h e (by simp)
    have hne : c ≠ e.cpu := fun heq => hc (heq ▸ he)
    cases e <;> simp only [track, Event.cpu] at hne ⊢ <;>
      first
      | exact ih hl
      | (rw [Function.update_noteq hne]; exact ih hl)

/-! ## The iterator -/

theorem same_static_refl (h : tracecmd_input) : same_static h h :=
  ⟨rfl, rfl, rfl, rfl, rfl⟩

theorem same_static_trans (h1 h2 h3 : tracecmd_input) (a : same_static h1 h2)
    (b : same_static h2 h3) : same_static h1 h3 :=
  ⟨a.1.trans b.1, a.2.1.trans b.2.1, a.2.2.1.trans b.2.2.1, a.2.2.2.1.trans b.2.2.2.1,
    a.2.2.2.2.trans b.2.2.2.2⟩

theorem tracecmd_read_data_spec (h : tracecmd_input) (c : Nat) :
    same_static (tracecmd_read_data h c).2 h ∧
    (∀ x y, y ∈ (tracecmd_read_data h c).2.next x → y ∈ h.next x) ∧
    (∀ y, (tracecmd_read_data h c).1 = some y → y ∈ h.next c) ∧
    ((tracecmd_read_data h c).1 = none → h.next c = []) := by
  unfold tracecmd_read_data
  cases hn : h.next c with
  | nil =>
    refine ⟨same_static_refl h, fun x y hy => hy, ?_, fun _ => rfl⟩
    intro y hy
    simp at hy
  | cons r rest =>
    refine ⟨same_static_refl h, ?_, ?_, ?_⟩
    · intro x y hy
      simp only at hy
      by_cases hx : x = c
      · subst hx
        rw [Function.update_same] at hy
        rw [hn]
        exact List.mem_cons_of_mem _ hy
      · rw [Function.update_noteq hx] at hy
        exact hy
    · intro y hy
      simp only [Option.some.injEq] at hy
      subst hy
      exact List.mem_cons_self _ _
    · intro hy
      simp at hy

theorem next_cpu_fold_spec (h : tracecmd_input) (cs : List Nat)
    (best : Option (Nat × Nat)) (c t : Nat)
    (hres : cs.foldl
      (fun best cpu =>
        match h.next cpu with
        | [] => best
        | r :: _ =>
          match best with
          | none => some (cpu, r.ts)
          | some (_, ts) => if r.ts < ts then some (cpu, r.ts) else best)
      best = some (c, t)) :
    (c ∈ cs ∧ h.next c ≠ []) ∨ best = some (c, t) := by
  induction cs generalizing best with
  | nil => right; simpa using hres
  | cons a cs ih =>
    simp only [List.foldl_cons] at hres
    rcases ih _ hres with h1 | h1
    · left; exact ⟨List.mem_cons_of_mem _ h1.1, h1.2⟩
    · cases hn : h.next a with
      | nil =>
        rw [hn] at h1
        right; exact h1
      | cons r rest =>
        rw [hn] at h1
        cases best with
        | none =>
          simp only [Option.some.injEq, Prod.mk.injEq] at h1
          left
          rw [← h1.1]
          exact ⟨List.mem_cons_self _ _, by rw [hn]; simp⟩
        | some p =>
          obtain ⟨p1, p2⟩ := p
          simp only at h1
          by_cases hlt : r.ts < p2
          · rw [if_pos hlt] at h1
            simp only [Option.some.injEq, Prod.mk.injEq] at h1
            left
            rw [← h1.1]
            exact ⟨List.mem_cons_self _ _, by rw [hn]; simp⟩
          · rw [if_neg hlt] at h1
            right; exact h1

theorem next_cpu_spec (h : tracecmd_input) (c t : Nat) (hres : next_cpu h = some (c, t)) :
    c < h.cpus ∧ h.next c ≠ [] := by
  unfold next_cpu at hres
  rcases next_cpu_fold_spec h _ _ c t hres with h1 | h1
  · exact ⟨List.mem_range.mp h1.1, h1.2⟩
  · cases h1

theorem read_record_spec (h : tracecmd_input) (percpu : Bool) (c : Nat) :
    same_static (read_record h percpu c).2.2 h ∧
    (∀ x y, y ∈ (read_record h percpu c).2.2.next x → y ∈ h.next x) ∧
    (∀ y, (read_record h percpu c).1 = some y → y ∈ h.next (read_record h percpu c).2.1) ∧
    (percpu = true → (read_record h percpu c).2.1 = c) ∧
    (percpu = false → (read_record h percpu c).1 ≠ none → (read_record h percpu c).2.1 < h.cpus) := by
  unfold read_record
  cases percpu with
  | true =>
    have hs := tracecmd_read_data_spec h c
    rw [if_pos rfl]
    exact ⟨hs.1, hs.2.1, fun y hy => hs.2.2.1 y hy, fun _ => rfl,
      fun hf => absurd hf (by decide)⟩
  | false =>
    rw [if_neg (by decide)]
    unfold tracecmd_read_next_data
    cases hn : next_cpu h with
    | none =>
      refine ⟨same_static_refl h, fun x y hy => hy, ?_, fun hf => absurd hf (by decide), ?_⟩
      · intro y hy; simp at hy
      · intro _ hne; simp at hne
    | some p =>
      obtain ⟨c2, t⟩ := p
      have hs := tracecmd_read_data_spec h c2
      have hc := next_cpu_spec h c2 t hn
      exact ⟨hs.1, hs.2.1, fun y hy => hs.2.2.1 y hy, fun hf => absurd hf (by decide),
        fun _ _ => hc.1⟩

theorem iter_ok_read (G : tep_record → Prop) (h : tracecmd_input) (percpu : Bool) (cpu0 : Nat)
    (it : Option tep_record × Nat × tracecmd_input) (hit : iter_ok G h percpu cpu0 it) :
    iter_ok G h percpu cpu0 (read_record it.2.2 percpu it.2.1) := by
  obtain ⟨h1, h2, h3, h4, h5⟩ := hit
  have hs := read_record_spec it.2.2 percpu it.2.1
  refine ⟨same_static_trans _ _ _ hs.1 h1, ?_, ?_, ?_, ?_⟩
  · intro c y hc hy
    exact h2 c y hc (hs.2.1 c y hy)
  · intro y hy
    have hx := hs.2.2.1 y hy
    refine h2 _ y ?_ hx
    unfold relevant
    cases percpu with
    | true =>
      rw [if_pos rfl, hs.2.2.2.1 rfl]
      exact h4 rfl
    | false =>
      rw [if_neg (by decide)]
      have := hs.2.2.2.2 rfl (by rw [hy]; simp)
      rw [h1.2.2.2.1] at this
      exact this
  · intro hp
    rw [hs.2.2.2.1 hp]
    exact h4 hp
  · intro hp hne
    have := hs.2.2.2.2 hp hne
    rw [h1.2.2.2.1] at this
    exact this

theorem skip_loop_spec (G : tep_record → Prop) (h : tracecmd_input) (percpu : Bool)
    (cpu0 start fuel : Nat) (it res : Option tep_record × Nat × tracecmd_input)
    (hit : iter_ok G h percpu cpu0 it)
    (hres : skip_loop percpu start fuel it = .ok res) :
    iter_ok G h percpu cpu0 res ∧ (∀ y, res.1 = some y → start ≤ y.ts) := by
  induction fuel generalizing it with
  | zero => simp [skip_loop] at hres
  | succ n ih =>
    obtain ⟨record, cpu, handle⟩ := it
    unfold skip_loop at hres
    cases record with
    | none =>
      simp only [Except.ok.injEq] at hres
      subst hres
      exact ⟨hit, fun y hy => by simp at hy⟩
    | some r =>
      simp only at hres
      by_cases hlt : r.ts < start
      · rw [if_pos hlt] at hres
        exact ih _ (iter_ok_read G h percpu cpu0 _ hit) hres
      · rw [if_neg hlt] at hres
        simp only [Except.ok.injEq] at hres
        subst hres
        refine ⟨hit, fun y hy => ?_⟩
        simp only [Option.some.injEq] at hy
        subst hy
        omega

/-! ## The builders -/

theorem clear_offsets_spec (cpus : Nat) (percpu : Bool) (cpu : Nat) (cds : Nat → cpu_data)
    (c : Nat) :
    (clear_offsets cpus percpu cpu cds).1 c = cds c ∨
    (clear_offsets cpus percpu cpu cds).1 c = { cds c with offset := 0 } := by
  unfold clear_offsets
  cases percpu with
  | true =>
    simp only [if_true]
    by_cases hc : c = cpu
    · subst hc; right; rw [Function.update_same]
    · left; rw [Function.update_noteq hc]
  | false =>
    simp only [Bool.false_eq_true, if_false]
    generalize List.range cpus = cs
    induction cs using List.reverseRecOn with
    | nil => left; rfl
    | append_singleton cs a ih =>
      rw [List.foldl_append]
      simp only [List.foldl_cons, List.foldl_nil]
      by_cases hc : c = a
      · subst hc
        rw [Function.update_same]
        rcases ih with h1 | h1 <;> rw [h1] <;> right <;> rfl
      · rw [Function.update_noteq hc]
        exact ih

theorem force_new_pages_spec (page_size cpus : Nat) (percpu : Bool) (cpu : Nat)
    (cds : Nat → cpu_data) (c : Nat) (hc : relevant percpu cpu cpus c) :
    ((force_new_pages page_size cpus percpu cpu cds).1 c).page = none ∧
    ((force_new_pages page_size cpus percpu cpu cds).1 c).index = page_size + 1 := by
  unfold force_new_pages
  unfold relevant at hc
  cases percpu with
  | true =>
    simp only [if_true] at hc ⊢
    subst hc
    rw [Function.update_same]
    exact ⟨rfl, rfl⟩
  | false =>
    simp only [Bool.false_eq_true, if_false] at hc ⊢
    have hmem : c ∈ List.range cpus := List.mem_range.mpr hc
    revert hmem
    generalize List.range cpus = cs
    intro hmem
    induction cs using List.reverseRecOn with
    | nil => simp at hmem
    | append_singleton cs a ih =>
      rw [List.foldl_append]
      simp only [List.foldl_cons, List.foldl_nil]
      by_cases hca : c = a
      · subst hca
        rw [Function.update_same]
        exact ⟨rfl, rfl⟩
      · rw [Function.update_noteq hca]
        apply ih
        simp only [List.mem_append, List.mem_singleton] at hmem
        rcases hmem with h1 | h1
        · exact h1
        · exact absurd h1 hca

theorem force_new_pages_cpu (page_size cpus : Nat) (percpu : Bool) (cpu : Nat)
    (cds : Nat → cpu_data) :
    percpu = true → (force_new_pages page_size cpus percpu cpu cds).2 = cpu := by
  intro hp
  subst hp
  rfl

theorem inline_len_eq_zero (record : tep_record) :
    inline_len record = 0 ↔ (record.size < 4 ∨ 112 < record.size) := by
  unfold inline_len
  split <;> omega

theorem framed_size_ge (record : tep_record) : 8 ≤ framed_size record := by
  unfold framed_size
  by_cases h : inline_len record = 0
  · rw [if_pos h]; omega
  · rw [if_neg h]
    have := (inline_len_eq_zero record).not.mp h
    omega

/-- What a successful call of `write_record` does to the builder. -/
theorem write_record_cases (pevent : tep_handle) (record : tep_record) (cd cd2 : cpu_data)
    (ret : Nat) (h31 : record.size < 2 ^ 31)
    (hw : write_record pevent record cd = .ok (ret, cd2)) :
    cd.page ≠ none ∧ cd2.page ≠ none ∧ cd2.missed_events = cd.missed_events ∧
    cd2.commit = cd.commit ∧ cd2.offset = cd.offset ∧ cd2.ts = record.ts ∧
    ((ret = 0 ∧ 2 ^ 27 < ts_diff record cd ∧ cd2.index = cd.index + 8) ∨
     (ret = 1 ∧ ts_diff record cd ≤ 2 ^ 27 ∧ cd2.index = cd.index + framed_size record ∧
      (record.size < 4 ∨ 112 < record.size → record.size + 8 ≤ record.record_size))) := by
  cases hp : cd.page with
  | none =>
    unfold write_record at hw
    simp [hp] at hw
  | some page =>
    by_cases hd : 2 ^ 27 < ts_diff record cd
    · have heq := write_record_extend_eq pevent record cd page hp hd
      rw [hw] at heq
      injection heq with heq
      injection heq with h1 h2
      subst h1 h2
      exact ⟨by simp, by simp, rfl, rfl, rfl, rfl, Or.inl ⟨rfl, hd, rfl⟩⟩
    · by_cases hs : record.size < 4 ∨ 112 < record.size
      · by_cases hrs : record.size + 8 ≤ record.record_size
        · have heq := write_record_explicit_eq pevent record cd page hp (by omega) hs
            (by omega) hrs
          rw [hw] at heq
          injection heq with heq
          injection heq with h1 h2
          subst h1 h2
          refine ⟨by simp, by simp, rfl, rfl, rfl, rfl, Or.inr ⟨rfl, by omega, ?_, fun _ => hrs⟩⟩
          unfold framed_size
          rw [if_pos ((inline_len_eq_zero record).mpr hs)]
        · have heq := write_record_explicit_die pevent record cd page hp (by omega) hs
            (by omega)
          rw [hw] at heq
          cases heq
      · have heq := write_record_inline_eq pevent record cd page hp (by omega) (by omega)
          (by omega)
        rw [hw] at heq
        injection heq with heq
        injection heq with h1 h2
        subst h1 h2
        refine ⟨by simp, by simp, rfl, rfl, rfl, rfl, Or.inr ⟨rfl, by omega, ?_, ?_⟩⟩
        · unfold framed_size
          rw [if_neg ((inline_len_eq_zero record).not.mpr hs)]
        · intro h; omega

theorem ts_diff_self (record : tep_record) (cd : cpu_data) (h : cd.ts = record.ts) :
    ts_diff record cd = 0 := by
  unfold ts_diff
  rw [h]
  have : record.ts + 2 ^ 64 - record.ts = 2 ^ 64 := by omega
  rw [this]
  exact Nat.mod_self _

/-! ## The main loop: the invariant that pairs page starts and flushes -/

theorem main_loop_inv (P : parse_state → Prop) (type : split_types)
    (stop count_limit : Nat) (percpu : Bool)
    (hstep : ∀ s r b s2, P s → s.record = some r → (stop = 0 ∨ r.ts ≤ stop) →
      loop_body type count_limit percpu s r = .ok (b, s2) → P s2) :
    ∀ fuel s s2, P s → main_loop type stop count_limit percpu fuel s = .ok s2 → P s2 := by
  intro fuel
  induction fuel with
  | zero =>
    intro s s2 _ h
    simp [main_loop] at h
  | succ n ih =>
    intro s s2 hP h
    unfold main_loop at h
    cases hr : s.record with
    | none =>
      rw [hr] at h
      simp only [Except.ok.injEq] at h
      subst h
      exact hP
    | some r =>
      rw [hr] at h
      simp only at h
      by_cases hstop : stop = 0 ∨ r.ts ≤ stop
      · rw [if_pos hstop] at h
        cases hb : loop_body type count_limit percpu s r with
        | error e =>
          rw [hb] at h
          cases h
        | ok p =>
          obtain ⟨b, s3⟩ := p
          rw [hb] at h
          have hP3 := hstep s r b s3 hP hr hstop hb
          cases b with
          | true =>
            simp only [Except.ok.injEq] at h
            subst h
            exact hP3
          | false =>
            simp only at h
            exact ih s3 s2 hP3 h
      · rw [if_neg hstop] at h
        simp only [Except.ok.injEq] at h
        subst h
        exact hP

theorem write_record_page (pevent : tep_handle) (record : tep_record) (cd cd2 : cpu_data)
    (ret : Nat) (hw : write_record pevent record cd = .ok (ret, cd2)) :
    cd.page ≠ none ∧ cd2.page ≠ none ∧ (ret = 0 ∨ ret = 1) := by
  unfold write_record at hw
  cases hp : cd.page with
  | none => simp [hp] at hw
  | some page =>
    simp only [hp] at hw
    by_cases hd : (record.ts + 2 ^ 64 - cd.ts) % 2 ^ 64 > 1 <<< 27
    · rw [if_pos hd] at hw
      injection hw with hw
      injection hw with h1 h2
      subst h1 h2
      simp
    · rw [if_neg hd] at hw
      generalize (if record.size ≠ 0 ∧ record.size ≤ 28 * 4 then record.size / 4 else 0) = len
        at hw
      by_cases hl : len = 0
      · rw [if_pos hl] at hw
        by_cases hrs : record.size + 4 + 4 > record.record_size
        · rw [if_pos hrs] at hw
          cases hw
        · rw [if_neg hrs] at hw
          injection hw with hw
          injection hw with h1 h2
          subst h1 h2
          simp
      · rw [if_neg hl] at hw
        injection hw with hw
        injection hw with h1 h2
        subst h1 h2
        simp

theorem apply_split_spec (type : split_types) (start count_limit : Nat)
    (record : Option tep_record) (count : Nat) :
    (apply_split type start count_limit record count).1 = record ∨
    (apply_split type start count_limit record count).1 = none := by
  unfold apply_split
  cases type <;> cases record <;> simp only [] <;> (try split) <;> simp

theorem clear_offsets_cpu (cpus : Nat) (percpu : Bool) (cpu : Nat) (cds : Nat → cpu_data) :
    percpu = true → (clear_offsets cpus percpu cpu cds).2 = cpu := by
  intro hp
  subst hp
  rfl

theorem start_page_static (h2 h : tracecmd_input) (hs : same_static h2 h) (cd : cpu_data)
    (page : Mem) (record : tep_record) :
    start_page h2 cd page record = start_page h cd page record := by
  unfold start_page
  rw [hs.1, hs.2.1, hs.2.2.1]

theorem start_page_fields (h : tracecmd_input) (cd : cpu_data) (page : Mem)
    (record : tep_record) :
    (start_page h cd page record).page ≠ none ∧
    (start_page h cd page record).index = 8 + h.long_size ∧
    (start_page h cd page record).ts = record.ts ∧
    (start_page h cd page record).missed_events = record.missed_events ∧
    (start_page h cd page record).commit = 8 := by
  unfold start_page
  exact ⟨by simp, rfl, rfl, rfl, rfl⟩

theorem relevant_of_iter (G : tep_record → Prop) (h : tracecmd_input) (percpu : Bool)
    (cpu0 : Nat) (it : Option tep_record × Nat × tracecmd_input)
    (hit : iter_ok G h percpu cpu0 it) (hr : it.1 ≠ none) :
    relevant percpu cpu0 h.cpus it.2.1 := by
  unfold relevant
  cases percpu with
  | true => rw [if_pos rfl]; exact hit.2.2.2.1 rfl
  | false => rw [if_neg (by decide)]; exact hit.2.2.2.2 rfl hr

theorem new_page_none (s : parse_state) (record : tep_record)
    (hp : (s.cpu_data s.cpu).page = none) :
    new_page s record =
      { s with
        cpu_data := Function.update s.cpu_data s.cpu
          (start_page s.handle (s.cpu_data s.cpu) (fun _ => 0) record)
        log := s.log ++ [Event.opened s.cpu record] } := by
  unfold new_page
  simp only [hp]

theorem new_page_some (s : parse_state) (record : tep_record) (p : Mem)
    (hp : (s.cpu_data s.cpu).page = some p) :
    new_page s record =
      { s with
        cpu_data := Function.update s.cpu_data s.cpu
          (start_page s.handle (write_page s.handle.pevent (s.cpu_data s.cpu) s.handle.long_size)
            ((write_page s.handle.pevent (s.cpu_data s.cpu) s.handle.long_size).page.getD
              (fun _ => 0)) record)
        log := s.log ++ [Event.flushed s.cpu
          (write_page s.handle.pevent (s.cpu_data s.cpu) s.handle.long_size),
          Event.opened s.cpu record] } := by
  unfold new_page
  simp only [hp]

theorem pages_inv_new_page (G : tep_record → Prop) (Q : tep_record → cpu_data → Prop)
    (h : tracecmd_input) (percpu : Bool) (cpu0 : Nat) (hQ : page_fact G Q h)
    (s : parse_state) (record : tep_record) (hr : s.record = some record)
    (hinv : pages_inv G Q h percpu cpu0 s) :
    pages_inv G Q h percpu cpu0 (new_page s record) ∧
    (new_page s record).record = s.record ∧ (new_page s record).cpu = s.cpu ∧
    (new_page s record).handle = s.handle ∧ (new_page s record).start = s.start ∧
    (new_page s record).count = s.count ∧ (new_page s record).pages = s.pages ∧
    (∃ cd0 page, (new_page s record).cpu_data s.cpu = start_page h cd0 page record) ∧
    open_at (new_page s record).log s.cpu = some record ∧
    (new_page s record).log.getLast? = some (Event.opened s.cpu record) := by
  obtain ⟨hit, hrel, hopen, hclosed, hfl, hop, hap⟩ := hinv
  have hstat : same_static s.handle h := hit.1
  have hG : G record := hit.2.2.1 record hr
  have hrelc : relevant percpu cpu0 h.cpus s.cpu :=
    relevant_of_iter G h percpu cpu0 _ hit (by simp [hr])
  cases hp : (s.cpu_data s.cpu).page with
  | none =>
    rw [new_page_none s record hp]
    have hnone : open_at s.log s.cpu = none := by
      cases ho : open_at s.log s.cpu with
      | none => rfl
      | some r0 => exact absurd hp (hopen s.cpu r0 ho).1
    rw [start_page_static s.handle h hstat]
    refine ⟨⟨hit, ?_, ?_, ?_, ?_, ?_, ?_⟩, rfl, rfl, rfl, rfl, rfl, rfl, ⟨_, _, Function.update_same _ _ _⟩, ?_,
      by simp⟩
    · intro e he
      simp only [List.mem_append, List.mem_singleton] at he
      rcases he with he | he
      · exact hrel e he
      · subst he; exact hrelc
    · intro c r hc
      rw [open_at_append] at hc
      simp only [track] at hc
      by_cases hcc : c = s.cpu
      · subst hcc
        rw [Function.update_same] at hc
        simp only [Option.some.injEq] at hc
        subst hc
        simp only [Function.update_same]
        exact ⟨(start_page_fields h _ _ _).1, hQ.1 _ _ _ hG⟩
      · rw [Function.update_noteq hcc] at hc
        simp only [Function.update_noteq hcc]
        exact hopen c r hc
    · intro c hc hcr
      rw [open_at_append] at hc
      simp only [track] at hc
      by_cases hcc : c = s.cpu
      · subst hcc
        rw [Function.update_same] at hc
        cases hc
      · rw [Function.update_noteq hcc] at hc
        simp only [Function.update_noteq hcc]
        exact hclosed c hc hcr
    · apply Every_append_one _ _ _ hfl
      intro c cd heq
      cases heq
    · apply Every_append_one _ _ _ hop
      intro c r heq
      injection heq with h1 h2
      subst h1
      exact hnone
    · apply Every_append_one _ _ _ hap
      intro c r i heq
      cases heq
    · rw [open_at_append]
      simp [track]
  | some p =>
    rw [new_page_some s record p hp]
    obtain ⟨r0, hr0⟩ : ∃ r0, open_at s.log s.cpu = some r0 := by
      cases ho : open_at s.log s.cpu with
      | none =>
        have := hclosed s.cpu ho hrelc
        rw [hp] at this
        cases this
      | some r0 => exact ⟨r0, rfl⟩
    have hQ0 := hopen s.cpu r0 hr0
    have hlog : s.log ++ [Event.flushed s.cpu (write_page s.handle.pevent (s.cpu_data s.cpu)
          s.handle.long_size), Event.opened s.cpu record]
        = (s.log ++ [Event.flushed s.cpu (write_page h.pevent (s.cpu_data s.cpu)
          h.long_size)]) ++ [Event.opened s.cpu record] := by
      rw [hstat.1, hstat.2.1]
      simp
    rw [start_page_static s.handle h hstat, hlog]
    refine ⟨⟨hit, ?_, ?_, ?_, ?_, ?_, ?_⟩, rfl, rfl, rfl, rfl, rfl, rfl, ⟨_, _, Function.update_same _ _ _⟩, ?_,
      by simp⟩
    · intro e he
      simp only [List.mem_append, List.mem_singleton] at he
      rcases he with (he | he) | he
      · exact hrel e he
      · subst he; exact hrelc
      · subst he; exact hrelc
    · intro c r hc
      rw [open_at_append, open_at_append] at hc
      simp only [track] at hc
      by_cases hcc : c = s.cpu
      · subst hcc
        rw [Function.update_same] at hc
        simp only [Option.some.injEq] at hc
        subst hc
        simp only [Function.update_same]
        exact ⟨(start_page_fields h _ _ _).1, hQ.1 _ _ _ hG⟩
      · rw [Function.update_noteq hcc, Function.update_noteq hcc] at hc
        simp only [Function.update_noteq hcc]
        exact hopen c r hc
    · intro c hc hcr
      rw [open_at_append, open_at_append] at hc
      simp only [track] at hc
      by_cases hcc : c = s.cpu
      · subst hcc
        rw [Function.update_same] at hc
        cases hc
      · rw [Function.update_noteq hcc, Function.update_noteq hcc] at hc
        simp only [Function.update_noteq hcc]
        exact hclosed c hc hcr
    · apply Every_append_one
      · apply Every_append_one _ _ _ hfl
        intro c cd heq
        injection heq with h1 h2
        subst h1 h2
        exact ⟨r0, _, hr0, hQ0.1, hQ0.2, rfl⟩
      · intro c cd heq
        cases heq
    · apply Every_append_one
      · apply Every_append_one _ _ _ hop
        intro c r heq
        cases heq
      · intro c r heq
        injection heq with h1 h2
        subst h1
        rw [open_at_append]
        simp [track]
    · apply Every_append_one
      · apply Every_append_one _ _ _ hap
        intro c r i heq
        cases heq
      · intro c r i heq
        cases heq
    · rw [open_at_append, open_at_append]
      simp [track]

theorem pages_inv_page_step (G : tep_record → Prop) (Q : tep_record → cpu_data → Prop)
    (h : tracecmd_input) (percpu : Bool) (cpu0 : Nat) (hQ : page_fact G Q h)
    (type : split_types) (count_limit : Nat)
    (s : parse_state) (record : tep_record) (hr : s.record = some record)
    (hinv : pages_inv G Q h percpu cpu0 s) (b : Bool) (s1 : parse_state)
    (hps : page_step type count_limit s record = (b, s1)) :
    pages_inv G Q h percpu cpu0 s1 ∧ s1.record = s.record ∧ s1.cpu = s.cpu ∧
    s1.handle = s.handle ∧ s1.start = s.start ∧ s1.count = s.count ∧
    (b = true → s1.log = s.log ∧ s1.cpu_data = s.cpu_data) ∧
    (b = false →
      (s1.cpu_data = s.cpu_data ∧ s1.log = s.log ∧
        needs_new_page h.page_size (s.cpu_data s.cpu) record = false) ∨
      ((∃ cd0 page, s1.cpu_data s.cpu = start_page h cd0 page record) ∧
        open_at s1.log s.cpu = some record ∧
        s1.log.getLast? = some (Event.opened s.cpu record))) := by
  have hstat : same_static s.handle h := hinv.1.1
  unfold page_step at hps
  by_cases hf : needs_new_page s.handle.page_size (s.cpu_data s.cpu) record = true
  · rw [if_pos hf] at hps
    by_cases ht : type = split_types.SPLIT_PAGES
    · rw [if_pos ht] at hps
      by_cases hl : s.pages + 1 > count_limit
      · rw [if_pos hl] at hps
        injection hps with h1 h2
        subst h1 h2
        exact ⟨hinv, rfl, rfl, rfl, rfl, rfl, fun _ => ⟨rfl, rfl⟩, fun hb => Bool.noConfusion hb⟩
      · rw [if_neg hl] at hps
        injection hps with h1 h2
        subst h1 h2
        have hn := pages_inv_new_page G Q h percpu cpu0 hQ { s with pages := s.pages + 1 }
          record hr hinv
        exact ⟨hn.1, hn.2.1, hn.2.2.1, hn.2.2.2.1, hn.2.2.2.2.1, hn.2.2.2.2.2.1,
          fun hb => Bool.noConfusion hb, fun _ => Or.inr hn.2.2.2.2.2.2.2⟩
    · rw [if_neg ht] at hps
      injection hps with h1 h2
      subst h1 h2
      have hn := pages_inv_new_page G Q h percpu cpu0 hQ s record hr hinv
      exact ⟨hn.1, hn.2.1, hn.2.2.1, hn.2.2.2.1, hn.2.2.2.2.1, hn.2.2.2.2.2.1,
        fun hb => Bool.noConfusion hb, fun _ => Or.inr hn.2.2.2.2.2.2.2⟩
  · rw [if_neg hf] at hps
    injection hps with h1 h2
    subst h1 h2
    refine ⟨hinv, rfl, rfl, rfl, rfl, rfl, fun hb => Bool.noConfusion hb, fun _ => Or.inl ⟨rfl, rfl, ?_⟩⟩
    rw [← hstat.2.2.1]
    simpa using hf

theorem needs_new_page_missed (page_size : Nat) (cd : cpu_data) (record : tep_record)
    (hm : record.missed_events ≠ 0) : needs_new_page page_size cd record = true := by
  unfold needs_new_page
  simp [hm]

theorem pages_inv_record_step (G : tep_record → Prop) (Q : tep_record → cpu_data → Prop)
    (h : tracecmd_input) (percpu : Bool) (cpu0 : Nat) (hQ : page_fact G Q h)
    (type : split_types) (count_limit : Nat)
    (s : parse_state) (record : tep_record) (hr : s.record = some record)
    (hinv : pages_inv G Q h percpu cpu0 s)
    (hcase : needs_new_page h.page_size (s.cpu_data s.cpu) record = false ∨
      ((∃ cd0 page, s.cpu_data s.cpu = start_page h cd0 page record) ∧
        open_at s.log s.cpu = some record ∧
        s.log.getLast? = some (Event.opened s.cpu record)))
    (s2 : parse_state) (hstep : record_step type count_limit percpu s record = .ok s2) :
    pages_inv G Q h percpu cpu0 s2 := by
  obtain ⟨hit, hrel, hopen, hclosed, hfl, hop, hap⟩ := hinv
  have hstat : same_static s.handle h := hit.1
  have hG : G record := hit.2.2.1 record hr
  have hrelc : relevant percpu cpu0 h.cpus s.cpu :=
    relevant_of_iter G h percpu cpu0 _ hit (by simp [hr])
  unfold record_step at hstep
  cases hw : write_record s.handle.pevent record
      { s.cpu_data s.cpu with offset := record.offset } with
  | error e =>
    rw [hw] at hstep
    cases hstep
  | ok p =>
    obtain ⟨ret, cd2⟩ := p
    rw [hw] at hstep
    simp only at hstep
    have hpg := write_record_page _ _ _ _ _ hw
    have hpage : (s.cpu_data s.cpu).page ≠ none := hpg.1
    obtain ⟨r0, hr0⟩ : ∃ r0, open_at s.log s.cpu = some r0 := by
      cases ho : open_at s.log s.cpu with
      | none => exact absurd (hclosed s.cpu ho hrelc) hpage
      | some r0 => exact ⟨r0, rfl⟩
    have hQ0 := (hopen s.cpu r0 hr0).2
    have hQ2 : Q r0 cd2 := by
      apply hQ.2.1 r0 record (s.cpu_data s.cpu) ret cd2 hQ0 hG _ (by rw [← hstat.1]; exact hw)
      rcases hcase with h1 | h1
      · exact Or.inl h1
      · right
        refine ⟨?_, h1.1⟩
        have := h1.2.1
        rw [hr0] at this
        exact Option.some.inj this
    have hopen2 : ∀ c r, open_at s.log c = some r →
        (Function.update s.cpu_data s.cpu cd2 c).page ≠ none ∧
        Q r (Function.update s.cpu_data s.cpu cd2 c) := by
      intro c r hc
      by_cases hcc : c = s.cpu
      · subst hcc
        rw [Function.update_same]
        rw [hr0] at hc
        have := Option.some.inj hc
        subst this
        exact ⟨hpg.2.1, hQ2⟩
      · rw [Function.update_noteq hcc]
        exact hopen c r hc
    have hclosed2 : ∀ c, open_at s.log c = none → relevant percpu cpu0 h.cpus c →
        (Function.update s.cpu_data s.cpu cd2 c).page = none := by
      intro c hc hcr
      by_cases hcc : c = s.cpu
      · subst hcc
        rw [hr0] at hc
        cases hc
      · rw [Function.update_noteq hcc]
        exact hclosed c hc hcr
    by_cases hret : ret ≠ 0
    · rw [if_pos hret] at hstep
      injection hstep with hstep
      subst hstep
      unfold consume
      have hrd := iter_ok_read G h percpu cpu0 _ hit
      simp only at hrd
      have hsp := apply_split_spec type s.start count_limit
        (read_record s.handle percpu s.cpu).1 s.count
      refine ⟨⟨hrd.1, hrd.2.1, ?_, ?_, ?_⟩, ?_, ?_, ?_, ?_, ?_, ?_⟩
      · intro y hy
        simp only at hy
        rcases hsp with h1 | h1
        · rw [h1] at hy
          exact hrd.2.2.1 y hy
        · rw [h1] at hy
          cases hy
      · intro hp
        simp only
        cases hn : (read_record s.handle percpu s.cpu).1 with
        | none =>
          simp only
          rw [clear_offsets_cpu _ _ _ _ hp]
          exact hrd.2.2.2.1 hp
        | some y =>
          exact hrd.2.2.2.1 hp
      · intro hp hne
        simp only at hne ⊢
        cases hn : (read_record s.handle percpu s.cpu).1 with
        | none =>
          rcases hsp with h1 | h1
          · rw [h1, hn] at hne
            exact absurd rfl hne
          · rw [h1] at hne
            exact absurd rfl hne
        | some y =>
          simp only
          exact hrd.2.2.2.2 hp (by rw [hn]; simp)
      · intro e he
        simp only [List.mem_append, List.mem_singleton] at he
        rcases he with he | he
        · exact hrel e he
        · subst he; exact hrelc
      · intro c r hc
        simp only at hc ⊢
        rw [open_at_append] at hc
        simp only [track] at hc
        have hb := hopen2 c r hc
        cases hn : (read_record s.handle percpu s.cpu).1 with
        | none =>
          simp only
          rcases clear_offsets_spec s.handle.cpus percpu (read_record s.handle percpu s.cpu).2.1
            (Function.update s.cpu_data s.cpu cd2) c with h1 | h1
          · rw [h1]; exact hb
          · rw [h1]; exact ⟨hb.1, hQ.2.2 r _ hb.2⟩
        | some y =>
          exact hb
      · intro c hc hcr
        simp only at hc ⊢
        rw [open_at_append] at hc
        simp only [track] at hc
        have hb := hclosed2 c hc hcr
        cases hn : (read_record s.handle percpu s.cpu).1 with
        | none =>
          simp only
          rcases clear_offsets_spec s.handle.cpus percpu (read_record s.handle percpu s.cpu).2.1
            (Function.update s.cpu_data s.cpu cd2) c with h1 | h1
          · rw [h1]; exact hb
          · rw [h1]; exact hb
        | some y =>
          exact hb
      · apply Every_append_one _ _ _ hfl
        intro c cd heq
        cases heq
      · apply Every_append_one _ _ _ hop
        intro c r heq
        cases heq
      · apply Every_append_one _ _ _ hap
        intro c r i heq
        injection heq with h1 h2 h3
        subst h1 h2 h3
        refine ⟨⟨r0, hr0⟩, fun hm => ?_⟩
        rcases hcase with h1 | h1
        · rw [needs_new_page_missed _ _ _ hm] at h1
          cases h1
        · obtain ⟨⟨cd0, page, hcd⟩, _, hlast⟩ := h1
          refine ⟨hlast, ?_⟩
          rw [hcd]
          exact (start_page_fields h cd0 page record).2.1
    · rw [if_neg hret] at hstep
      injection hstep with hstep
      subst hstep
      refine ⟨hit, ?_, ?_, ?_, ?_, ?_, ?_⟩
      · intro e he
        simp only [List.mem_append, List.mem_singleton] at he
        rcases he with he | he
        · exact hrel e he
        · subst he; exact hrelc
      · intro c r hc
        simp only at hc ⊢
        rw [open_at_append] at hc
        exact hopen2 c r hc
      · intro c hc hcr
        simp only at hc ⊢
        rw [open_at_append] at hc
        exact hclosed2 c hc hcr
      · apply Every_append_one _ _ _ hfl
        intro c cd heq
        cases heq
      · apply Every_append_one _ _ _ hop
        intro c r heq
        cases heq
      · apply Every_append_one _ _ _ hap
        intro c r i heq
        cases heq

theorem pages_inv_loop_body (G : tep_record → Prop) (Q : tep_record → cpu_data → Prop)
    (h : tracecmd_input) (percpu : Bool) (cpu0 : Nat) (hQ : page_fact G Q h)
    (type : split_types) (count_limit : Nat)
    (s : parse_state) (record : tep_record) (b : Bool) (s2 : parse_state)
    (hinv : pages_inv G Q h percpu cpu0 s) (hr : s.record = some record)
    (hstep : loop_body type count_limit percpu s record = .ok (b, s2)) :
    pages_inv G Q h percpu cpu0 s2 := by
  unfold loop_body at hstep
  cases hps : page_step type count_limit s record with
  | mk b1 s1 =>
    have hp := pages_inv_page_step G Q h percpu cpu0 hQ type count_limit s record hr hinv
      b1 s1 hps
    rw [hps] at hstep
    cases b1 with
    | true =>
      simp only [Except.ok.injEq, Prod.mk.injEq] at hstep
      rw [← hstep.2]
      exact hp.1
    | false =>
      simp only at hstep
      cases hrs : record_step type count_limit percpu s1 record with
      | error e =>
        rw [hrs] at hstep
        cases hstep
      | ok s3 =>
        rw [hrs] at hstep
        simp only [Except.ok.injEq, Prod.mk.injEq] at hstep
        rw [← hstep.2]
        have hcase := hp.2.2.2.2.2.2.2 rfl
        apply pages_inv_record_step G Q h percpu cpu0 hQ type count_limit s1 record
          (by rw [hp.2.1]; exact hr) hp.1 _ s3 hrs
        rw [hp.2.2.1]
        rcases hcase with h1 | h1
        · left
          rw [h1.1]
          exact h1.2.2
        · right
          exact h1

/-! ## Entering and leaving the main loop -/

theorem tracecmd_set_cpu_to_timestamp_spec (h : tracecmd_input) (cpu ts : Nat) :
    same_static (tracecmd_set_cpu_to_timestamp h cpu ts) h ∧
    (∀ c y, y ∈ (tracecmd_set_cpu_to_timestamp h cpu ts).next c →
      y ∈ h.next c ∨ (y ∈ h.recs c ∧ ts ≤ y.ts ∨ y ∈ h.recs c)) ∧
    (tracecmd_set_cpu_to_timestamp h cpu ts).next cpu
      = (h.recs cpu).dropWhile (fun r => r.ts < ts) ∧
    (∀ c, c ≠ cpu → (tracecmd_set_cpu_to_timestamp h cpu ts).next c = h.next c) := by
  unfold tracecmd_set_cpu_to_timestamp
  refine ⟨same_static_refl h, ?_, by simp, ?_⟩
  · intro c y hy
    simp only at hy
    by_cases hc : c = cpu
    · subst hc
      rw [Function.update_same] at hy
      right; right
      exact (List.dropWhile_sublist _).subset hy
    · rw [Function.update_noteq hc] at hy
      left; exact hy
  · intro c hc
    simp only
    rw [Function.update_noteq hc]

theorem set_cpu_time_spec (h : tracecmd_input) (percpu : Bool) (start cpu cpus : Nat) :
    same_static (set_cpu_time h percpu start cpu cpus) h ∧
    (∀ c y, y ∈ (set_cpu_time h percpu start cpu cpus).next c → y ∈ h.next c ∨ y ∈ h.recs c) := by
  unfold set_cpu_time
  cases percpu with
  | true =>
    rw [if_pos rfl]
    have hs := tracecmd_set_cpu_to_timestamp_spec h cpu start
    refine ⟨hs.1, fun c y hy => ?_⟩
    rcases hs.2.1 c y hy with h1 | h1 | h1
    · exact Or.inl h1
    · exact Or.inr h1.1
    · exact Or.inr h1
  | false =>
    rw [if_neg (by decide)]
    generalize List.range cpus = cs
    induction cs using List.reverseRecOn with
    | nil => exact ⟨same_static_refl h, fun c y hy => Or.inl hy⟩
    | append_singleton cs a ih =>
      rw [List.foldl_append]
      simp only [List.foldl_cons, List.foldl_nil]
      have hs := tracecmd_set_cpu_to_timestamp_spec
        (List.foldl (fun h c => tracecmd_set_cpu_to_timestamp h c start) h cs) a start
      refine ⟨same_static_trans _ _ _ hs.1 ih.1, fun c y hy => ?_⟩
      rcases hs.2.1 c y hy with h1 | h1 | h1
      · exact ih.2 c y h1
      · right; rw [← ih.1.2.2.2.2]; exact h1.1
      · right; rw [← ih.1.2.2.2.2]; exact h1

theorem pages_inv_init (G : tep_record → Prop) (Q : tep_record → cpu_data → Prop)
    (h : tracecmd_input) (percpu : Bool) (cpu0 : Nat) (s : parse_state)
    (hit : iter_ok G h percpu cpu0 (s.record, s.cpu, s.handle)) (hlog : s.log = [])
    (hp : ∀ c, relevant percpu cpu0 h.cpus c → (s.cpu_data c).page = none) :
    pages_inv G Q h percpu cpu0 s := by
  refine ⟨hit, ?_, ?_, ?_, ?_, ?_, ?_⟩
  · intro e he
    rw [hlog] at he
    cases he
  · intro c r hc
    rw [hlog] at hc
    cases hc
  · intro c _ hc
    exact hp c hc
  · rw [hlog]; exact Every_nil _
  · rw [hlog]; exact Every_nil _
  · rw [hlog]; exact Every_nil _

/-- The state in which `parse_cpu` enters its main loop. -/
theorem parse_start_spec (handle : tracecmd_input) (cpu_data : Nat → cpu_data) (start : Nat)
    (percpu : Bool) (cpu0 : Nat) (s : parse_state)
    (hs : parse_start handle cpu_data start percpu cpu0 = .ok s) :
    s.log = [] ∧
    s.cpu_data = (force_new_pages handle.page_size handle.cpus percpu cpu0 cpu_data).1 ∧
    (start = 0 →
      (s.record, s.cpu, s.handle) = read_record handle percpu
        (force_new_pages handle.page_size handle.cpus percpu cpu0 cpu_data).2) ∧
    (start ≠ 0 → s.start = start ∧ ∃ fuel,
      skip_loop percpu start fuel
        ((read_record handle percpu
          (force_new_pages handle.page_size handle.cpus percpu cpu0 cpu_data).2).1,
         (read_record handle percpu
          (force_new_pages handle.page_size handle.cpus percpu cpu0 cpu_data).2).2.1,
         set_cpu_time
          (read_record handle percpu
            (force_new_pages handle.page_size handle.cpus percpu cpu0 cpu_data).2).2.2
          percpu start
          (read_record handle percpu
            (force_new_pages handle.page_size handle.cpus percpu cpu0 cpu_data).2).2.1
          handle.cpus) = .ok (s.record, s.cpu, s.handle)) := by
  unfold parse_start at hs
  simp only at hs
  by_cases hst : start ≠ 0
  · rw [if_pos hst] at hs
    cases hsk : skip_loop percpu start
        (pending (set_cpu_time
          (read_record handle percpu
            (force_new_pages handle.page_size handle.cpus percpu cpu0 cpu_data).2).2.2
          percpu start
          (read_record handle percpu
            (force_new_pages handle.page_size handle.cpus percpu cpu0 cpu_data).2).2.1
          handle.cpus) percpu
          (read_record handle percpu
            (force_new_pages handle.page_size handle.cpus percpu cpu0 cpu_data).2).2.1 + 2)
        ((read_record handle percpu
          (force_new_pages handle.page_size handle.cpus percpu cpu0 cpu_data).2).1,
         (read_record handle percpu
          (force_new_pages handle.page_size handle.cpus percpu cpu0 cpu_data).2).2.1,
         set_cpu_time
          (read_record handle percpu
            (force_new_pages handle.page_size handle.cpus percpu cpu0 cpu_data).2).2.2
          percpu start
          (read_record handle percpu
            (force_new_pages handle.page_size handle.cpus percpu cpu0 cpu_data).2).2.1
          handle.cpus) with
    | error e =>
      rw [hsk] at hs
      cases hs
    | ok res =>
      obtain ⟨record, cpu, h2⟩ := res
      rw [hsk] at hs
      simp only [Except.ok.injEq] at hs
      subst hs
      exact ⟨rfl, rfl, fun h0 => absurd h0 hst, fun _ => ⟨rfl, _, hsk⟩⟩
  · rw [if_neg hst] at hs
    simp only [Except.ok.injEq] at hs
    subst hs
    exact ⟨rfl, rfl, fun _ => rfl, fun h0 => absurd h0 hst⟩

/-- The iterator at the entry of the main loop when every record of the input
satisfies `G`. -/
theorem parse_start_iter (G : tep_record → Prop)
    (handle : tracecmd_input) (cpu_data : Nat → cpu_data) (start : Nat) (percpu : Bool)
    (cpu0 : Nat) (s : parse_state)
    (hG : ∀ c y, y ∈ handle.recs c ∨ y ∈ handle.next c → G y)
    (hs : parse_start handle cpu_data start percpu cpu0 = .ok s) :
    iter_ok G handle percpu cpu0 (s.record, s.cpu, s.handle) := by
  have hsp := parse_start_spec handle cpu_data start percpu cpu0 s hs
  have hit0 : iter_ok G handle percpu cpu0
      (none, (force_new_pages handle.page_size handle.cpus percpu cpu0 cpu_data).2, handle) :=
    ⟨same_static_refl handle, fun c y _ hy => hG c y (Or.inr hy),
      fun y hy => Option.noConfusion hy,
      fun hp => force_new_pages_cpu _ _ _ _ _ hp, fun _ hne => absurd rfl hne⟩
  have hit1 := iter_ok_read G handle percpu cpu0 _ hit0
  simp only at hit1
  by_cases hst : start ≠ 0
  · obtain ⟨_, fuel, hsk⟩ := hsp.2.2.2 hst
    have hseek := set_cpu_time_spec
      (read_record handle percpu
        (force_new_pages handle.page_size handle.cpus percpu cpu0 cpu_data).2).2.2
      percpu start
      (read_record handle percpu
        (force_new_pages handle.page_size handle.cpus percpu cpu0 cpu_data).2).2.1 handle.cpus
    have hit2 : iter_ok G handle percpu cpu0
        ((read_record handle percpu
          (force_new_pages handle.page_size handle.cpus percpu cpu0 cpu_data).2).1,
         (read_record handle percpu
          (force_new_pages handle.page_size handle.cpus percpu cpu0 cpu_data).2).2.1,
         set_cpu_time
          (read_record handle percpu
            (force_new_pages handle.page_size handle.cpus percpu cpu0 cpu_data).2).2.2
          percpu start
          (read_record handle percpu
            (force_new_pages handle.page_size handle.cpus percpu cpu0 cpu_data).2).2.1
          handle.cpus) := by
      refine ⟨same_static_trans _ _ _ hseek.1 hit1.1, ?_, hit1.2.2.1, hit1.2.2.2.1,
        hit1.2.2.2.2⟩
      intro c y hc hy
      rcases hseek.2 c y hy with h1 | h1
      · exact hit1.2.1 c y hc h1
      · rw [hit1.1.2.2.2.2] at h1
        exact hG c y (Or.inl h1)
    exact (skip_loop_spec G handle percpu cpu0 start _ _ _ hit2 hsk).1
  · have h0 : start = 0 := by omega
    rw [hsp.2.2.1 h0]
    exact hit1

theorem parse_start_inv (G : tep_record → Prop) (Q : tep_record → cpu_data → Prop)
    (handle : tracecmd_input) (cpu_data : Nat → cpu_data) (start : Nat) (percpu : Bool)
    (cpu0 : Nat) (s : parse_state)
    (hit : iter_ok G handle percpu cpu0 (s.record, s.cpu, s.handle))
    (hs : parse_start handle cpu_data start percpu cpu0 = .ok s) :
    pages_inv G Q handle percpu cpu0 s := by
  have hsp := parse_start_spec handle cpu_data start percpu cpu0 s hs
  apply pages_inv_init G Q handle percpu cpu0 s hit hsp.1
  intro c hc
  rw [hsp.2.1]
  exact (force_new_pages_spec _ _ _ _ _ c hc).1

theorem pages_inv_final_flush_one (G : tep_record → Prop) (Q : tep_record → cpu_data → Prop)
    (h : tracecmd_input) (percpu : Bool) (cpu0 : Nat) (s : parse_state) (c : Nat)
    (hinv : pages_inv G Q h percpu cpu0 s) (hc : relevant percpu cpu0 h.cpus c) :
    pages_inv G Q h percpu cpu0
      { s with cpu_data := (final_flush_one s.handle s.cpu_data s.log c).1
               log := (final_flush_one s.handle s.cpu_data s.log c).2 } ∧
    open_at (final_flush_one s.handle s.cpu_data s.log c).2 c = none ∧
    (∀ c2, open_at s.log c2 = none →
      open_at (final_flush_one s.handle s.cpu_data s.log c).2 c2 = none) := by
  obtain ⟨hit, hrel, hopen, hclosed, hfl, hop, hap⟩ := hinv
  have hstat : same_static s.handle h := hit.1
  unfold final_flush_one
  cases hp : (s.cpu_data c).page with
  | none =>
    have hnone : open_at s.log c = none := by
      cases ho : open_at s.log c with
      | none => rfl
      | some r0 => exact absurd hp (hopen c r0 ho).1
    exact ⟨⟨hit, hrel, hopen, hclosed, hfl, hop, hap⟩, hnone, fun c2 h2 => h2⟩
  | some p =>
    obtain ⟨r0, hr0⟩ : ∃ r0, open_at s.log c = some r0 := by
      cases ho : open_at s.log c with
      | none =>
        have := hclosed c ho hc
        rw [hp] at this
        cases this
      | some r0 => exact ⟨r0, rfl⟩
    have hQ0 := hopen c r0 hr0
    simp only
    rw [hstat.1, hstat.2.1]
    refine ⟨⟨hit, ?_, ?_, ?_, ?_, ?_, ?_⟩, ?_, ?_⟩
    · intro e he
      simp only [List.mem_append, List.mem_singleton] at he
      rcases he with he | he
      · exact hrel e he
      · subst he; exact hc
    · intro c2 r hc2
      simp only at hc2 ⊢
      rw [open_at_append] at hc2
      simp only [track] at hc2
      by_cases hcc : c2 = c
      · subst hcc
        rw [Function.update_same] at hc2
        cases hc2
      · rw [Function.update_noteq hcc] at hc2
        rw [Function.update_noteq hcc]
        exact hopen c2 r hc2
    · intro c2 hc2 hcr
      simp only at hc2 ⊢
      rw [open_at_append] at hc2
      simp only [track] at hc2
      by_cases hcc : c2 = c
      · subst hcc
        rw [Function.update_same]
      · rw [Function.update_noteq hcc] at hc2
        rw [Function.update_noteq hcc]
        exact hclosed c2 hc2 hcr
    · apply Every_append_one _ _ _ hfl
      intro c2 cd heq
      injection heq with h1 h2
      subst h1 h2
      exact ⟨r0, _, hr0, hQ0.1, hQ0.2, rfl⟩
    · apply Every_append_one _ _ _ hop
      intro c2 r heq
      cases heq
    · apply Every_append_one _ _ _ hap
      intro c2 r i heq
      cases heq
    · rw [open_at_append]
      simp [track]
    · intro c2 h2
      rw [open_at_append]
      simp only [track]
      by_cases hcc : c2 = c
      · subst hcc
        rw [Function.update_same]
      · rw [Function.update_noteq hcc]
        exact h2

theorem pages_inv_final_fold (G : tep_record → Prop) (Q : tep_record → cpu_data → Prop)
    (h : tracecmd_input) (percpu : Bool) (cpu0 : Nat) (cs : List Nat)
    (hcs : ∀ c ∈ cs, relevant percpu cpu0 h.cpus c) (s : parse_state)
    (hinv : pages_inv G Q h percpu cpu0 s) :
    pages_inv G Q h percpu cpu0
      { s with
        cpu_data := (cs.foldl (fun acc c => final_flush_one s.handle acc.1 acc.2 c)
          (s.cpu_data, s.log)).1
        log := (cs.foldl (fun acc c => final_flush_one s.handle acc.1 acc.2 c)
          (s.cpu_data, s.log)).2 } ∧
    (∀ c, c ∈ cs ∨ open_at s.log c = none →
      open_at (cs.foldl (fun acc c => final_flush_one s.handle acc.1 acc.2 c)
        (s.cpu_data, s.log)).2 c = none) := by
  induction cs generalizing s with
  | nil =>
    refine ⟨hinv, fun c hc => ?_⟩
    rcases hc with hc | hc
    · cases hc
    · exact hc
  | cons a cs ih =>
    have h1 := pages_inv_final_flush_one G Q h percpu cpu0 s a hinv
      (hcs a (List.mem_cons_self _ _))
    have h2 := ih (fun c hc => hcs c (List.mem_cons_of_mem _ hc))
      { s with cpu_data := (final_flush_one s.handle s.cpu_data s.log a).1
               log := (final_flush_one s.handle s.cpu_data s.log a).2 } h1.1
    simp only [List.foldl_cons]
    refine ⟨h2.1, fun c hc => ?_⟩
    apply h2.2 c
    rcases hc with hc | hc
    · rcases List.mem_cons.mp hc with hc | hc
      · right; subst hc; exact h1.2.1
      · left; exact hc
    · right; exact h1.2.2 c hc

theorem pages_inv_final_flush (G : tep_record → Prop) (Q : tep_record → cpu_data → Prop)
    (h : tracecmd_input) (percpu : Bool) (cpu0 : Nat) (s : parse_state)
    (hinv : pages_inv G Q h percpu cpu0 s) :
    Every (flush_ok h Q) (final_flush percpu s).log ∧ Every open_ok (final_flush percpu s).log ∧
    Every (append_ok h) (final_flush percpu s).log ∧
    (∀ c, open_at (final_flush percpu s).log c = none) := by
  have hstat : same_static s.handle h := hinv.1.1
  have hcpu : percpu = true → s.cpu = cpu0 := hinv.1.2.2.2.1
  unfold final_flush
  cases percpu with
  | true =>
    rw [if_pos rfl]
    have hc : relevant true cpu0 h.cpus s.cpu := by
      unfold relevant
      rw [if_pos rfl]
      exact hcpu rfl
    have h1 := pages_inv_final_flush_one G Q h true cpu0 s s.cpu hinv hc
    refine ⟨h1.1.2.2.2.2.1, h1.1.2.2.2.2.2.1, h1.1.2.2.2.2.2.2, fun c => ?_⟩
    by_cases hcc : relevant true cpu0 h.cpus c
    · have : c = s.cpu := by
        unfold relevant at hcc
        rw [if_pos rfl] at hcc
        rw [hcc, hcpu rfl]
      subst this
      exact h1.2.1
    · exact open_at_irrelevant true cpu0 h.cpus _ h1.1.2.1 c hcc
  | false =>
    rw [if_neg (by decide)]
    have hcs : ∀ c ∈ List.range s.handle.cpus, relevant false cpu0 h.cpus c := by
      intro c hc
      unfold relevant
      rw [if_neg (by decide), ← hstat.2.2.2.1]
      exact List.mem_range.mp hc
    have h1 := pages_inv_final_fold G Q h false cpu0 (List.range s.handle.cpus) hcs s hinv
    refine ⟨h1.1.2.2.2.2.1, h1.1.2.2.2.2.2.1, h1.1.2.2.2.2.2.2, fun c => ?_⟩
    by_cases hcc : relevant false cpu0 h.cpus c
    · apply h1.2 c
      left
      unfold relevant at hcc
      rw [if_neg (by decide), ← hstat.2.2.2.1] at hcc
      exact List.mem_range.mpr hcc
    · exact open_at_irrelevant false cpu0 h.cpus _ h1.1.2.1 c hcc

/-- A property that holds when `parse_cpu` enters its main loop and that every
pass through the body of the loop keeps holds of the state that is flushed at
the end. -/
theorem parse_cpu_inv (P : parse_state → Prop)
    (handle : tracecmd_input) (cpu_data : Nat → cpu_data) (start stop count_limit : Nat)
    (percpu : Bool) (cpu0 : Nat) (type : split_types) (s : parse_state)
    (hstart : ∀ s0, parse_start handle cpu_data start percpu cpu0 = .ok s0 → P s0)
    (hstep : ∀ s r b s2, P s → s.record = some r → (stop = 0 ∨ r.ts ≤ stop) →
      loop_body type count_limit percpu s r = .ok (b, s2) → P s2)
    (hrun : parse_cpu handle cpu_data start stop count_limit percpu cpu0 type = .ok s) :
    ∃ s1, P s1 ∧ s = final_flush percpu s1 := by
  unfold parse_cpu at hrun
  cases hps : parse_start handle cpu_data start percpu cpu0 with
  | error e =>
    rw [hps] at hrun
    cases hrun
  | ok s0 =>
    rw [hps] at hrun
    simp only at hrun
    cases hml : main_loop type stop count_limit percpu
        (2 * pending s0.handle percpu s0.cpu + 3) s0 with
    | error e =>
      rw [hml] at hrun
      cases hrun
    | ok s1 =>
      rw [hml] at hrun
      simp only [Except.ok.injEq] at hrun
      exact ⟨s1, main_loop_inv P type stop count_limit percpu hstep _ s0 s1 (hstart s0 hps) hml,
        hrun.symm⟩

/-- The log of a run of `parse_cpu` pairs page starts and flushes: every flush
closes the page that the CPU has open and the flushed builder satisfies `Q`
for the record that started the page; no page is started over an open one;
every append goes to an open page; at the end no page is left open. -/
theorem parse_cpu_pages (G : tep_record → Prop) (Q : tep_record → cpu_data → Prop)
    (handle : tracecmd_input) (cpu_data : Nat → cpu_data) (start stop count_limit : Nat)
    (percpu : Bool) (cpu0 : Nat) (type : split_types) (s : parse_state)
    (hQ : page_fact G Q handle)
    (hG : ∀ c y, y ∈ handle.recs c ∨ y ∈ handle.next c → G y)
    (hrun : parse_cpu handle cpu_data start stop count_limit percpu cpu0 type = .ok s) :
    Every (flush_ok handle Q) s.log ∧ Every open_ok s.log ∧ Every (append_ok handle) s.log ∧
    (∀ c, open_at s.log c = none) := by
  obtain ⟨s1, h1, hs⟩ := parse_cpu_inv (pages_inv G Q handle percpu cpu0) handle cpu_data start
    stop count_limit percpu cpu0 type s
    (fun s0 hs0 => parse_start_inv G Q handle cpu_data start percpu cpu0 s0
      (parse_start_iter G handle cpu_data start percpu cpu0 s0 hG hs0) hs0)
    (fun s r b s2 hP hr _ hb =>
      pages_inv_loop_body G Q handle percpu cpu0 hQ type count_limit s r b s2 hP hr hb)
    hrun
  rw [hs]
  exact pages_inv_final_flush G Q handle percpu cpu0 s1 h1

/-! ## Pages stay within bounds -/

theorem framed_size_ge_size (record : tep_record) : record.size ≤ framed_size record := by
  unfold framed_size
  have := Nat.div_add_mod (record.size + 3) 4
  have := Nat.mod_lt (record.size + 3) (show 0 < 4 by norm_num)
  split <;> omega

theorem page_bounds_fact (h : tracecmd_input) (hps : h.page_size < 2 ^ 31) :
    page_fact (well_framed h) (page_bounds h) h := by
  refine ⟨?_, ?_, ?_⟩
  · intro cd page record hG
    have hf := start_page_fields h cd page record
    refine ⟨hf.2.2.2.1, hf.2.2.2.2, by rw [hf.2.1], ?_⟩
    rw [hf.2.1]
    have := hG.2
    omega
  · intro r record cd ret cd2 hQ hG hcase hw
    have hsz : record.size < 2 ^ 31 := by
      have h1 := framed_size_ge_size record
      have h2 := hG.1
      have h3 := hG.2
      omega
    have hc := write_record_cases h.pevent record _ cd2 ret hsz hw
    obtain ⟨_, _, hm, hcm, _, _, hidx⟩ := hc
    simp only at hm hcm hidx
    have h8 := framed_size_ge record
    refine ⟨by rw [hm]; exact hQ.1, by rw [hcm]; exact hQ.2.1, ?_, ?_⟩
    · rcases hidx with ⟨_, _, hi⟩ | ⟨_, _, hi, _⟩ <;> rw [hi] <;> have := hQ.2.2.1 <;> omega
    · rcases hcase with hn | ⟨_, cd0, page, hcd⟩
      · have hfit : cd.index + record.record_size ≤ h.page_size := by
          unfold needs_new_page at hn
          simp only [Bool.or_eq_false_iff, decide_eq_false_iff_not] at hn
          omega
        rcases hidx with ⟨_, _, hi⟩ | ⟨_, _, hi, _⟩ <;> rw [hi] <;> have := hG.1 <;> omega
      · have hf := start_page_fields h cd0 page record
        rw [← hcd] at hf
        rcases hidx with ⟨_, hd, _⟩ | ⟨_, _, hi, _⟩
        · have h0 : ts_diff record { cd with offset := record.offset } = 0 :=
            ts_diff_self record _ hf.2.2.1
          rw [h0] at hd
          omega
        · rw [hi, hf.2.1]
          have := hG.1
          have := hG.2
          omega
  · intro r cd hQ
    exact hQ

theorem commit_value_low (cd : cpu_data) (long_size : Nat)
    (hl : long_size = 4 ∨ long_size = 8) (hlo : 8 + long_size ≤ cd.index) :
    commit_value cd long_size % 2 ^ 30 ≤ cd.index - (8 + long_size) ∧
    commit_value cd long_size < 2 ^ 32 := by
  unfold commit_value
  rw [page_flags_eq]
  by_cases hm : cd.missed_events = 0
  · rcases hl with h | h <;> subst h <;> simp [hm] <;> omega
  · rcases hl with h | h <;> subst h <;> simp [hm] <;> omega

/-- The commit value that a reader decodes from a flushed page is the value
that `write_page` computed. -/
theorem read_commit_write_page (h : tracecmd_input) (cd : cpu_data)
    (hl : h.long_size = 4 ∨ h.long_size = 8) (hp : cd.page ≠ none) (hc : cd.commit = 8)
    (hlo : 8 + h.long_size ≤ cd.index) :
    read_commit h (write_page h.pevent cd h.long_size) = commit_value cd h.long_size := by
  obtain ⟨page, hpage⟩ := Option.ne_none_iff_exists'.mp hp
  unfold read_commit
  have hb := write_page_commit_bytes h.pevent cd h.long_size page hpage hl (by omega)
  rw [hc] at hb
  rw [hb, of_file_bytes_file_bytes]
  apply Nat.mod_eq_of_lt
  have h1 : (2 : Nat) ^ 32 ≤ 256 ^ h.long_size := by
    rcases hl with h2 | h2 <;> rw [h2] <;> norm_num
  have := (commit_value_low cd h.long_size hl hlo).2
  omega


theorem demo_well_framed :
    ∀ c y, y ∈ demo_handle.recs c ∨ y ∈ demo_handle.next c → well_framed demo_handle y := by
  intro c y hy
  have hmem : y ∈ demo_records := by
    rcases hy with hy | hy <;> simp only [demo_handle] at hy <;> split at hy <;>
      first | exact hy | cases hy
  simp only [demo_records, List.mem_cons, List.mem_singleton, List.not_mem_nil, or_false] at hmem
  rcases hmem with h | h | h | h | h <;> subst h <;>
    exact ⟨by decide, by decide⟩

theorem demo_run :
    parse_cpu demo_handle demo_cpu_data 0 0 0 true 0 .SPLIT_NONE
      = .ok (final_state (parse_cpu demo_handle demo_cpu_data 0 0 0 true 0 .SPLIT_NONE)
          (empty_state demo_handle)) := by
  rfl

theorem demo_run_keys :
    run_keys (parse_cpu demo_handle demo_cpu_data 0 0 0 true 0 .SPLIT_NONE)
      = some [(0, 0, 100, 0), (2, 0, 100, 16), (2, 0, 110, 24), (2, 0, 120, 36),
              (1, 0, 120, 64), (0, 0, 130, 0), (2, 0, 130, 16), (3, 0, 134217863, 24),
              (2, 0, 134217863, 32), (1, 0, 134217863, 40)] := by
  decide


/-! ## From a page start to its flush -/

theorem open_at_append_of_not_page (l : List Event) (e : Event) (c : Nat)
    (h : ¬ page_event c e) : open_at (l ++ [e]) c = open_at l c := by
  rw [open_at_append]
  cases e with
  | opened c2 r =>
    simp only [track]
    have hne : c ≠ c2 := fun heq => h (Or.inl ⟨r, by rw [heq]⟩)
    rw [Function.update_noteq hne]
  | flushed c2 cd =>
    simp only [track]
    have hne : c ≠ c2 := fun heq => h (Or.inr ⟨cd, by rw [heq]⟩)
    rw [Function.update_noteq hne]
  | appended c2 r i => rfl
  | extended c2 r i => rfl

/-- In a log in which no page is started over an open one and no page is left
open, a page that is open after the events `p` is flushed later, and no page of
that CPU is started or flushed in between. -/
theorem flush_follows (c : Nat) (r : tep_record) (l2 p : List Event)
    (hopen : open_at p c = some r) (hop : Every open_ok (p ++ l2))
    (hend : open_at (p ++ l2) c = none) :
    ∃ l3 cd l4, l2 = l3 ++ Event.flushed c cd :: l4 ∧ (∀ e ∈ l3, ¬ page_event c e) ∧
      open_at (p ++ l3) c = some r := by
  induction l2 generalizing p with
  | nil =>
    rw [List.append_nil, hopen] at hend
    cases hend
  | cons e l2 ih =>
    by_cases hpe : page_event c e
    · rcases hpe with ⟨r2, he⟩ | ⟨cd, he⟩
      · have := hop p e l2 rfl c r2 he
        rw [hopen] at this
        cases this
      · subst he
        refine ⟨[], cd, l2, rfl, ?_, ?_⟩
        · intro x hx
          cases hx
        · rw [List.append_nil]
          exact hopen
    · have hassoc : p ++ e :: l2 = (p ++ [e]) ++ l2 := by simp
      rw [hassoc] at hop hend
      have hopen2 : open_at (p ++ [e]) c = some r := by
        rw [open_at_append_of_not_page p e c hpe]; exact hopen
      obtain ⟨l3, cd, l4, h1, h2, h3⟩ := ih (p ++ [e]) hopen2 hop hend
      refine ⟨e :: l3, cd, l4, by rw [h1]; rfl, ?_, ?_⟩
      · intro x hx
        rcases List.mem_cons.mp hx with hx | hx
        · subst hx; exact hpe
        · exact h2 x hx
      · have : p ++ e :: l3 = (p ++ [e]) ++ l3 := by simp
        rw [this]
        exact h3

/-- Every page that a run starts is flushed: after the start of a page for the
record `r` a flush of that CPU follows, with no other page start or flush of the
CPU in between, and the builder flushed satisfies `Q r`. -/
theorem opened_page_flushed (Q : tep_record → cpu_data → Prop) (h : tracecmd_input)
    (log : List Event) (hfl : Every (flush_ok h Q) log) (hop : Every open_ok log)
    (hend : ∀ c, open_at log c = none)
    (l1 l2 : List Event) (c : Nat) (r : tep_record)
    (hsplit : log = l1 ++ Event.opened c r :: l2) :
    ∃ l3 cd0 l4, l2 = l3 ++ Event.flushed c (write_page h.pevent cd0 h.long_size) :: l4 ∧
      (∀ e ∈ l3, ¬ page_event c e) ∧ cd0.page ≠ none ∧ Q r cd0 := by
  have hassoc : l1 ++ Event.opened c r :: l2 = (l1 ++ [Event.opened c r]) ++ l2 := by simp
  have hopen : open_at (l1 ++ [Event.opened c r]) c = some r := by
    rw [open_at_append]
    simp [track]
  rw [hassoc] at hsplit
  obtain ⟨l3, cd, l4, h1, h2, h3⟩ := flush_follows c r l2 (l1 ++ [Event.opened c r]) hopen
    (by rw [← hsplit]; exact hop) (by rw [← hsplit]; exact hend c)
  have hsplit2 : log = ((l1 ++ [Event.opened c r]) ++ l3) ++ Event.flushed c cd :: l4 := by
    rw [hsplit, h1]; simp
  obtain ⟨r2, cd0, hr2, hp0, hQ, hcd⟩ := hfl _ _ _ hsplit2 c cd rfl
  rw [h3] at hr2
  have := Option.some.inj hr2
  subst this
  subst hcd
  exact ⟨l3, cd0, l4, h1, h2, hp0, hQ⟩

theorem commit_flags (h : tracecmd_input) (cd : cpu_data)
    (hl : h.long_size = 4 ∨ h.long_size = 8) (hp : cd.page ≠ none) (hc : cd.commit = 8)
    (hlo : 8 + h.long_size ≤ cd.index) (hi : cd.index ≤ h.page_size)
    (hps : h.page_size ≤ 2 ^ 30) :
    (cd.missed_events ≠ 0 →
      (read_commit h (write_page h.pevent cd h.long_size)).testBit 31 = true ∧
      (read_commit h (write_page h.pevent cd h.long_size)).testBit 30 = true) ∧
    (cd.missed_events = 0 →
      (read_commit h (write_page h.pevent cd h.long_size)).testBit 31 = false ∧
      (read_commit h (write_page h.pevent cd h.long_size)).testBit 30 = false) := by
  rw [read_commit_write_page h cd hl hp hc hlo]
  have hcv := (commit_value_eq cd h.long_size hl hlo (by omega)).1
  rw [hcv, page_flags_eq]
  constructor
  · intro hm
    rw [if_pos hm]
    constructor <;> rw [Nat.testBit_to_div_mod] <;> simp <;> omega
  · intro hm
    rw [if_neg (by simpa using hm)]
    constructor <;> rw [Nat.testBit_to_div_mod] <;> simp <;> omega


/-! ## The time window -/

theorem dropWhile_sorted_ge (l : List tep_record) (start : Nat)
    (hs : l.Pairwise (fun a b => a.ts ≤ b.ts)) :
    ∀ y ∈ l.dropWhile (fun r => decide (r.ts < start)), start ≤ y.ts := by
  induction l with
  | nil => intro y hy; cases hy
  | cons a l ih =>
    intro y hy
    rw [List.pairwise_cons] at hs
    by_cases ha : a.ts < start
    · rw [List.dropWhile_cons_of_pos (by simpa using ha)] at hy
      exact ih hs.2 y hy
    · rw [List.dropWhile_cons_of_neg (by simpa using ha)] at hy
      rcases List.mem_cons.mp hy with hy | hy
      · subst hy; omega
      · have := hs.1 y hy
        omega

theorem set_cpu_time_next (h : tracecmd_input) (percpu : Bool) (start cpu cpus : Nat) (c : Nat)
    (hc : relevant percpu cpu cpus c) :
    (set_cpu_time h percpu start cpu cpus).next c
      = (h.recs c).dropWhile (fun r => decide (r.ts < start)) := by
  unfold set_cpu_time
  unfold relevant at hc
  cases percpu with
  | true =>
    rw [if_pos rfl] at hc ⊢
    subst hc
    exact (tracecmd_set_cpu_to_timestamp_spec h c start).2.2.1
  | false =>
    rw [if_neg (by decide)] at hc ⊢
    have hmem : c ∈ List.range cpus := List.mem_range.mpr hc
    revert hmem
    generalize List.range cpus = cs
    intro hmem
    induction cs using List.reverseRecOn with
    | nil => cases hmem
    | append_singleton cs a ih =>
      rw [List.foldl_append]
      simp only [List.foldl_cons, List.foldl_nil]
      have hs := tracecmd_set_cpu_to_timestamp_spec
        (List.foldl (fun h c => tracecmd_set_cpu_to_timestamp h c start) h cs) a start
      have hstat : same_static
          (List.foldl (fun h c => tracecmd_set_cpu_to_timestamp h c start) h cs) h := by
        clear ih hs hmem
        induction cs using List.reverseRecOn with
        | nil => exact same_static_refl h
        | append_singleton cs b ih2 =>
          rw [List.foldl_append]
          simp only [List.foldl_cons, List.foldl_nil]
          exact same_static_trans _ _ _
            (tracecmd_set_cpu_to_timestamp_spec _ b start).1 ih2
      by_cases hca : c = a
      · subst hca
        rw [hs.2.2.1, hstat.2.2.2.2]
      · rw [hs.2.2.2 c hca]
        apply ih
        simp only [List.mem_append, List.mem_singleton] at hmem
        rcases hmem with h1 | h1
        · exact h1
        · exact absurd h1 hca

/-- The iterator at the entry of the main loop when the records of every CPU
come in non-decreasing order of timestamp: the record in hand and the records
still to be read are records of the input at or after `start`. -/
theorem parse_start_window (handle : tracecmd_input) (cpu_data : Nat → cpu_data) (start : Nat)
    (percpu : Bool) (cpu0 : Nat) (s : parse_state)
    (hsorted : ∀ c, (handle.recs c).Pairwise (fun a b => a.ts ≤ b.ts))
    (hs : parse_start handle cpu_data start percpu cpu0 = .ok s) :
    iter_ok (from_start handle start) handle percpu cpu0 (s.record, s.cpu, s.handle) := by
  have hsp := parse_start_spec handle cpu_data start percpu cpu0 s hs
  have hit0 : iter_ok (input_record handle) handle percpu cpu0
      (none, (force_new_pages handle.page_size handle.cpus percpu cpu0 cpu_data).2, handle) :=
    ⟨same_static_refl handle, fun c y _ hy => ⟨c, Or.inr hy⟩,
      fun y hy => Option.noConfusion hy,
      fun hp => force_new_pages_cpu _ _ _ _ _ hp, fun _ hne => absurd rfl hne⟩
  have hrd := iter_ok_read (input_record handle) handle percpu cpu0 _ hit0
  simp only at hrd
  by_cases hst : start ≠ 0
  · obtain ⟨_, fuel, hsk⟩ := hsp.2.2.2 hst
    have hseek := set_cpu_time_spec
      (read_record handle percpu
        (force_new_pages handle.page_size handle.cpus percpu cpu0 cpu_data).2).2.2
      percpu start
      (read_record handle percpu
        (force_new_pages handle.page_size handle.cpus percpu cpu0 cpu_data).2).2.1 handle.cpus
    have hpend : ∀ c y, relevant percpu cpu0 handle.cpus c →
        y ∈ (set_cpu_time
          (read_record handle percpu
            (force_new_pages handle.page_size handle.cpus percpu cpu0 cpu_data).2).2.2
          percpu start
          (read_record handle percpu
            (force_new_pages handle.page_size handle.cpus percpu cpu0 cpu_data).2).2.1
          handle.cpus).next c → from_start handle start y := by
      intro c y hc hy
      have hc2 : relevant percpu
          (read_record handle percpu
            (force_new_pages handle.page_size handle.cpus percpu cpu0 cpu_data).2).2.1
          handle.cpus c := by
        unfold relevant at hc ⊢
        cases percpu with
        | true =>
          rw [if_pos rfl] at hc ⊢
          rw [hc, hrd.2.2.2.1 rfl]
        | false =>
          rw [if_neg (by decide)] at hc ⊢
          exact hc
      rw [set_cpu_time_next _ _ _ _ _ c hc2, hrd.1.2.2.2.2] at hy
      exact ⟨dropWhile_sorted_ge _ start (hsorted c) y hy,
        c, Or.inl ((List.dropWhile_sublist _).subset hy)⟩
    cases fuel with
    | zero => simp [skip_loop] at hsk
    | succ n =>
      unfold skip_loop at hsk
      cases hr : (read_record handle percpu
          (force_new_pages handle.page_size handle.cpus percpu cpu0 cpu_data).2).1 with
      | none =>
        rw [hr] at hsk
        simp only [Except.ok.injEq, Prod.mk.injEq] at hsk
        rw [← hsk.1, ← hsk.2.1, ← hsk.2.2]
        exact ⟨same_static_trans _ _ _ hseek.1 hrd.1, hpend, fun y hy => Option.noConfusion hy,
          hrd.2.2.2.1, fun _ hne => absurd rfl hne⟩
      | some r =>
        rw [hr] at hsk
        simp only at hsk
        have hin : input_record handle r := hrd.2.2.1 r hr
        by_cases hlt : r.ts < start
        · rw [if_pos hlt] at hsk
          have hit2 : iter_ok (from_start handle start) handle percpu cpu0
              (none,
               (read_record handle percpu
                (force_new_pages handle.page_size handle.cpus percpu cpu0 cpu_data).2).2.1,
               set_cpu_time
                (read_record handle percpu
                  (force_new_pages handle.page_size handle.cpus percpu cpu0 cpu_data).2).2.2
                percpu start
                (read_record handle percpu
                  (force_new_pages handle.page_size handle.cpus percpu cpu0 cpu_data).2).2.1
                handle.cpus) :=
            ⟨same_static_trans _ _ _ hseek.1 hrd.1, hpend, fun y hy => Option.noConfusion hy,
              hrd.2.2.2.1, fun _ hne => absurd rfl hne⟩
          have hit3 := iter_ok_read (from_start handle start) handle percpu cpu0 _ hit2
          exact (skip_loop_spec (from_start handle start) handle percpu cpu0 start _ _ _
            hit3 hsk).1
        · rw [if_neg hlt] at hsk
          simp only [Except.ok.injEq, Prod.mk.injEq] at hsk
          rw [← hsk.1, ← hsk.2.1, ← hsk.2.2]
          refine ⟨same_static_trans _ _ _ hseek.1 hrd.1, hpend, ?_, hrd.2.2.2.1, ?_⟩
          · intro y hy
            simp only [Option.some.injEq] at hy
            subst hy
            exact ⟨by omega, hin⟩
          · intro hp _
            exact hrd.2.2.2.2 hp (by rw [hr]; simp)
  · have h0 : start = 0 := by omega
    rw [hsp.2.2.1 h0]
    subst h0
    refine ⟨hrd.1, fun c y hc hy => ⟨Nat.zero_le _, hrd.2.1 c y hc hy⟩,
      fun y hy => ⟨Nat.zero_le _, hrd.2.2.1 y hy⟩, hrd.2.2.2.1, hrd.2.2.2.2⟩

theorem page_step_appended (type : split_types) (count_limit : Nat) (s : parse_state)
    (record : tep_record) (b : Bool) (s1 : parse_state)
    (hps : page_step type count_limit s record = (b, s1)) :
    ∀ c x i, Event.appended c x i ∈ s1.log → Event.appended c x i ∈ s.log := by
  have hnew : ∀ s0 : parse_state, ∀ c x i, Event.appended c x i ∈ (new_page s0 record).log →
      Event.appended c x i ∈ s0.log := by
    intro s0 c x i hmem
    cases hp : (s0.cpu_data s0.cpu).page with
    | none =>
      rw [new_page_none s0 record hp] at hmem
      simpa using hmem
    | some p =>
      rw [new_page_some s0 record p hp] at hmem
      simpa using hmem
  unfold page_step at hps
  split at hps
  · split at hps
    · split at hps
      · injection hps with h1 h2
        subst h2
        exact fun c x i hm => hm
      · injection hps with h1 h2
        subst h2
        exact hnew _
    · injection hps with h1 h2
      subst h2
      exact hnew _
  · injection hps with h1 h2
    subst h2
    exact fun c x i hm => hm

theorem record_step_appended (type : split_types) (count_limit : Nat) (percpu : Bool)
    (s : parse_state) (record : tep_record) (s2 : parse_state)
    (hstep : record_step type count_limit percpu s record = .ok s2) :
    ∀ c x i, Event.appended c x i ∈ s2.log → Event.appended c x i ∈ s.log ∨ x = record := by
  unfold record_step at hstep
  cases hw : write_record s.handle.pevent record
      { s.cpu_data s.cpu with offset := record.offset } with
  | error e =>
    rw [hw] at hstep
    cases hstep
  | ok p =>
    obtain ⟨ret, cd2⟩ := p
    rw [hw] at hstep
    simp only at hstep
    by_cases hret : ret ≠ 0
    · rw [if_pos hret] at hstep
      injection hstep with hstep
      subst hstep
      intro c x i hm
      unfold consume at hm
      simp only [List.mem_append, List.mem_singleton] at hm
      rcases hm with hm | hm
      · exact Or.inl hm
      · injection hm with h1 h2 h3
        exact Or.inr h2
    · rw [if_neg hret] at hstep
      injection hstep with hstep
      subst hstep
      intro c x i hm
      simp only [List.mem_append, List.mem_singleton] at hm
      rcases hm with hm | hm
      · exact Or.inl hm
      · cases hm

theorem loop_body_appended (type : split_types) (count_limit : Nat) (percpu : Bool)
    (s : parse_state) (record : tep_record) (b : Bool) (s2 : parse_state)
    (hstep : loop_body type count_limit percpu s record = .ok (b, s2)) :
    ∀ c x i, Event.appended c x i ∈ s2.log → Event.appended c x i ∈ s.log ∨ x = record := by
  unfold loop_body at hstep
  cases hps : page_step type count_limit s record with
  | mk b1 s1 =>
    have hp := page_step_appended type count_limit s record b1 s1 hps
    rw [hps] at hstep
    cases b1 with
    | true =>
      simp only [Except.ok.injEq, Prod.mk.injEq] at hstep
      rw [← hstep.2]
      exact fun c x i hm => Or.inl (hp c x i hm)
    | false =>
      simp only at hstep
      cases hrs : record_step type count_limit percpu s1 record with
      | error e =>
        rw [hrs] at hstep
        cases hstep
      | ok s3 =>
        rw [hrs] at hstep
        simp only [Except.ok.injEq, Prod.mk.injEq] at hstep
        rw [← hstep.2]
        intro c x i hm
        rcases record_step_appended type count_limit percpu s1 record s3 hrs c x i hm with h1 | h1
        · exact Or.inl (hp c x i h1)
        · exact Or.inr h1

theorem final_flush_appended (percpu : Bool) (s : parse_state) :
    ∀ c x i, Event.appended c x i ∈ (final_flush percpu s).log → Event.appended c x i ∈ s.log := by
  have hone : ∀ (cds : Nat → cpu_data) (log : List Event) (a : Nat) c x i,
      Event.appended c x i ∈ (final_flush_one s.handle cds log a).2 →
      Event.appended c x i ∈ log := by
    intro cds log a c x i hm
    unfold final_flush_one at hm
    split at hm
    · simpa using hm
    · exact hm
  intro c x i hm
  unfold final_flush at hm
  cases percpu with
  | true =>
    rw [if_pos rfl] at hm
    exact hone _ _ _ c x i hm
  | false =>
    rw [if_neg (by decide)] at hm
    simp only at hm
    revert hm
    generalize List.range s.handle.cpus = cs
    induction cs using List.reverseRecOn with
    | nil => exact fun hm => hm
    | append_singleton cs a ih =>
      rw [List.foldl_append]
      simp only [List.foldl_cons, List.foldl_nil]
      intro hm
      exact ih (hone _ _ _ c x i hm)

theorem page_fact_trivial (G : tep_record → Prop) (h : tracecmd_input) :
    page_fact G (fun _ _ => True) h :=
  ⟨fun _ _ _ _ => trivial, fun _ _ _ _ _ _ _ _ _ => trivial, fun _ _ _ => trivial⟩

theorem demo_sorted : ∀ c, (demo_handle.recs c).Pairwise (fun a b => a.ts ≤ b.ts) := by
  intro c
  simp only [demo_handle]
  split
  · decide
  · exact List.Pairwise.nil

theorem demo_window_run :
    parse_cpu demo_handle demo_cpu_data 110 120 0 true 0 .SPLIT_NONE
      = .ok (final_state (parse_cpu demo_handle demo_cpu_data 110 120 0 true 0 .SPLIT_NONE)
          (empty_state demo_handle)) := by
  rfl


/-! ## The missed-events count -/

/-- The count that `write_page` stores behind the last record reads back as the
pending missed-events count of the builder. -/
theorem write_page_missed_count (pevent : tep_handle) (cd : cpu_data) (long_size : Nat)
    (page : Mem) (hp : cd.page = some page) (hm : cd.missed_events ≠ 0)
    (h64 : cd.missed_events < 2 ^ 64) :
    missed_ptr cd = some cd.index ∧
    read_long pevent (write_page pevent cd long_size) cd.index = cd.missed_events := by
  have hptr : missed_ptr cd = some cd.index := by
    rw [missed_ptr_eq, if_pos hm]
  refine ⟨hptr, ?_⟩
  unfold read_long
  rw [write_page_page pevent cd long_size page hp]
  simp only
  unfold write_page_mem
  rw [hptr]
  simp only [host_bytes_tep_read_var]
  have := mem_read_mem_write_same
    (if long_size = 8 then
      mem_write page cd.commit (file_bytes pevent 8 (commit_value cd long_size))
    else mem_write page cd.commit (file_bytes pevent 4 (commit_value cd long_size)))
    cd.index (file_bytes pevent 8 cd.missed_events)
  rw [file_bytes_length] at this
  rw [this, of_file_bytes_file_bytes]
  exact Nat.mod_eq_of_lt (by simpa using h64)

/-- C8, the code on a full page: the only record of the capture follows 7 missed
events and fills the 4096-byte page, so the page is flushed with `index` 4096;
MISSING_STORED is set in its commit value and `write_page` stores the count at
offset 4096, where it reads back as 7: the 8 bytes lie behind the end of the
page buffer, not inside it. -/
theorem missed_count_outside_page :
    run_keys (parse_cpu full_page_handle demo_cpu_data 0 0 0 true 0 .SPLIT_NONE)
      = some [(0, 0, 100, 0), (2, 0, 100, 16), (1, 0, 100, 4096)] ∧
    (flushed_builders
      (final_state (parse_cpu full_page_handle demo_cpu_data 0 0 0 true 0 .SPLIT_NONE)
        (empty_state full_page_handle)).log).map (stored_count_summary full_page_handle)
      = [(4096, some 4096, true, false, 7)] := by
  constructor <;> decide

/-! ## The page boundary -/

theorem write_record_normal_ok (pevent : tep_handle) (record : tep_record) (cd : cpu_data)
    (page : Mem) (hp : cd.page = some page) (hd : ts_diff record cd ≤ 2 ^ 27)
    (h31 : record.size < 2 ^ 31)
    (hfr : record.size < 4 ∨ 112 < record.size → record.size + 8 ≤ record.record_size) :
    ∃ cd2, write_record pevent record cd = .ok (1, cd2) := by
  by_cases hs : record.size < 4 ∨ 112 < record.size
  · exact ⟨_, write_record_explicit_eq pevent record cd page hp hd hs (by omega) (hfr hs)⟩
  · exact ⟨_, write_record_inline_eq pevent record cd page hp hd (by omega) (by omega)⟩

theorem page_step_fits (type : split_types) (count_limit : Nat) (s : parse_state)
    (record : tep_record)
    (hn : needs_new_page s.handle.page_size (s.cpu_data s.cpu) record = false) :
    page_step type count_limit s record = (false, s) := by
  unfold page_step
  rw [hn]
  simp

theorem page_step_break (type : split_types) (count_limit : Nat) (s : parse_state)
    (record : tep_record)
    (hn : needs_new_page s.handle.page_size (s.cpu_data s.cpu) record = true)
    (ht : type = .SPLIT_PAGES) (hl : s.pages + 1 > count_limit) :
    page_step type count_limit s record = (true, { s with pages := s.pages + 1 }) := by
  unfold page_step
  rw [if_pos hn, if_pos ht, if_pos hl]

theorem page_step_new (type : split_types) (count_limit : Nat) (s : parse_state)
    (record : tep_record)
    (hn : needs_new_page s.handle.page_size (s.cpu_data s.cpu) record = true)
    (hl : ¬ (type = .SPLIT_PAGES ∧ s.pages + 1 > count_limit)) :
    ∃ n, page_step type count_limit s record = (false, new_page { s with pages := n } record) := by
  unfold page_step
  rw [if_pos hn]
  by_cases ht : type = .SPLIT_PAGES
  · rw [if_pos ht, if_neg (fun h => hl ⟨ht, h⟩)]
    exact ⟨_, rfl⟩
  · rw [if_neg ht]
    exact ⟨s.pages, rfl⟩

theorem record_step_appends (type : split_types) (count_limit : Nat) (percpu : Bool)
    (s : parse_state) (record : tep_record) (cd2 : cpu_data)
    (hw : write_record s.handle.pevent record
      { s.cpu_data s.cpu with offset := record.offset } = .ok (1, cd2)) :
    ∃ s2, record_step type count_limit percpu s record = .ok s2 ∧
      s2.log = s.log ++ [Event.appended s.cpu record (s.cpu_data s.cpu).index] := by
  unfold record_step
  rw [hw]
  simp only
  rw [if_pos (by decide)]
  exact ⟨_, rfl, rfl⟩

theorem record_step_extends (type : split_types) (count_limit : Nat) (percpu : Bool)
    (s : parse_state) (record : tep_record) (cd2 : cpu_data)
    (hw : write_record s.handle.pevent record
      { s.cpu_data s.cpu with offset := record.offset } = .ok (0, cd2)) :
    record_step type count_limit percpu s record =
      .ok { s with cpu_data := Function.update s.cpu_data s.cpu cd2
                   log := s.log ++ [Event.extended s.cpu record (s.cpu_data s.cpu).index] } := by
  unfold record_step
  rw [hw]
  simp only
  rw [if_neg (by decide)]

/-- C9 as amended: for an open page and a record with `missed_events = 0` whose
framing passes the check of `write_record`: when `index + record_size = page_size`
and the delta is at most `1 << 27`, one pass of the loop appends the record to the
current page and starts no page; when `index + record_size = page_size` and the
delta exceeds `1 << 27`, the pass writes a TIME_EXTEND into the current page, keeps
the record, and the next pass finds that the record needs a new page; when
`index + record_size = page_size + 1`, the pass either leaves the loop (page limit
of SPLIT_PAGES reached) or flushes the page and starts a new one before it writes
the record at the first offset behind the page header. -/
theorem loop_body_page_boundary (type : split_types) (count_limit : Nat) (percpu : Bool)
    (s : parse_state) (record : tep_record) (page : Mem)
    (hp : (s.cpu_data s.cpu).page = some page) (hm : record.missed_events = 0)
    (h31 : record.size < 2 ^ 31)
    (hfr : record.size < 4 ∨ 112 < record.size → record.size + 8 ≤ record.record_size) :
    ((s.cpu_data s.cpu).index + record.record_size = s.handle.page_size →
      ts_diff record (s.cpu_data s.cpu) ≤ 2 ^ 27 →
      ∃ s2, loop_body type count_limit percpu s record = .ok (false, s2) ∧
        s2.log = s.log ++ [Event.appended s.cpu record (s.cpu_data s.cpu).index]) ∧
    ((s.cpu_data s.cpu).index + record.record_size = s.handle.page_size →
      2 ^ 27 < ts_diff record (s.cpu_data s.cpu) →
      ∃ s2, loop_body type count_limit percpu s record = .ok (false, s2) ∧
        s2.log = s.log ++ [Event.extended s.cpu record (s.cpu_data s.cpu).index] ∧
        s2.record = s.record ∧ s2.cpu = s.cpu ∧
        (s2.cpu_data s2.cpu).index = (s.cpu_data s.cpu).index + 8 ∧
        needs_new_page s2.handle.page_size (s2.cpu_data s2.cpu) record = true) ∧
    ((s.cpu_data s.cpu).index + record.record_size = s.handle.page_size + 1 →
      (type = .SPLIT_PAGES ∧ s.pages + 1 > count_limit →
        loop_body type count_limit percpu s record
          = .ok (true, { s with pages := s.pages + 1 })) ∧
      (¬ (type = .SPLIT_PAGES ∧ s.pages + 1 > count_limit) →
        ∃ s2, loop_body type count_limit percpu s record = .ok (false, s2) ∧
          s2.log = s.log ++
            [Event.flushed s.cpu
              (write_page s.handle.pevent (s.cpu_data s.cpu) s.handle.long_size),
             Event.opened s.cpu record,
             Event.appended s.cpu record (8 + s.handle.long_size)])) := by
  refine ⟨?_, ?_, ?_⟩
  · intro hfit hd
    have hn : needs_new_page s.handle.page_size (s.cpu_data s.cpu) record = false := by
      unfold needs_new_page
      simp [hm]
      omega
    obtain ⟨cd2, hw⟩ := write_record_normal_ok s.handle.pevent record
      { s.cpu_data s.cpu with offset := record.offset } page hp hd h31 hfr
    obtain ⟨s2, hs2, hlog⟩ := record_step_appends type count_limit percpu s record cd2 hw
    refine ⟨s2, ?_, hlog⟩
    unfold loop_body
    rw [page_step_fits type count_limit s record hn]
    simp only
    rw [hs2]
  · intro hfit hd
    have hn : needs_new_page s.handle.page_size (s.cpu_data s.cpu) record = false := by
      unfold needs_new_page
      simp [hm]
      omega
    obtain ⟨cd2, hw, hidx⟩ : ∃ cd2, write_record s.handle.pevent record
        { s.cpu_data s.cpu with offset := record.offset } = .ok (0, cd2) ∧
        cd2.index = (s.cpu_data s.cpu).index + 8 :=
      ⟨_, write_record_extend_eq s.handle.pevent record
        { s.cpu_data s.cpu with offset := record.offset } page hp hd, rfl⟩
    have hrs := record_step_extends type count_limit percpu s record cd2 hw
    refine ⟨{ s with cpu_data := Function.update s.cpu_data s.cpu cd2
                     log := s.log ++ [Event.extended s.cpu record (s.cpu_data s.cpu).index] },
      ?_, rfl, rfl, rfl, ?_, ?_⟩
    · unfold loop_body
      rw [page_step_fits type count_limit s record hn]
      simp only
      rw [hrs]
    · simp only [Function.update_same]
      exact hidx
    · unfold needs_new_page
      simp only [Function.update_same]
      rw [hidx]
      simp
      left
      omega
  · intro hover
    have hn : needs_new_page s.handle.page_size (s.cpu_data s.cpu) record = true := by
      unfold needs_new_page
      simp
      left
      omega
    constructor
    · intro hlim
      unfold loop_body
      rw [page_step_break type count_limit s record hn hlim.1 hlim.2]
    · intro hlim
      obtain ⟨n, hps⟩ := page_step_new type count_limit s record hn hlim
      have hnp := new_page_some { s with pages := n } record page hp
      have hd0 : ts_diff record
          { start_page s.handle (write_page s.handle.pevent (s.cpu_data s.cpu) s.handle.long_size)
              ((write_page s.handle.pevent (s.cpu_data s.cpu) s.handle.long_size).page.getD
                (fun _ => 0)) record with offset := record.offset } ≤ 2 ^ 27 := by
        rw [ts_diff_self record _ rfl]
        exact Nat.zero_le _
      obtain ⟨cd2, hw⟩ := write_record_normal_ok s.handle.pevent record
        { start_page s.handle (write_page s.handle.pevent (s.cpu_data s.cpu) s.handle.long_size)
            ((write_page s.handle.pevent (s.cpu_data s.cpu) s.handle.long_size).page.getD
              (fun _ => 0)) record with offset := record.offset } _ rfl hd0 h31 hfr
      have hcd : (new_page { s with pages := n } record).cpu_data
          (new_page { s with pages := n } record).cpu
          = start_page s.handle
              (write_page s.handle.pevent (s.cpu_data s.cpu) s.handle.long_size)
              ((write_page s.handle.pevent (s.cpu_data s.cpu) s.handle.long_size).page.getD
                (fun _ => 0)) record := by
        rw [hnp]
        simp only [Function.update_same]
      have hh : (new_page { s with pages := n } record).handle = s.handle := by
        rw [hnp]
      obtain ⟨s2, hs2, hlog⟩ := record_step_appends type count_limit percpu
        (new_page { s with pages := n } record) record cd2 (by rw [hcd, hh]; exact hw)
      refine ⟨s2, ?_, ?_⟩
      · unfold loop_body
        rw [hps]
        simp only
        rw [hs2]
      · rw [hlog, hcd]
        rw [hnp]
        simp [start_page]

/-- Witness of C9 as amended: a page with 24 bytes used out of 64 and a record of
framed size 40, ten nanoseconds after the base timestamp. -/
theorem loop_body_page_boundary_witness :
    ∃ s2, loop_body .SPLIT_NONE 0 true
        { handle := demo_handle,
          cpu_data := fun _ => ⟨100, 0, 0, 24, 8, some (fun _ => 0)⟩,
          record := some (demo_record 110 36 0), cpu := 0, start := 100, count := 0,
          pages := 0, log := [] } (demo_record 110 36 0) = .ok (false, s2) ∧
      s2.log = [] ++ [Event.appended 0 (demo_record 110 36 0) 24] :=
  (loop_body_page_boundary .SPLIT_NONE 0 true
    { handle := demo_handle,
      cpu_data := fun _ => ⟨100, 0, 0, 24, 8, some (fun _ => 0)⟩,
      record := some (demo_record 110 36 0), cpu := 0, start := 100, count := 0,
      pages := 0, log := [] } (demo_record 110 36 0) (fun _ => 0) rfl (by decide) (by decide)
    (by decide)).1 (by decide) (by decide)

/-- C9, the claim fails when the record lies far behind the previous one: the
second record of the capture has framed size 40 and meets a page with `index` 24
out of 64, so it fills the remaining space exactly, and it carries no missed
events; yet it is not appended to that page: a TIME_EXTEND is written at offset
24, the page is flushed with `index` 32, and the record goes to a new page. -/
theorem exact_fit_page_break :
    run_keys (parse_cpu far_record_handle demo_cpu_data 0 0 0 true 0 .SPLIT_NONE)
      = some [(0, 0, 100, 0), (2, 0, 100, 16), (3, 0, 134217829, 24), (1, 0, 134217829, 32),
              (0, 0, 134217829, 0), (2, 0, 134217829, 16), (1, 0, 134217829, 56)] ∧
    24 + (demo_record (101 + 2 ^ 27) 36 0).record_size = far_record_handle.page_size ∧
    (demo_record (101 + 2 ^ 27) 36 0).missed_events = 0 := by
  refine ⟨by decide, by decide, by decide⟩

/-! ## Termination: the fuel of the loops suffices -/

theorem sum_lengths_update (f : Nat → List tep_record) (c2 : Nat) (r : tep_record)
    (rest : List tep_record) (hf : f c2 = r :: rest) (n : Nat) (hc : c2 < n) :
    ((List.range n).map (fun c => (Function.update f c2 rest c).length)).sum + 1
      = ((List.range n).map (fun c => (f c).length)).sum := by
  induction n with
  | zero => omega
  | succ n ih =>
    rw [List.range_succ, List.map_append, List.map_append, List.sum_append, List.sum_append]
    simp only [List.map_cons, List.map_nil, List.sum_cons, List.sum_nil, Nat.add_zero]
    by_cases hcn : c2 = n
    · subst hcn
      have hsame : (List.range c2).map (fun c => (Function.update f c2 rest c).length)
          = (List.range c2).map (fun c => (f c).length) := by
        apply List.map_congr_left
        intro c hmem
        have : c ≠ c2 := by
          have := List.mem_range.mp hmem
          omega
        rw [Function.update_noteq this]
      rw [hsame, Function.update_same, hf]
      simp only [List.length_cons]
      omega
    · have hlt : c2 < n := by omega
      have := ih hlt
      rw [Function.update_noteq (Ne.symm hcn)]
      omega

theorem pending_read (h : tracecmd_input) (percpu : Bool) (c : Nat) :
    ((read_record h percpu c).1 = none →
      pending (read_record h percpu c).2.2 percpu (read_record h percpu c).2.1 = 0 ∧
      (read_record h percpu c).2.2 = h) ∧
    (∀ y, (read_record h percpu c).1 = some y →
      pending (read_record h percpu c).2.2 percpu (read_record h percpu c).2.1 + 1
        = pending h percpu c) := by
  unfold read_record
  cases percpu with
  | true =>
    rw [if_pos rfl]
    unfold tracecmd_read_data pending
    rw [if_pos rfl, if_pos rfl]
    cases hn : h.next c with
    | nil =>
      refine ⟨fun _ => ⟨by simp [hn], rfl⟩, fun y hy => ?_⟩
      simp at hy
    | cons r rest =>
      refine ⟨fun hy => ?_, fun y _ => ?_⟩
      · simp at hy
      · simp only [Function.update_same, List.length_cons]
  | false =>
    rw [if_neg (by decide)]
    unfold tracecmd_read_next_data
    cases hnc : next_cpu h with
    | none =>
      refine ⟨fun _ => ⟨?_, rfl⟩, fun y hy => ?_⟩
      · simp only
        unfold pending
        rw [if_neg (by decide)]
        have hall : ∀ cs : List Nat, ∀ best : Option (Nat × Nat),
            cs.foldl
              (fun best cpu =>
                match h.next cpu with
                | [] => best
                | r :: _ =>
                  match best with
                  | none => some (cpu, r.ts)
                  | some (_, ts) => if r.ts < ts then some (cpu, r.ts) else best)
              best = none → ∀ c ∈ cs, h.next c = [] := by
          intro cs
          induction cs with
          | nil => intro _ _ c hc; cases hc
          | cons a cs ih =>
            intro best hres c hc
            simp only [List.foldl_cons] at hres
            cases hna : h.next a with
            | nil =>
              rw [hna] at hres
              rcases List.mem_cons.mp hc with hc | hc
              · rw [hc]; exact hna
              · exact ih best hres c hc
            | cons r rest =>
              rw [hna] at hres
              exfalso
              have hsome : ∀ (cs : List Nat) (p : Nat × Nat),
                  cs.foldl
                    (fun best cpu =>
                      match h.next cpu with
                      | [] => best
                      | r :: _ =>
                        match best with
                        | none => some (cpu, r.ts)
                        | some (_, ts) => if r.ts < ts then some (cpu, r.ts) else best)
                    (some p) ≠ none := by
                intro cs
                induction cs with
                | nil => intro p; simp
                | cons b cs ih2 =>
                  intro p
                  simp only [List.foldl_cons]
                  cases h.next b with
                  | nil => exact ih2 p
                  | cons r2 _ =>
                    simp only
                    split
                    · exact ih2 _
                    · exact ih2 _
              cases best with
              | none => exact hsome cs _ hres
              | some p =>
                simp only at hres
                split at hres
                · exact hsome cs _ hres
                · exact hsome cs _ hres
        have hz := hall (List.range h.cpus) none hnc
        apply List.sum_eq_zero
        intro x hx
        simp only [List.mem_map] at hx
        obtain ⟨c2, hc2, hx⟩ := hx
        rw [← hx, hz c2 hc2]
        rfl
      · simp at hy
    | some p =>
      obtain ⟨c2, t⟩ := p
      have hc := next_cpu_spec h c2 t hnc
      simp only
      unfold tracecmd_read_data pending
      rw [if_neg (by decide), if_neg (by decide)]
      cases hn : h.next c2 with
      | nil => exact absurd hn hc.2
      | cons r rest =>
        refine ⟨fun hy => ?_, fun y _ => ?_⟩
        · simp at hy
        · simp only
          exact sum_lengths_update h.next c2 r rest hn h.cpus hc.1

theorem skip_loop_fuel (percpu : Bool) (start fuel : Nat)
    (it : Option tep_record × Nat × tracecmd_input)
    (hf : pending it.2.2 percpu it.2.1 + 2 ≤ fuel) :
    ∃ res, skip_loop percpu start fuel it = .ok res := by
  induction fuel generalizing it with
  | zero => omega
  | succ n ih =>
    obtain ⟨record, cpu, handle⟩ := it
    unfold skip_loop
    cases record with
    | none => exact ⟨_, rfl⟩
    | some r =>
      simp only
      by_cases hlt : r.ts < start
      · rw [if_pos hlt]
        have hp := pending_read handle percpu cpu
        cases hr : (read_record handle percpu cpu).1 with
        | none =>
          cases n with
          | zero => simp only at hf; omega
          | succ m =>
            have heq : read_record handle percpu cpu
                = (none, (read_record handle percpu cpu).2.1,
                    (read_record handle percpu cpu).2.2) := by
              rw [← hr]
            rw [heq]
            unfold skip_loop
            exact ⟨_, rfl⟩
        | some y =>
          apply ih
          have := hp.2 y hr
          simp only at hf
          omega
      · rw [if_neg hlt]
        exact ⟨_, rfl⟩

theorem parse_start_ok (handle : tracecmd_input) (cpu_data : Nat → cpu_data) (start : Nat)
    (percpu : Bool) (cpu0 : Nat) :
    ∃ s, parse_start handle cpu_data start percpu cpu0 = .ok s := by
  unfold parse_start
  simp only
  by_cases hst : start ≠ 0
  · rw [if_pos hst]
    obtain ⟨res, hres⟩ := skip_loop_fuel percpu start
      (pending (set_cpu_time
        (read_record handle percpu
          (force_new_pages handle.page_size handle.cpus percpu cpu0 cpu_data).2).2.2
        percpu start
        (read_record handle percpu
          (force_new_pages handle.page_size handle.cpus percpu cpu0 cpu_data).2).2.1
        handle.cpus) percpu
        (read_record handle percpu
          (force_new_pages handle.page_size handle.cpus percpu cpu0 cpu_data).2).2.1 + 2)
      ((read_record handle percpu
        (force_new_pages handle.page_size handle.cpus percpu cpu0 cpu_data).2).1,
       (read_record handle percpu
        (force_new_pages handle.page_size handle.cpus percpu cpu0 cpu_data).2).2.1,
       set_cpu_time
        (read_record handle percpu
          (force_new_pages handle.page_size handle.cpus percpu cpu0 cpu_data).2).2.2
        percpu start
        (read_record handle percpu
          (force_new_pages handle.page_size handle.cpus percpu cpu0 cpu_data).2).2.1
        handle.cpus) (le_refl _)
    rw [hres]
    exact ⟨_, rfl⟩
  · rw [if_neg hst]
    exact ⟨_, rfl⟩

theorem write_record_ts (pevent : tep_handle) (record : tep_record) (cd cd2 : cpu_data)
    (ret : Nat) (hw : write_record pevent record cd = .ok (ret, cd2)) :
    cd2.ts = record.ts ∧ (ret = 0 → cd.ts ≠ record.ts) := by
  unfold write_record at hw
  cases hp : cd.page with
  | none => simp [hp] at hw
  | some page =>
    simp only [hp] at hw
    by_cases hd : (record.ts + 2 ^ 64 - cd.ts) % 2 ^ 64 > 1 <<< 27
    · rw [if_pos hd] at hw
      injection hw with hw
      injection hw with h1 h2
      subst h1 h2
      refine ⟨rfl, fun _ heq => ?_⟩
      have h0 := ts_diff_self record cd heq
      unfold ts_diff at h0
      rw [h0] at hd
      simp at hd
    · rw [if_neg hd] at hw
      generalize (if record.size ≠ 0 ∧ record.size ≤ 28 * 4 then record.size / 4 else 0) = len
        at hw
      by_cases hl : len = 0
      · rw [if_pos hl] at hw
        by_cases hrs : record.size + 4 + 4 > record.record_size
        · rw [if_pos hrs] at hw
          cases hw
        · rw [if_neg hrs] at hw
          injection hw with hw
          injection hw with h1 h2
          subst h1 h2
          exact ⟨rfl, fun h => absurd h (by decide)⟩
      · rw [if_neg hl] at hw
        injection hw with hw
        injection hw with h1 h2
        subst h1 h2
        exact ⟨rfl, fun h => absurd h (by decide)⟩

theorem write_record_error (pevent : tep_handle) (record : tep_record) (cd : cpu_data)
    (e : Fault) (hw : write_record pevent record cd = .error e) : e ≠ Fault.out_of_fuel := by
  unfold write_record at hw
  cases hp : cd.page with
  | none =>
    simp only [hp] at hw
    injection hw with hw
    subst hw
    decide
  | some page =>
    simp only [hp] at hw
    by_cases hd : (record.ts + 2 ^ 64 - cd.ts) % 2 ^ 64 > 1 <<< 27
    · rw [if_pos hd] at hw
      cases hw
    · rw [if_neg hd] at hw
      generalize (if record.size ≠ 0 ∧ record.size ≤ 28 * 4 then record.size / 4 else 0) = len
        at hw
      by_cases hl : len = 0
      · rw [if_pos hl] at hw
        by_cases hrs : record.size + 4 + 4 > record.record_size
        · rw [if_pos hrs] at hw
          injection hw with hw
          subst hw
          decide
        · rw [if_neg hrs] at hw
          cases hw
      · rw [if_neg hl] at hw
        cases hw

theorem page_step_measure (type : split_types) (count_limit : Nat) (percpu : Bool)
    (s : parse_state) (record : tep_record) (b : Bool) (s1 : parse_state)
    (hr : s.record = some record)
    (hps : page_step type count_limit s record = (b, s1)) :
    s1.record = some record ∧ loop_measure percpu s1 ≤ loop_measure percpu s := by
  have hnew : ∀ s0 : parse_state, s0.record = some record →
      (new_page s0 record).record = some record ∧
      loop_measure percpu (new_page s0 record)
        ≤ 2 * pending s0.handle percpu s0.cpu + 1 := by
    intro s0 hr0
    cases hp : (s0.cpu_data s0.cpu).page with
    | none =>
      rw [new_page_none s0 record hp]
      refine ⟨hr0, ?_⟩
      unfold loop_measure
      simp only [hr0, Function.update_same]
      rw [if_pos (start_page_fields _ _ _ _).2.2.1]
    | some p =>
      rw [new_page_some s0 record p hp]
      refine ⟨hr0, ?_⟩
      unfold loop_measure
      simp only [hr0, Function.update_same]
      rw [if_pos (start_page_fields _ _ _ _).2.2.1]
  have hge : 2 * pending s.handle percpu s.cpu + 1 ≤ loop_measure percpu s := by
    unfold loop_measure
    rw [hr]
    simp only
    split <;> omega
  unfold page_step at hps
  split at hps
  · split at hps
    · split at hps
      · injection hps with h1 h2
        subst h2
        exact ⟨hr, le_refl _⟩
      · injection hps with h1 h2
        subst h2
        have := hnew { s with pages := s.pages + 1 } hr
        exact ⟨this.1, le_trans this.2 hge⟩
    · injection hps with h1 h2
      subst h2
      have := hnew s hr
      exact ⟨this.1, le_trans this.2 hge⟩
  · injection hps with h1 h2
    subst h2
    exact ⟨hr, le_refl _⟩

theorem pending_global (h : tracecmd_input) (c1 c2 : Nat) :
    pending h false c1 = pending h false c2 := by
  unfold pending
  rw [if_neg (by decide), if_neg (by decide)]

theorem loop_measure_le (percpu : Bool) (s : parse_state) :
    loop_measure percpu s ≤ 2 * pending s.handle percpu s.cpu + 2 := by
  unfold loop_measure
  split
  · omega
  · split <;> omega

theorem loop_measure_none (percpu : Bool) (s : parse_state) (h : s.record = none) :
    loop_measure percpu s = 2 * pending s.handle percpu s.cpu := by
  unfold loop_measure
  rw [h]
  rfl

theorem consume_fields (type : split_types) (count_limit : Nat) (percpu : Bool)
    (s : parse_state) (record : tep_record) (cd : cpu_data) :
    (consume type count_limit percpu s record cd).handle
      = (read_record s.handle percpu s.cpu).2.2 ∧
    (consume type count_limit percpu s record cd).record
      = (apply_split type s.start count_limit (read_record s.handle percpu s.cpu).1 s.count).1 ∧
    ((read_record s.handle percpu s.cpu).1 = none →
      (consume type count_limit percpu s record cd).cpu
        = (clear_offsets s.handle.cpus percpu (read_record s.handle percpu s.cpu).2.1
            (Function.update s.cpu_data s.cpu cd)).2) ∧
    (∀ y, (read_record s.handle percpu s.cpu).1 = some y →
      (consume type count_limit percpu s record cd).cpu
        = (read_record s.handle percpu s.cpu).2.1) := by
  refine ⟨rfl, rfl, ?_, ?_⟩
  · intro hn
    unfold consume
    simp only [hn]
  · intro y hn
    unfold consume
    simp only [hn]

theorem record_step_measure (type : split_types) (count_limit : Nat) (percpu : Bool)
    (s : parse_state) (record : tep_record) (s2 : parse_state)
    (hr : s.record = some record)
    (hstep : record_step type count_limit percpu s record = .ok s2) :
    loop_measure percpu s2 < loop_measure percpu s := by
  unfold record_step at hstep
  cases hw : write_record s.handle.pevent record
      { s.cpu_data s.cpu with offset := record.offset } with
  | error e =>
    rw [hw] at hstep
    cases hstep
  | ok p =>
    obtain ⟨ret, cd2⟩ := p
    rw [hw] at hstep
    simp only at hstep
    have hts := write_record_ts _ _ _ _ _ hw
    have hge : 2 * pending s.handle percpu s.cpu + 1 ≤ loop_measure percpu s := by
      unfold loop_measure
      rw [hr]
      simp only
      split <;> omega
    by_cases hret : ret ≠ 0
    · rw [if_pos hret] at hstep
      injection hstep with hstep
      subst hstep
      have hp := pending_read s.handle percpu s.cpu
      have hsp := apply_split_spec type s.start count_limit
        (read_record s.handle percpu s.cpu).1 s.count
      have hcf := consume_fields type count_limit percpu s record cd2
      rcases Option.eq_none_or_eq_some (read_record s.handle percpu s.cpu).1 with hn | ⟨y, hn⟩
      · have h0 := (hp.1 hn).1
        have hrec : (consume type count_limit percpu s record cd2).record = none := by
          rw [hcf.2.1]
          rw [hn] at hsp ⊢
          rcases hsp with h1 | h1 <;> exact h1
        rw [loop_measure_none percpu _ hrec, hcf.1, hcf.2.2.1 hn]
        have hpz : pending (read_record s.handle percpu s.cpu).2.2 percpu
            (clear_offsets s.handle.cpus percpu (read_record s.handle percpu s.cpu).2.1
              (Function.update s.cpu_data s.cpu cd2)).2 = 0 := by
          cases percpu with
          | true =>
            rw [clear_offsets_cpu _ _ _ _ rfl]
            exact h0
          | false =>
            rw [pending_global _ _ (read_record s.handle false s.cpu).2.1]
            exact h0
        rw [hpz]
        omega
      · have h1 := hp.2 y hn
        have hle := loop_measure_le percpu (consume type count_limit percpu s record cd2)
        rw [hcf.1, hcf.2.2.2 y hn] at hle
        omega
    · rw [if_neg hret] at hstep
      injection hstep with hstep
      subst hstep
      have hret0 : ret = 0 := by omega
      have hne : (s.cpu_data s.cpu).ts ≠ record.ts := hts.2 hret0
      unfold loop_measure
      simp only [hr, Function.update_same]
      rw [if_pos hts.1, if_neg hne]
      omega

theorem loop_body_measure (type : split_types) (count_limit : Nat) (percpu : Bool)
    (s : parse_state) (record : tep_record) (s2 : parse_state)
    (hr : s.record = some record)
    (hstep : loop_body type count_limit percpu s record = .ok (false, s2)) :
    loop_measure percpu s2 < loop_measure percpu s := by
  unfold loop_body at hstep
  cases hps : page_step type count_limit s record with
  | mk b1 s1 =>
    have hp := page_step_measure type count_limit percpu s record b1 s1 hr hps
    rw [hps] at hstep
    cases b1 with
    | true =>
      simp only [Except.ok.injEq, Prod.mk.injEq] at hstep
      exact absurd hstep.1 (by decide)
    | false =>
      simp only at hstep
      cases hrs : record_step type count_limit percpu s1 record with
      | error e =>
        rw [hrs] at hstep
        cases hstep
      | ok s3 =>
        rw [hrs] at hstep
        simp only [Except.ok.injEq, Prod.mk.injEq] at hstep
        rw [← hstep.2]
        exact lt_of_lt_of_le (record_step_measure type count_limit percpu s1 record s3 hp.1 hrs)
          hp.2

theorem loop_body_error (type : split_types) (count_limit : Nat) (percpu : Bool)
    (s : parse_state) (record : tep_record) (e : Fault)
    (hstep : loop_body type count_limit percpu s record = .error e) : e ≠ Fault.out_of_fuel := by
  unfold loop_body at hstep
  cases hps : page_step type count_limit s record with
  | mk b1 s1 =>
    rw [hps] at hstep
    cases b1 with
    | true => cases hstep
    | false =>
      simp only at hstep
      unfold record_step at hstep
      cases hw : write_record s1.handle.pevent record
          { s1.cpu_data s1.cpu with offset := record.offset } with
      | error e2 =>
        rw [hw] at hstep
        simp only at hstep
        injection hstep with hstep
        subst hstep
        exact write_record_error _ _ _ _ hw
      | ok p =>
        obtain ⟨ret, cd2⟩ := p
        rw [hw] at hstep
        simp only at hstep
        by_cases hret : ret ≠ 0
        · rw [if_pos hret] at hstep
          cases hstep
        · rw [if_neg hret] at hstep
          cases hstep

/-- The main loop never runs out of fuel when the fuel exceeds the measure. -/
theorem main_loop_fuel (type : split_types) (stop count_limit : Nat) (percpu : Bool) :
    ∀ fuel s, loop_measure percpu s + 1 ≤ fuel →
      main_loop type stop count_limit percpu fuel s ≠ .error .out_of_fuel := by
  intro fuel
  induction fuel with
  | zero => intro s h; omega
  | succ n ih =>
    intro s hf
    unfold main_loop
    cases hr : s.record with
    | none => simp
    | some r =>
      simp only
      by_cases hstop : stop = 0 ∨ r.ts ≤ stop
      · rw [if_pos hstop]
        cases hb : loop_body type count_limit percpu s r with
        | error e =>
          simp only
          intro heq
          injection heq with heq
          exact loop_body_error type count_limit percpu s r e hb heq
        | ok p =>
          obtain ⟨b, s3⟩ := p
          cases b with
          | true => simp
          | false =>
            simp only
            apply ih
            have := loop_body_measure type count_limit percpu s r s3 hr hb
            omega
      · rw [if_neg hstop]
        simp

/-- The fuel that `parse_cpu` gives its loops suffices: no run ends for want of fuel. -/
theorem parse_cpu_fuel (handle : tracecmd_input) (cpu_data : Nat → cpu_data)
    (start stop count_limit : Nat) (percpu : Bool) (cpu0 : Nat) (type : split_types) :
    parse_cpu handle cpu_data start stop count_limit percpu cpu0 type ≠ .error .out_of_fuel := by
  unfold parse_cpu
  obtain ⟨s0, hs0⟩ := parse_start_ok handle cpu_data start percpu cpu0
  rw [hs0]
  simp only
  have hml := main_loop_fuel type stop count_limit percpu
    (2 * pending s0.handle percpu s0.cpu + 3) s0 (by have := loop_measure_le percpu s0; omega)
  cases hres : main_loop type stop count_limit percpu
      (2 * pending s0.handle percpu s0.cpu + 3) s0 with
  | error e =>
    simp only
    intro heq
    injection heq with heq
    subst heq
    exact hml hres
  | ok s1 => simp

/-! ## Totality: well-framed records are always written -/

theorem write_record_ok (pevent : tep_handle) (record : tep_record) (cd : cpu_data)
    (page : Mem) (hp : cd.page = some page) (h31 : record.size < 2 ^ 31)
    (hfr : record.size < 4 ∨ 112 < record.size → record.size + 8 ≤ record.record_size) :
    ∃ p, write_record pevent record cd = .ok p := by
  by_cases hd : 2 ^ 27 < ts_diff record cd
  · exact ⟨_, write_record_extend_eq pevent record cd page hp hd⟩
  · obtain ⟨cd2, h⟩ := write_record_normal_ok pevent record cd page hp (by omega) h31 hfr
    exact ⟨_, h⟩

theorem well_framed_check (h : tracecmd_input) (hps : h.page_size < 2 ^ 31) (r : tep_record)
    (hG : well_framed h r) :
    r.size < 2 ^ 31 ∧ (r.size < 4 ∨ 112 < r.size → r.size + 8 ≤ r.record_size) := by
  have h1 := framed_size_ge_size r
  have h2 := hG.1
  have h3 := hG.2
  refine ⟨by omega, fun hs => ?_⟩
  unfold framed_size at h2
  rw [if_pos ((inline_len_eq_zero r).mpr hs)] at h2
  have := Nat.div_add_mod (r.size + 3) 4
  have := Nat.mod_lt (r.size + 3) (show 0 < 4 by norm_num)
  omega

theorem record_step_ok (type : split_types) (count_limit : Nat) (percpu : Bool)
    (s : parse_state) (record : tep_record) (page : Mem)
    (hp : (s.cpu_data s.cpu).page = some page) (h31 : record.size < 2 ^ 31)
    (hfr : record.size < 4 ∨ 112 < record.size → record.size + 8 ≤ record.record_size) :
    ∃ s2, record_step type count_limit percpu s record = .ok s2 := by
  obtain ⟨p, hw⟩ := write_record_ok s.handle.pevent record
    { s.cpu_data s.cpu with offset := record.offset } page hp h31 hfr
  obtain ⟨ret, cd2⟩ := p
  unfold record_step
  rw [hw]
  simp only
  by_cases hret : ret ≠ 0
  · rw [if_pos hret]; exact ⟨_, rfl⟩
  · rw [if_neg hret]; exact ⟨_, rfl⟩

theorem page_step_closed (type : split_types) (count_limit : Nat)
    (s : parse_state) (record : tep_record) (b : Bool) (s1 : parse_state)
    (hps : page_step type count_limit s record = (b, s1)) :
    ∀ c, (s1.cpu_data c).page ≠ none ∨ s1.cpu_data c = s.cpu_data c := by
  have hnew : ∀ s0 : parse_state, ∀ c, ((new_page s0 record).cpu_data c).page ≠ none ∨
      (new_page s0 record).cpu_data c = s0.cpu_data c := by
    intro s0 c
    cases hp : (s0.cpu_data s0.cpu).page with
    | none =>
      rw [new_page_none s0 record hp]
      by_cases hc : c = s0.cpu
      · left; subst hc; simp only [Function.update_same]
        exact (start_page_fields _ _ _ _).1
      · right; simp only [Function.update_noteq hc]
    | some p =>
      rw [new_page_some s0 record p hp]
      by_cases hc : c = s0.cpu
      · left; subst hc; simp only [Function.update_same]
        exact (start_page_fields _ _ _ _).1
      · right; simp only [Function.update_noteq hc]
  unfold page_step at hps
  split at hps
  · split at hps
    · split at hps
      · injection hps with h1 h2
        subst h2
        exact fun c => Or.inr rfl
      · injection hps with h1 h2
        subst h2
        exact hnew _
    · injection hps with h1 h2
      subst h2
      exact hnew _
  · injection hps with h1 h2
    subst h2
    exact fun c => Or.inr rfl

theorem record_step_closed (type : split_types) (count_limit : Nat) (percpu : Bool)
    (s : parse_state) (record : tep_record) (s2 : parse_state)
    (hstep : record_step type count_limit percpu s record = .ok s2) :
    ∀ c, (s2.cpu_data c).page ≠ none ∨
      ((s2.cpu_data c).page = (s.cpu_data c).page ∧
       (s2.cpu_data c).index = (s.cpu_data c).index) := by
  unfold record_step at hstep
  cases hw : write_record s.handle.pevent record
      { s.cpu_data s.cpu with offset := record.offset } with
  | error e =>
    rw [hw] at hstep
    cases hstep
  | ok p =>
    obtain ⟨ret, cd2⟩ := p
    rw [hw] at hstep
    simp only at hstep
    have hpg := (write_record_page _ _ _ _ _ hw).2.1
    have hupd : ∀ c, (Function.update s.cpu_data s.cpu cd2 c).page ≠ none ∨
        Function.update s.cpu_data s.cpu cd2 c = s.cpu_data c := by
      intro c
      by_cases hc : c = s.cpu
      · left; subst hc; rw [Function.update_same]; exact hpg
      · right; rw [Function.update_noteq hc]
    by_cases hret : ret ≠ 0
    · rw [if_pos hret] at hstep
      injection hstep with hstep
      subst hstep
      intro c
      unfold consume
      simp only
      rcases Option.eq_none_or_eq_some (read_record s.handle percpu s.cpu).1 with hn | ⟨y, hn⟩
      · simp only [hn]
        rcases clear_offsets_spec s.handle.cpus percpu (read_record s.handle percpu s.cpu).2.1
          (Function.update s.cpu_data s.cpu cd2) c with h1 | h1
        · rw [h1]
          rcases hupd c with h2 | h2
          · exact Or.inl h2
          · right; rw [h2]; exact ⟨rfl, rfl⟩
        · rw [h1]
          rcases hupd c with h2 | h2
          · exact Or.inl h2
          · right; rw [h2]; exact ⟨rfl, rfl⟩
      · simp only [hn]
        rcases hupd c with h2 | h2
        · exact Or.inl h2
        · right; rw [h2]; exact ⟨rfl, rfl⟩
    · rw [if_neg hret] at hstep
      injection hstep with hstep
      subst hstep
      intro c
      rcases hupd c with h2 | h2
      · exact Or.inl h2
      · right; simp only; rw [h2]; exact ⟨rfl, rfl⟩

theorem closed_inv_loop_body (h : tracecmd_input) (percpu : Bool) (cpu0 : Nat)
    (type : split_types) (count_limit : Nat)
    (s : parse_state) (record : tep_record) (b : Bool) (s2 : parse_state)
    (hinv : closed_inv h percpu cpu0 s)
    (hstep : loop_body type count_limit percpu s record = .ok (b, s2)) :
    closed_inv h percpu cpu0 s2 := by
  unfold loop_body at hstep
  cases hps : page_step type count_limit s record with
  | mk b1 s1 =>
    have hp := page_step_closed type count_limit s record b1 s1 hps
    rw [hps] at hstep
    cases b1 with
    | true =>
      simp only [Except.ok.injEq, Prod.mk.injEq] at hstep
      rw [← hstep.2]
      intro c hc hnone
      rcases hp c with h1 | h1
      · exact absurd hnone h1
      · rw [h1] at hnone ⊢
        exact hinv c hc hnone
    | false =>
      simp only at hstep
      cases hrs : record_step type count_limit percpu s1 record with
      | error e =>
        rw [hrs] at hstep
        cases hstep
      | ok s3 =>
        rw [hrs] at hstep
        simp only [Except.ok.injEq, Prod.mk.injEq] at hstep
        rw [← hstep.2]
        intro c hc hnone
        rcases record_step_closed type count_limit percpu s1 record s3 hrs c with h1 | h1
        · exact absurd hnone h1
        · rw [h1.1] at hnone
          rw [h1.2]
          rcases hp c with h2 | h2
          · exact absurd hnone h2
          · rw [h2] at hnone ⊢
            exact hinv c hc hnone

theorem loop_body_ok (h : tracecmd_input) (percpu : Bool) (cpu0 : Nat)
    (hps : h.page_size < 2 ^ 31) (type : split_types) (count_limit : Nat)
    (s : parse_state) (record : tep_record) (hr : s.record = some record)
    (hinv : pages_inv (well_framed h) (page_bounds h) h percpu cpu0 s)
    (hcl : closed_inv h percpu cpu0 s) :
    ∃ p, loop_body type count_limit percpu s record = .ok p := by
  have hG : well_framed h record := hinv.1.2.2.1 record hr
  have hchk := well_framed_check h hps record hG
  have hrelc : relevant percpu cpu0 h.cpus s.cpu :=
    relevant_of_iter _ h percpu cpu0 _ hinv.1 (by simp [hr])
  unfold loop_body
  cases hpst : page_step type count_limit s record with
  | mk b1 s1 =>
    have hp := pages_inv_page_step _ _ h percpu cpu0 (page_bounds_fact h hps) type count_limit
      s record hr hinv b1 s1 hpst
    cases b1 with
    | true => exact ⟨_, rfl⟩
    | false =>
      simp only
      have hpage : ∃ page, (s1.cpu_data s1.cpu).page = some page := by
        rw [hp.2.2.1]
        rcases hp.2.2.2.2.2.2.2 rfl with h1 | h1
        · rw [h1.1]
          cases hpg : (s.cpu_data s.cpu).page with
          | none =>
            have hidx := hcl s.cpu hrelc hpg
            have hn := h1.2.2
            unfold needs_new_page at hn
            simp only [Bool.or_eq_false_iff, decide_eq_false_iff_not] at hn
            omega
          | some page => exact ⟨page, rfl⟩
        · obtain ⟨⟨cd0, page, hcd⟩, _⟩ := h1
          rw [hcd]
          exact Option.ne_none_iff_exists'.mp (start_page_fields h cd0 page record).1
      obtain ⟨page, hpage⟩ := hpage
      obtain ⟨s2, hs2⟩ := record_step_ok type count_limit percpu s1 record page hpage
        hchk.1 hchk.2
      rw [hs2]
      exact ⟨_, rfl⟩

theorem main_loop_ok (P : parse_state → Prop) (type : split_types)
    (stop count_limit : Nat) (percpu : Bool)
    (hstep : ∀ s r b s2, P s → s.record = some r →
      loop_body type count_limit percpu s r = .ok (b, s2) → P s2)
    (hprog : ∀ s r, P s → s.record = some r →
      ∃ p, loop_body type count_limit percpu s r = .ok p) :
    ∀ fuel s, P s → loop_measure percpu s + 1 ≤ fuel →
      ∃ s2, main_loop type stop count_limit percpu fuel s = .ok s2 := by
  intro fuel
  induction fuel with
  | zero => intro s _ h; omega
  | succ n ih =>
    intro s hP hf
    unfold main_loop
    cases hr : s.record with
    | none => exact ⟨_, rfl⟩
    | some r =>
      simp only
      by_cases hstop : stop = 0 ∨ r.ts ≤ stop
      · rw [if_pos hstop]
        obtain ⟨p, hb⟩ := hprog s r hP hr
        obtain ⟨b, s3⟩ := p
        rw [hb]
        cases b with
        | true => exact ⟨_, rfl⟩
        | false =>
          simp only
          apply ih s3 (hstep s r false s3 hP hr hb)
          have := loop_body_measure type count_limit percpu s r s3 hr hb
          omega
      · rw [if_neg hstop]
        exact ⟨_, rfl⟩

/-- A run of `parse_cpu` over well-framed records returns. -/
theorem parse_cpu_total (handle : tracecmd_input) (cpu_data : Nat → cpu_data)
    (start stop count_limit : Nat) (percpu : Bool) (cpu0 : Nat) (type : split_types)
    (hps : handle.page_size < 2 ^ 31)
    (hG : ∀ c y, y ∈ handle.recs c ∨ y ∈ handle.next c → well_framed handle y) :
    ∃ s, parse_cpu handle cpu_data start stop count_limit percpu cpu0 type = .ok s := by
  unfold parse_cpu
  obtain ⟨s0, hs0⟩ := parse_start_ok handle cpu_data start percpu cpu0
  rw [hs0]
  simp only
  have hinv0 := parse_start_inv (well_framed handle) (page_bounds handle) handle cpu_data start
    percpu cpu0 s0 (parse_start_iter _ handle cpu_data start percpu cpu0 s0 hG hs0) hs0
  have hcl0 : closed_inv handle percpu cpu0 s0 := by
    intro c hc _
    rw [(parse_start_spec handle cpu_data start percpu cpu0 s0 hs0).2.1]
    exact (force_new_pages_spec _ _ _ _ _ c hc).2
  obtain ⟨s1, hs1⟩ := main_loop_ok
    (fun st => pages_inv (well_framed handle) (page_bounds handle) handle percpu cpu0 st ∧
      closed_inv handle percpu cpu0 st)
    type stop count_limit percpu
    (fun s r b s2 hP hr hb =>
      ⟨pages_inv_loop_body _ _ handle percpu cpu0 (page_bounds_fact handle hps) type count_limit
        s r b s2 hP.1 hr hb,
       closed_inv_loop_body handle percpu cpu0 type count_limit s r b s2 hP.2 hb⟩)
    (fun s r hP hr => loop_body_ok handle percpu cpu0 hps type count_limit s r hr hP.1 hP.2)
    (2 * pending s0.handle percpu s0.cpu + 3) s0 ⟨hinv0, hcl0⟩
    (by have := loop_measure_le percpu s0; omega)
  rw [hs1]
  exact ⟨_, rfl⟩

/-! ## The claims about whole runs -/

/-- C7: over well-framed records (page size at most 2^30) `parse_cpu` returns, and
in its log a record with `missed_events ≠ 0` is appended right after a page was
started for it, at the first offset behind the page header; and every page
started for a record `r` is flushed, with no other page of that CPU started or
flushed in between, and in the commit value read from the flushed page the bits
31 (MISSING_EVENTS) and 30 (MISSING_STORED) are both set when
`r.missed_events ≠ 0` and both clear when `r.missed_events = 0`. -/
theorem parse_cpu_missed_events_page (handle : tracecmd_input) (cpu_data : Nat → cpu_data)
    (start stop count_limit : Nat) (percpu : Bool) (cpu0 : Nat) (type : split_types)
    (hl : handle.long_size = 4 ∨ handle.long_size = 8) (hps : handle.page_size ≤ 2 ^ 30)
    (hG : ∀ c y, y ∈ handle.recs c ∨ y ∈ handle.next c → well_framed handle y) :
    ∃ s, parse_cpu handle cpu_data start stop count_limit percpu cpu0 type = .ok s ∧
      (∀ l1 l2 c r i, s.log = l1 ++ Event.appended c r i :: l2 → r.missed_events ≠ 0 →
        l1.getLast? = some (Event.opened c r) ∧ i = 8 + handle.long_size) ∧
      (∀ l1 l2 c r, s.log = l1 ++ Event.opened c r :: l2 →
        ∃ l3 cd l4, l2 = l3 ++ Event.flushed c cd :: l4 ∧ (∀ e ∈ l3, ¬ page_event c e) ∧
          (r.missed_events ≠ 0 →
            (read_commit handle cd).testBit 31 = true ∧
            (read_commit handle cd).testBit 30 = true) ∧
          (r.missed_events = 0 →
            (read_commit handle cd).testBit 31 = false ∧
            (read_commit handle cd).testBit 30 = false)) := by
  obtain ⟨s, hrun⟩ := parse_cpu_total handle cpu_data start stop count_limit percpu cpu0 type
    (by omega) hG
  refine ⟨s, hrun, ?_⟩
  have hpg := parse_cpu_pages (well_framed handle) (page_bounds handle) handle cpu_data start
    stop count_limit percpu cpu0 type s (page_bounds_fact handle (by omega)) hG hrun
  constructor
  · intro l1 l2 c r i hsplit hm
    exact (hpg.2.2.1 l1 _ l2 hsplit c r i rfl).2 hm
  · intro l1 l2 c r hsplit
    obtain ⟨l3, cd0, l4, h1, h2, hp0, hQ⟩ := opened_page_flushed (page_bounds handle) handle
      s.log hpg.1 hpg.2.1 hpg.2.2.2 l1 l2 c r hsplit
    have hf := commit_flags handle cd0 hl hp0 hQ.2.1 hQ.2.2.1 hQ.2.2.2 hps
    rw [hQ.1] at hf
    exact ⟨l3, _, l4, h1, h2, hf⟩

/-- Witness of C7: the example capture, whose fourth record carries 7 missed events. -/
theorem parse_cpu_missed_events_page_witness :
    run_keys (parse_cpu demo_handle demo_cpu_data 0 0 0 true 0 .SPLIT_NONE)
      = some [(0, 0, 100, 0), (2, 0, 100, 16), (2, 0, 110, 24), (2, 0, 120, 36),
              (1, 0, 120, 64), (0, 0, 130, 0), (2, 0, 130, 16), (3, 0, 134217863, 24),
              (2, 0, 134217863, 32), (1, 0, 134217863, 40)] ∧
    ∃ s, parse_cpu demo_handle demo_cpu_data 0 0 0 true 0 .SPLIT_NONE = .ok s ∧
      (∀ l1 l2 c r i, s.log = l1 ++ Event.appended c r i :: l2 → r.missed_events ≠ 0 →
        l1.getLast? = some (Event.opened c r) ∧ i = 8 + demo_handle.long_size) ∧
      (∀ l1 l2 c r, s.log = l1 ++ Event.opened c r :: l2 →
        ∃ l3 cd l4, l2 = l3 ++ Event.flushed c cd :: l4 ∧ (∀ e ∈ l3, ¬ page_event c e) ∧
          (r.missed_events ≠ 0 →
            (read_commit demo_handle cd).testBit 31 = true ∧
            (read_commit demo_handle cd).testBit 30 = true) ∧
          (r.missed_events = 0 →
            (read_commit demo_handle cd).testBit 31 = false ∧
            (read_commit demo_handle cd).testBit 30 = false)) :=
  ⟨by decide,
   parse_cpu_missed_events_page demo_handle demo_cpu_data 0 0 0 true 0 .SPLIT_NONE
    (by decide) (by decide) demo_well_framed⟩

/-- C10: when the records of every CPU of the input come in non-decreasing order
of timestamp, a run of `parse_cpu` does not end for want of fuel, and every
record that it appends is a record of the input with `ts ≥ start` and
(`stop = 0` or `ts ≤ stop`); and the test of the main loop lets a record with
`ts = stop` through to the body of the loop. -/
theorem parse_cpu_window (handle : tracecmd_input) (cpu_data : Nat → cpu_data)
    (start stop count_limit : Nat) (percpu : Bool) (cpu0 : Nat) (type : split_types)
    (hsorted : ∀ c, (handle.recs c).Pairwise (fun a b => a.ts ≤ b.ts)) :
    parse_cpu handle cpu_data start stop count_limit percpu cpu0 type ≠ .error .out_of_fuel ∧
    (∀ s, parse_cpu handle cpu_data start stop count_limit percpu cpu0 type = .ok s →
      ∀ c r i, Event.appended c r i ∈ s.log →
        (∃ c2, r ∈ handle.recs c2 ∨ r ∈ handle.next c2) ∧ start ≤ r.ts ∧
        (stop = 0 ∨ r.ts ≤ stop)) ∧
    (∀ fuel st r, st.record = some r → r.ts = stop →
      main_loop type stop count_limit percpu (fuel + 1) st =
        match loop_body type count_limit percpu st r with
        | .error e => .error e
        | .ok (true, s2) => .ok s2
        | .ok (false, s2) => main_loop type stop count_limit percpu fuel s2) := by
  refine ⟨parse_cpu_fuel handle cpu_data start stop count_limit percpu cpu0 type, ?_, ?_⟩
  · intro s hrun
    obtain ⟨s1, h1, hs⟩ := parse_cpu_inv
      (fun st => pages_inv (from_start handle start) (fun _ _ => True) handle percpu cpu0 st ∧
        ∀ c x i, Event.appended c x i ∈ st.log →
          from_start handle start x ∧ (stop = 0 ∨ x.ts ≤ stop))
      handle cpu_data start stop count_limit percpu cpu0 type s
      (fun s0 hs0 => by
        refine ⟨parse_start_inv _ _ handle cpu_data start percpu cpu0 s0
          (parse_start_window handle cpu_data start percpu cpu0 s0 hsorted hs0) hs0, ?_⟩
        intro c x i hm
        rw [(parse_start_spec handle cpu_data start percpu cpu0 s0 hs0).1] at hm
        cases hm)
      (fun st r b s2 hP hr hstop hb => by
        refine ⟨pages_inv_loop_body _ _ handle percpu cpu0 (page_fact_trivial _ handle) type
          count_limit st r b s2 hP.1 hr hb, ?_⟩
        intro c x i hm
        rcases loop_body_appended type count_limit percpu st r b s2 hb c x i hm with h2 | h2
        · exact hP.2 c x i h2
        · subst h2
          exact ⟨hP.1.1.2.2.1 x hr, hstop⟩)
      hrun
    intro c r i hm
    rw [hs] at hm
    have := h1.2 c r i (final_flush_appended percpu s1 c r i hm)
    exact ⟨this.1.2, this.1.1, this.2⟩
  · intro fuel st r hr hts
    rw [main_loop, hr]
    simp only
    rw [if_pos (Or.inr (le_of_eq hts))]

/-- Witness of C10: the example capture cut to the window from 110 to 120. -/
theorem parse_cpu_window_witness :
    run_keys (parse_cpu demo_handle demo_cpu_data 110 120 0 true 0 .SPLIT_NONE)
      = some [(0, 0, 110, 0), (2, 0, 110, 16), (2, 0, 120, 28), (1, 0, 120, 56)] ∧
    ∀ c r i, Event.appended c r i ∈
        (final_state (parse_cpu demo_handle demo_cpu_data 110 120 0 true 0 .SPLIT_NONE)
          (empty_state demo_handle)).log →
      (∃ c2, r ∈ demo_handle.recs c2 ∨ r ∈ demo_handle.next c2) ∧ 110 ≤ r.ts ∧
      (120 = 0 ∨ r.ts ≤ 120) :=
  ⟨by decide,
   (parse_cpu_window demo_handle demo_cpu_data 110 120 0 true 0 .SPLIT_NONE
    demo_sorted).2.1 _ demo_window_run⟩

/-! ## The length check of `write_record` -/

/-- When the page is there, `write_record` fails exactly in the explicit-length
form of a normal record whose `record_size` is below `size + 8`. -/
theorem write_record_die_iff (pevent : tep_handle) (record : tep_record) (cd : cpu_data)
    (page : Mem) (hp : cd.page = some page) (h31 : record.size < 2 ^ 31) :
    write_record pevent record cd = .error .bad_record_len ↔
      (ts_diff record cd ≤ 2 ^ 27 ∧ (record.size < 4 ∨ 112 < record.size) ∧
        record.record_size < record.size + 8) := by
  constructor
  · intro herr
    by_cases hd : ts_diff record cd ≤ 2 ^ 27
    · by_cases hs : record.size < 4 ∨ 112 < record.size
      · by_cases hrs : record.record_size < record.size + 8
        · exact ⟨hd, hs, hrs⟩
        · rw [write_record_explicit_eq pevent record cd page hp hd hs (by omega) (by omega)]
            at herr
          cases herr
      · rw [write_record_inline_eq pevent record cd page hp hd (by omega) (by omega)] at herr
        cases herr
    · rw [write_record_extend_eq pevent record cd page hp (by omega)] at herr
      cases herr
  · rintro ⟨hd, hs, hrs⟩
    exact write_record_explicit_die pevent record cd page hp hd hs hrs

/-- The framed size covers the payload and the two words of the explicit form. -/
theorem framed_size_explicit (record : tep_record)
    (hs : record.size < 4 ∨ 112 < record.size) : record.size + 8 ≤ framed_size record := by
  have h0 := (inline_len_eq_zero record).2 hs
  unfold framed_size
  rw [if_pos h0]
  omega

/-- C16 (as the code has it): on an open page `write_record` reports the error
"Bad calculation of record len" exactly when it writes a normal record (delta at
most `1 << 27`) in the explicit-length form (payload size below 4 or above 112)
and `size + 8 > record_size`; so a record in the inline form, and one that takes
the TIME_EXTEND path, is written whatever its `record_size`; and a record whose
`record_size` is its framed size, or more, is never refused. -/
theorem write_record_len_check (pevent : tep_handle) (record : tep_record) (cd : cpu_data)
    (page : Mem) (hp : cd.page = some page) (h31 : record.size < 2 ^ 31) :
    (write_record pevent record cd = .error .bad_record_len ↔
      (ts_diff record cd ≤ 2 ^ 27 ∧ (record.size < 4 ∨ 112 < record.size) ∧
        record.record_size < record.size + 8)) ∧
    (∀ e, write_record pevent record cd = .error e → e = .bad_record_len) ∧
    (framed_size record ≤ record.record_size →
      ∃ p, write_record pevent record cd = .ok p) := by
  refine ⟨write_record_die_iff pevent record cd page hp h31, ?_, ?_⟩
  · intro e herr
    by_cases hd : ts_diff record cd ≤ 2 ^ 27
    · by_cases hs : record.size < 4 ∨ 112 < record.size
      · by_cases hrs : record.record_size < record.size + 8
        · rw [write_record_explicit_die pevent record cd page hp hd hs hrs] at herr
          cases herr
          rfl
        · rw [write_record_explicit_eq pevent record cd page hp hd hs (by omega) (by omega)]
            at herr
          cases herr
      · rw [write_record_inline_eq pevent record cd page hp hd (by omega) (by omega)] at herr
        cases herr
    · rw [write_record_extend_eq pevent record cd page hp (by omega)] at herr
      cases herr
  · intro hfr
    exact write_record_ok pevent record cd page hp h31
      (fun hs => le_trans (framed_size_explicit record hs) hfr)

/-- Witness of C16: a payload of 2 bytes with `record_size` 4 is refused, and the
same payload with its framed size 12 is written. -/
theorem write_record_len_check_witness :
    write_record ⟨false, false⟩ ⟨100, 0, 0, 4, 2, fun _ => 0⟩
        ⟨100, 0, 0, 16, 8, some (fun _ => 0)⟩ = .error .bad_record_len ∧
    ∃ p, write_record ⟨false, false⟩ ⟨100, 0, 0, 12, 2, fun _ => 0⟩
        ⟨100, 0, 0, 16, 8, some (fun _ => 0)⟩ = .ok p :=
  ⟨(write_record_len_check ⟨false, false⟩ ⟨100, 0, 0, 4, 2, fun _ => 0⟩
      ⟨100, 0, 0, 16, 8, some (fun _ => 0)⟩ (fun _ => 0) rfl (by decide)).1.2
      ⟨by decide, by decide, by decide⟩,
   (write_record_len_check ⟨false, false⟩ ⟨100, 0, 0, 12, 2, fun _ => 0⟩
      ⟨100, 0, 0, 16, 8, some (fun _ => 0)⟩ (fun _ => 0) rfl (by decide)).2.2
      (by decide)⟩

/-- C16 (counterexample): a payload of 8 bytes whose `record_size` is 100, not
the framed size 12, is written (return value 1, inline `len_field` 2); a payload
of 113 bytes whose `record_size` is 121, not the framed size 124, is written;
and so is a record with `record_size` 0 that takes the TIME_EXTEND path
(return value 0, `len_field` 30). -/
theorem write_record_inconsistent_written :
    framed_size ⟨100, 0, 0, 100, 8, fun _ => 0⟩ = 12 ∧
    written_header ⟨false, false⟩ 16
      (write_record ⟨false, false⟩ ⟨100, 0, 0, 100, 8, fun _ => 0⟩
        ⟨100, 0, 0, 16, 8, some (fun _ => 0)⟩) = some (1, 2, 0) ∧
    framed_size ⟨100, 0, 0, 121, 113, fun _ => 0⟩ = 124 ∧
    written_header ⟨false, false⟩ 16
      (write_record ⟨false, false⟩ ⟨100, 0, 0, 121, 113, fun _ => 0⟩
        ⟨100, 0, 0, 16, 8, some (fun _ => 0)⟩) = some (1, 0, 0) ∧
    written_header ⟨false, false⟩ 16
      (write_record ⟨false, false⟩ ⟨2 ^ 28, 0, 0, 0, 2, fun _ => 0⟩
        ⟨0, 0, 0, 16, 8, some (fun _ => 0)⟩) = some (0, 30, 0) := by
  decide

/-! ## The shape of one pass through the body of the main loop -/

/-- The three ways through the first `if` of the body of the main loop. -/
theorem page_step_shape (type : split_types) (count_limit : Nat) (s : parse_state)
    (record : tep_record) (b : Bool) (s1 : parse_state)
    (hps : page_step type count_limit s record = (b, s1)) :
    (b = true ∧ type = .SPLIT_PAGES ∧ count_limit < s.pages + 1 ∧
      s1 = { s with pages := s.pages + 1 } ∧
      needs_new_page s.handle.page_size (s.cpu_data s.cpu) record = true) ∨
    (b = false ∧ s1 = s ∧
      needs_new_page s.handle.page_size (s.cpu_data s.cpu) record = false) ∨
    (b = false ∧ needs_new_page s.handle.page_size (s.cpu_data s.cpu) record = true ∧
      (type = .SPLIT_PAGES → s.pages + 1 ≤ count_limit) ∧
      s1 = new_page { s with pages := if type = .SPLIT_PAGES then s.pages + 1 else s.pages }
        record) := by
  unfold page_step at hps
  by_cases hn : needs_new_page s.handle.page_size (s.cpu_data s.cpu) record = true
  · rw [if_pos hn] at hps
    by_cases ht : type = .SPLIT_PAGES
    · rw [if_pos ht] at hps
      by_cases hl : s.pages + 1 > count_limit
      · rw [if_pos hl] at hps
        injection hps with h1 h2
        exact Or.inl ⟨h1.symm, ht, hl, h2.symm, hn⟩
      · rw [if_neg hl] at hps
        injection hps with h1 h2
        refine Or.inr (Or.inr ⟨h1.symm, hn, fun _ => by omega, ?_⟩)
        rw [if_pos ht]
        exact h2.symm
    · rw [if_neg ht] at hps
      injection hps with h1 h2
      refine Or.inr (Or.inr ⟨h1.symm, hn, fun h => absurd h ht, ?_⟩)
      rw [if_neg ht]
      exact h2.symm
  · rw [if_neg hn] at hps
    injection hps with h1 h2
    exact Or.inr (Or.inl ⟨h1.symm, h2.symm, by simpa using hn⟩)

/-- What the new-page branch leaves alone, and what it does to the builder of
the current CPU and to the log. -/
theorem new_page_shape (s : parse_state) (record : tep_record) :
    (new_page s record).record = s.record ∧ (new_page s record).cpu = s.cpu ∧
    (new_page s record).handle = s.handle ∧ (new_page s record).start = s.start ∧
    (new_page s record).count = s.count ∧ (new_page s record).pages = s.pages ∧
    (∀ c, c ≠ s.cpu → (new_page s record).cpu_data c = s.cpu_data c) ∧
    (((s.cpu_data s.cpu).page = none ∧
      (new_page s record).cpu_data s.cpu
        = start_page s.handle (s.cpu_data s.cpu) (fun _ => 0) record ∧
      (new_page s record).log = s.log ++ [Event.opened s.cpu record]) ∨
     ((s.cpu_data s.cpu).page ≠ none ∧
      (new_page s record).cpu_data s.cpu
        = start_page s.handle (write_page s.handle.pevent (s.cpu_data s.cpu) s.handle.long_size)
            ((write_page s.handle.pevent (s.cpu_data s.cpu) s.handle.long_size).page.getD
              (fun _ => 0)) record ∧
      (new_page s record).log = s.log ++
        [Event.flushed s.cpu (write_page s.handle.pevent (s.cpu_data s.cpu) s.handle.long_size),
         Event.opened s.cpu record])) := by
  cases hp : (s.cpu_data s.cpu).page with
  | none =>
    rw [new_page_none s record hp]
    refine ⟨rfl, rfl, rfl, rfl, rfl, rfl, ?_, Or.inl ⟨rfl, ?_, rfl⟩⟩
    · intro c hc
      exact Function.update_noteq hc _ _
    · exact Function.update_same _ _ _
  | some p =>
    rw [new_page_some s record p hp]
    refine ⟨rfl, rfl, rfl, rfl, rfl, rfl, ?_, Or.inr ⟨Option.noConfusion, ?_, rfl⟩⟩
    · intro c hc
      exact Function.update_noteq hc _ _
    · exact Function.update_same _ _ _

/-- The first `if` of the body of the main loop leaves the iterator, `start` and
`count` alone. -/
theorem page_step_fields (type : split_types) (count_limit : Nat) (s : parse_state)
    (record : tep_record) (b : Bool) (s1 : parse_state)
    (hps : page_step type count_limit s record = (b, s1)) :
    s1.record = s.record ∧ s1.cpu = s.cpu ∧ s1.handle = s.handle ∧ s1.start = s.start ∧
    s1.count = s.count ∧ (∀ c, c ≠ s.cpu → s1.cpu_data c = s.cpu_data c) := by
  rcases page_step_shape type count_limit s record b s1 hps with h | h | h
  · rw [h.2.2.2.1]
    exact ⟨rfl, rfl, rfl, rfl, rfl, fun _ _ => rfl⟩
  · rw [h.2.1]
    exact ⟨rfl, rfl, rfl, rfl, rfl, fun _ _ => rfl⟩
  · rw [h.2.2.2]
    have := new_page_shape
      { s with pages := if type = .SPLIT_PAGES then s.pages + 1 else s.pages } record
    exact ⟨this.1, this.2.1, this.2.2.1, this.2.2.2.1, this.2.2.2.2.1, this.2.2.2.2.2.2.1⟩

/-- The two ways through the rest of the body of the main loop. -/
theorem record_step_shape (type : split_types) (count_limit : Nat) (percpu : Bool)
    (s : parse_state) (record : tep_record) (s2 : parse_state)
    (hstep : record_step type count_limit percpu s record = .ok s2) :
    ∃ ret cd2, write_record s.handle.pevent record
        { s.cpu_data s.cpu with offset := record.offset } = .ok (ret, cd2) ∧
      ((ret = 1 ∧ s2 = consume type count_limit percpu s record cd2) ∨
       (ret = 0 ∧ s2 = { s with cpu_data := Function.update s.cpu_data s.cpu cd2
                                log := s.log ++
                                  [Event.extended s.cpu record (s.cpu_data s.cpu).index] })) := by
  unfold record_step at hstep
  cases hw : write_record s.handle.pevent record
      { s.cpu_data s.cpu with offset := record.offset } with
  | error e =>
    rw [hw] at hstep
    cases hstep
  | ok p =>
    obtain ⟨ret, cd2⟩ := p
    rw [hw] at hstep
    simp only at hstep
    have hret := (write_record_page _ _ _ _ _ hw).2.2
    refine ⟨ret, cd2, rfl, ?_⟩
    by_cases h0 : ret ≠ 0
    · rw [if_pos h0] at hstep
      injection hstep with hstep
      exact Or.inl ⟨by omega, hstep.symm⟩
    · rw [if_neg h0] at hstep
      injection hstep with hstep
      exact Or.inr ⟨by omega, hstep.symm⟩

/-- One pass through the body of the main loop is the first `if` followed, when
the loop was not left, by the rest of the body. -/
theorem loop_body_shape (type : split_types) (count_limit : Nat) (percpu : Bool)
    (s : parse_state) (record : tep_record) (b : Bool) (s2 : parse_state)
    (hstep : loop_body type count_limit percpu s record = .ok (b, s2)) :
    (b = true ∧ page_step type count_limit s record = (true, s2)) ∨
    (b = false ∧ ∃ s1, page_step type count_limit s record = (false, s1) ∧
      record_step type count_limit percpu s1 record = .ok s2) := by
  unfold loop_body at hstep
  cases hps : page_step type count_limit s record with
  | mk b1 s1 =>
    rw [hps] at hstep
    cases b1 with
    | true =>
      simp only [Except.ok.injEq, Prod.mk.injEq] at hstep
      exact Or.inl ⟨hstep.1.symm, by rw [← hstep.2]⟩
    | false =>
      simp only at hstep
      cases hrs : record_step type count_limit percpu s1 record with
      | error e =>
        rw [hrs] at hstep
        cases hstep
      | ok s3 =>
        rw [hrs] at hstep
        simp only [Except.ok.injEq, Prod.mk.injEq] at hstep
        exact Or.inr ⟨hstep.1.symm, s1, rfl, by rw [hrs, hstep.2]⟩

/-- What `consume` leaves alone, and what it adds to the log. -/
theorem consume_shape (type : split_types) (count_limit : Nat) (percpu : Bool)
    (s : parse_state) (record : tep_record) (cd : cpu_data) :
    (consume type count_limit percpu s record cd).log
      = s.log ++ [Event.appended s.cpu record (s.cpu_data s.cpu).index] ∧
    (consume type count_limit percpu s record cd).start = s.start ∧
    (consume type count_limit percpu s record cd).pages = s.pages ∧
    (consume type count_limit percpu s record cd).count
      = (apply_split type s.start count_limit (read_record s.handle percpu s.cpu).1 s.count).2 :=
  ⟨rfl, rfl, rfl, rfl⟩

/-- The builders after `consume`: those after `write_record`, up to `offset`. -/
theorem consume_cpu_data (type : split_types) (count_limit : Nat) (percpu : Bool)
    (s : parse_state) (record : tep_record) (cd : cpu_data) (c : Nat) :
    (consume type count_limit percpu s record cd).cpu_data c
      = Function.update s.cpu_data s.cpu cd c ∨
    (consume type count_limit percpu s record cd).cpu_data c
      = { Function.update s.cpu_data s.cpu cd c with offset := 0 } := by
  rcases Option.eq_none_or_eq_some (read_record s.handle percpu s.cpu).1 with hn | ⟨y, hn⟩
  · simp only [consume, hn]
    exact clear_offsets_spec _ _ _ _ c
  · simp only [consume, hn]
    exact Or.inl trivial

/-- The rest of the body of the main loop, when it returns: `write_record`
returned 1 or 0, one event is added to the log, the append of the record or its
TIME_EXTEND, and the builders are those after `write_record`, up to `offset`. -/
theorem record_step_result (type : split_types) (count_limit : Nat) (percpu : Bool)
    (s : parse_state) (record : tep_record) (s2 : parse_state)
    (hstep : record_step type count_limit percpu s record = .ok s2) :
    ∃ ret cd2, write_record s.handle.pevent record
        { s.cpu_data s.cpu with offset := record.offset } = .ok (ret, cd2) ∧
      (ret = 0 ∨ ret = 1) ∧
      s2.log = s.log ++
        [if ret = 1 then Event.appended s.cpu record (s.cpu_data s.cpu).index
         else Event.extended s.cpu record (s.cpu_data s.cpu).index] ∧
      (∀ c, s2.cpu_data c = Function.update s.cpu_data s.cpu cd2 c ∨
        s2.cpu_data c = { Function.update s.cpu_data s.cpu cd2 c with offset := 0 }) ∧
      s2.start = s.start ∧ s2.pages = s.pages := by
  obtain ⟨ret, cd2, hw, hcase⟩ := record_step_shape type count_limit percpu s record s2 hstep
  refine ⟨ret, cd2, hw, ?_⟩
  rcases hcase with ⟨h1, hs2⟩ | ⟨h0, hs2⟩
  · subst h1
    rw [hs2]
    exact ⟨Or.inr rfl, by rw [if_pos rfl]; rfl,
      consume_cpu_data type count_limit percpu s record cd2, rfl, rfl⟩
  · subst h0
    rw [hs2]
    exact ⟨Or.inl rfl, by rw [if_neg (by decide)], fun c => Or.inl rfl, rfl, rfl⟩

/-- Equal bytes read equal. -/
theorem mem_read_congr (m1 m2 : Mem) (off n : Nat)
    (h : ∀ i, off ≤ i → i < off + n → m1 i = m2 i) : mem_read m1 off n = mem_read m2 off n := by
  unfold mem_read
  apply List.map_congr_left
  intro i hi
  rw [List.mem_range] at hi
  exact h (off + i) (by omega) (by omega)

/-! ## The retry after a TIME_EXTEND -/

/-- The last element of a list that ends in `a`. -/
theorem getLast_snoc {α : Type} (l : List α) (a : α) : (l ++ [a]).getLast? = some a := by
  simp

/-- After the first `if` of the body the base timestamp of the current builder
is the old one, or the timestamp of the record when a page was started. -/
theorem page_step_ts (type : split_types) (count_limit : Nat) (s : parse_state)
    (record : tep_record) (s1 : parse_state)
    (hps : page_step type count_limit s record = (false, s1)) :
    s1.cpu = s.cpu ∧
    ((s1.cpu_data s1.cpu).ts = (s.cpu_data s.cpu).ts ∨ (s1.cpu_data s1.cpu).ts = record.ts) ∧
    ((s.cpu_data s.cpu).page ≠ none → (s1.cpu_data s1.cpu).page ≠ none) ∧
    (s1 = s ∨ (s1.cpu_data s1.cpu).page ≠ none) := by
  rcases page_step_shape type count_limit s record false s1 hps with h | h | h
  · exact absurd h.1 (by decide)
  · rw [h.2.1]
    exact ⟨rfl, Or.inl rfl, id, Or.inl rfl⟩
  · have hs := new_page_shape
      { s with pages := if type = .SPLIT_PAGES then s.pages + 1 else s.pages } record
    rw [← h.2.2.2] at hs
    have hcpu : s1.cpu = s.cpu := hs.2.1
    have hcd : ∃ cd0 page, s1.cpu_data s1.cpu = start_page s.handle cd0 page record := by
      rw [hcpu]
      rcases hs.2.2.2.2.2.2.2 with h1 | h1
      · exact ⟨_, _, h1.2.1⟩
      · exact ⟨_, _, h1.2.1⟩
    obtain ⟨cd0, page, hcd⟩ := hcd
    have hf := start_page_fields s.handle cd0 page record
    rw [← hcd] at hf
    exact ⟨hcpu, Or.inr hf.2.2.1, fun _ => hf.1, Or.inr hf.1⟩

/-- C18 (as the code has it): when a pass through the body of the main loop
ended with a TIME_EXTEND for the record `r` in hand, `r` stays in hand with the
base timestamp of its builder equal to its timestamp, so the delta of the retry
is 0; the retry writes no second TIME_EXTEND: it either leaves the loop by the
`SPLIT_PAGES` limit without writing, or appends `r`; it returns when `r` is
framed so that `write_record` accepts it; every pass decreases the measure of
the loop, and no run of `parse_cpu` ends for want of fuel. -/
theorem loop_body_retry (type : split_types) (count_limit : Nat) (percpu : Bool)
    (s : parse_state) (r : tep_record) (s2 : parse_state) (c : Nat) (x : tep_record) (i : Nat)
    (hr : s.record = some r)
    (hb : loop_body type count_limit percpu s r = .ok (false, s2))
    (hext : s2.log.getLast? = some (Event.extended c x i)) :
    s2.record = some r ∧ s2.cpu = s.cpu ∧ c = s.cpu ∧ x = r ∧
    ts_diff r (s2.cpu_data s2.cpu) = 0 ∧
    (∀ b s3, loop_body type count_limit percpu s2 r = .ok (b, s3) →
      (b = true ∧ type = .SPLIT_PAGES ∧ s3.log = s2.log) ∨
      (b = false ∧ ∃ j, s3.log.getLast? = some (Event.appended s.cpu r j))) ∧
    (r.size < 2 ^ 31 → (r.size < 4 ∨ 112 < r.size → r.size + 8 ≤ r.record_size) →
      ∃ p, loop_body type count_limit percpu s2 r = .ok p) ∧
    loop_measure percpu s2 < loop_measure percpu s ∧
    (∀ handle cpu_data start stop cpu0,
      parse_cpu handle cpu_data start stop count_limit percpu cpu0 type
        ≠ .error .out_of_fuel) := by
  have hmeas := loop_body_measure type count_limit percpu s r s2 hr hb
  rcases loop_body_shape type count_limit percpu s r false s2 hb with h | ⟨_, s1, hps, hrs⟩
  · exact absurd h.1 (by decide)
  have hf1 := page_step_fields type count_limit s r false s1 hps
  obtain ⟨ret, cd2, hw, hcase⟩ := record_step_shape type count_limit percpu s1 r s2 hrs
  rcases hcase with ⟨_, hs2⟩ | ⟨hret, hs2⟩
  · rw [hs2, (consume_shape type count_limit percpu s1 r cd2).1, getLast_snoc] at hext
    cases hext
  have hlog : s2.log = s1.log ++ [Event.extended s1.cpu r (s1.cpu_data s1.cpu).index] := by
    rw [hs2]
  have hrec : s2.record = some r := by rw [hs2]; exact hf1.1.trans hr
  have hcpu : s2.cpu = s.cpu := by rw [hs2]; exact hf1.2.1
  rw [hlog, getLast_snoc] at hext
  simp only [Option.some.injEq, Event.extended.injEq] at hext
  have hcd : s2.cpu_data s2.cpu = cd2 := by
    rw [hs2]
    exact Function.update_same _ _ _
  have hts : (s2.cpu_data s2.cpu).ts = r.ts := by
    rw [hcd]
    exact (write_record_ts _ _ _ _ _ hw).1
  have hpage : (s2.cpu_data s2.cpu).page ≠ none := by
    rw [hcd]
    exact (write_record_page _ _ _ _ _ hw).2.1
  refine ⟨hrec, hcpu, hext.1.symm.trans hf1.2.1, hext.2.1.symm, ts_diff_self r _ hts, ?_, ?_,
    hmeas, fun handle cpu_data start stop cpu0 =>
      parse_cpu_fuel handle cpu_data start stop count_limit percpu cpu0 type⟩
  · intro b s3 hb3
    rcases loop_body_shape type count_limit percpu s2 r b s3 hb3 with
      ⟨hbt, hps3⟩ | ⟨hbf, s4, hps3, hrs3⟩
    · rcases page_step_shape type count_limit s2 r true s3 hps3 with h | h | h
      · refine Or.inl ⟨hbt, h.2.1, ?_⟩
        rw [h.2.2.2.1]
      · exact absurd h.1 (by decide)
      · exact absurd h.1 (by decide)
    · refine Or.inr ⟨hbf, ?_⟩
      have h4 := page_step_ts type count_limit s2 r s4 hps3
      have hts4 : (s4.cpu_data s4.cpu).ts = r.ts := by
        rcases h4.2.1 with h | h
        · rw [h]; exact hts
        · exact h
      obtain ⟨ret3, cd3, hw3, hcase3⟩ := record_step_shape type count_limit percpu s4 r s3 hrs3
      rcases hcase3 with ⟨_, hs3⟩ | ⟨hret3, _⟩
      · refine ⟨(s4.cpu_data s4.cpu).index, ?_⟩
        rw [hs3, (consume_shape type count_limit percpu s4 r cd3).1, h4.1, hcpu, getLast_snoc]
      · exact absurd hts4 ((write_record_ts _ _ _ _ _ hw3).2 hret3)
  · intro h31 hfr
    cases hps3 : page_step type count_limit s2 r with
    | mk b1 s4 =>
      cases b1 with
      | true =>
        refine ⟨(true, s4), ?_⟩
        unfold loop_body
        rw [hps3]
      | false =>
        have h4 := page_step_ts type count_limit s2 r s4 hps3
        obtain ⟨p, hp⟩ := Option.ne_none_iff_exists'.1 (h4.2.2.1 hpage)
        obtain ⟨s3, hs3⟩ := record_step_ok type count_limit percpu s4 r p hp h31 hfr
        refine ⟨(false, s3), ?_⟩
        unfold loop_body
        rw [hps3]
        simp only
        rw [hs3]

set_option maxRecDepth 100000 in
/-- Witness of C18: the second record of the capture `far_record_handle` lies
more than `1 << 27` after the first; the pass that writes its TIME_EXTEND leaves
it in hand with delta 0. -/
theorem loop_body_retry_witness :
    (body_state (loop_body .SPLIT_NONE 0 true retry_state (demo_record (101 + 2 ^ 27) 36 0))
      retry_state).log = [Event.extended 0 (demo_record (101 + 2 ^ 27) 36 0) 24] ∧
    (body_state (loop_body .SPLIT_NONE 0 true retry_state (demo_record (101 + 2 ^ 27) 36 0))
      retry_state).record = some (demo_record (101 + 2 ^ 27) 36 0) ∧
    ts_diff (demo_record (101 + 2 ^ 27) 36 0)
      ((body_state (loop_body .SPLIT_NONE 0 true retry_state
        (demo_record (101 + 2 ^ 27) 36 0)) retry_state).cpu_data
        (body_state (loop_body .SPLIT_NONE 0 true retry_state
          (demo_record (101 + 2 ^ 27) 36 0)) retry_state).cpu) = 0 :=
  ⟨rfl,
   (loop_body_retry .SPLIT_NONE 0 true retry_state (demo_record (101 + 2 ^ 27) 36 0)
      (body_state (loop_body .SPLIT_NONE 0 true retry_state (demo_record (101 + 2 ^ 27) 36 0))
        retry_state) 0 (demo_record (101 + 2 ^ 27) 36 0) 24 rfl (by rfl) (by rfl)).1,
   (loop_body_retry .SPLIT_NONE 0 true retry_state (demo_record (101 + 2 ^ 27) 36 0)
      (body_state (loop_body .SPLIT_NONE 0 true retry_state (demo_record (101 + 2 ^ 27) 36 0))
        retry_state) 0 (demo_record (101 + 2 ^ 27) 36 0) 24 rfl (by rfl) (by rfl)).2.2.2.2.1⟩

/-- C18 (counterexample): with `SPLIT_PAGES` and a limit of one page, the second
record of the capture `far_record_handle` gets its TIME_EXTEND at offset 24 of
the first page; the retry needs a second page, the limit leaves the loop, and
the record is never appended: the log ends with the flush of the first page. -/
theorem retry_stopped_by_page_limit :
    run_keys (parse_cpu far_record_handle demo_cpu_data 0 0 1 true 0 .SPLIT_PAGES)
      = some [(0, 0, 100, 0), (2, 0, 100, 16), (3, 0, 134217829, 24),
              (1, 0, 134217829, 32)] := by
  decide

/-! ## What `write_record` changes in the page -/

/-- The frame of `write_record`: it changes the page only from `index` up to the
new `index`, which lies at least 8 bytes further; it leaves `commit` and
`missed_events` alone; and when it wrote the record (return value 1) the word at
the old `index` is the header of a normal record with the delta and the
`len_field` of the record. -/
theorem write_record_frame (pevent : tep_handle) (record : tep_record) (cd cd2 : cpu_data)
    (ret : Nat) (hw : write_record pevent record cd = .ok (ret, cd2)) :
    ∃ page page2, cd.page = some page ∧ cd2.page = some page2 ∧
      cd.index + 8 ≤ cd2.index ∧ cd2.commit = cd.commit ∧
      cd2.missed_events = cd.missed_events ∧
      (∀ i, i < cd.index ∨ cd2.index ≤ i → page2 i = page i) ∧
      (ret = 1 → mem_read page2 cd.index 4
        = file_bytes pevent 4
            (type_len_word pevent (ts_diff record cd % 2 ^ 32) (inline_len record))) := by
  unfold write_record at hw
  cases hp : cd.page with
  | none => simp [hp] at hw
  | some page =>
    simp only [hp] at hw
    have hhead : ∀ v, mem_read (mem_write page cd.index (host_bytes pevent 4 v)) cd.index 4
        = host_bytes pevent 4 v := by
      intro v
      have := mem_read_mem_write_same page cd.index (host_bytes pevent 4 v)
      rw [host_bytes_length] at this
      exact this
    by_cases hd : (record.ts + 2 ^ 64 - cd.ts) % 2 ^ 64 > 1 <<< 27
    · rw [if_pos hd] at hw
      injection hw with hw
      injection hw with h1 h2
      subst h1 h2
      refine ⟨page, _, rfl, rfl, le_refl _, rfl, rfl, ?_, fun h => absurd h (by decide)⟩
      intro i hi
      simp only at hi
      rw [mem_write_outside _ _ _ _ (by rw [host_bytes_length]; omega),
        mem_write_outside _ _ _ _ (by rw [host_bytes_length]; omega)]
    · rw [if_neg hd] at hw
      by_cases hl : (if record.size ≠ 0 ∧ record.size ≤ 28 * 4 then record.size / 4 else 0) = 0
      · rw [if_pos hl] at hw
        by_cases hrs : record.size + 4 + 4 > record.record_size
        · rw [if_pos hrs] at hw
          cases hw
        · rw [if_neg hrs] at hw
          injection hw with hw
          injection hw with h1 h2
          subst h1 h2
          refine ⟨page, _, rfl, rfl, by simp only; omega, rfl, rfl, ?_, fun _ => ?_⟩
          · intro i hi
            simp only at hi
            rw [mem_write_outside _ _ _ _ (by rw [mem_read_length]; omega),
              mem_write_outside _ _ _ _ (by rw [host_bytes_length]; omega),
              mem_write_outside _ _ _ _ (by rw [host_bytes_length]; omega)]
          · rw [mem_read_mem_write_disjoint _ _ _ _ _ (Or.inl (by omega)),
              mem_read_mem_write_disjoint _ _ _ _ _ (Or.inl (by omega)), hhead,
              host_bytes_create_type_len]
            rfl
      · rw [if_neg hl] at hw
        injection hw with hw
        injection hw with h1 h2
        subst h1 h2
        have hsz : 4 ≤ record.size ∧ record.size ≤ 112 := by
          by_cases hc : record.size ≠ 0 ∧ record.size ≤ 28 * 4
          · rw [if_pos hc] at hl
            omega
          · rw [if_neg hc] at hl
            exact absurd rfl hl
        have hpad : (record.size + 3) &&& 0xFFFFFFFC = (record.size + 3) / 4 * 4 :=
          land_not_3 _ (by omega)
        refine ⟨page, _, rfl, rfl, by simp only; omega, rfl, rfl, ?_, fun _ => ?_⟩
        · intro i hi
          simp only at hi
          rw [mem_write_outside _ _ _ _ (by rw [mem_read_length]; omega),
            mem_write_outside _ _ _ _ (by rw [host_bytes_length]; omega)]
        · rw [mem_read_mem_write_disjoint _ _ _ _ _ (Or.inl (by omega)), hhead,
            host_bytes_create_type_len]
          rfl

/-! ## The unused tail of a flushed page -/

theorem tail_zero_fact (h : tracecmd_input) : page_fact (fun _ => True) (tail_zero h) h := by
  refine ⟨?_, ?_, ?_⟩
  · intro cd page record _
    refine ⟨rfl, le_refl _, ?_⟩
    intro page2 i hp hi hlt
    simp only [start_page, Option.some.injEq] at hp hi
    subst hp
    rw [mem_write_outside _ _ _ _ (by rw [host_bytes_length]; omega)]
    unfold mem_zero
    rw [if_pos hlt]
  · intro r record cd ret cd2 hQ _ _ hw
    obtain ⟨page, page2, hp, hp2, hidx, hc, _, hfr, _⟩ :=
      write_record_frame h.pevent record _ cd2 ret hw
    simp only at hp hidx hc hfr
    refine ⟨hc.trans hQ.1, by have := hQ.2.1; omega, ?_⟩
    intro page3 i hp3 hi hlt
    rw [hp2] at hp3
    injection hp3 with hp3
    subst hp3
    rw [hfr i (Or.inr hi)]
    exact hQ.2.2 page i hp (by omega) hlt
  · intro r cd hQ
    exact hQ

theorem mem_read_get (m : Mem) (off n i : Nat) (hi : i < n) :
    (mem_read m off n)[i]? = some (m (off + i)) := by
  unfold mem_read
  simp [List.getElem?_map, List.getElem?_range, hi]

/-- The page that `write_page` hands to `write` is zero behind the missed-events
count (behind `index` when there is none), when the rest of the page was clean. -/
theorem write_page_tail (h : tracecmd_input) (r : tep_record) (cd : cpu_data)
    (hl : h.long_size = 4 ∨ h.long_size = 8) (hp : cd.page ≠ none)
    (hQ : tail_zero h r cd) :
    (page_image h.page_size (write_page h.pevent cd h.long_size)).length = h.page_size ∧
    ∀ i, cd.index + (if cd.missed_events ≠ 0 then 8 else 0) ≤ i → i < h.page_size →
      (page_image h.page_size (write_page h.pevent cd h.long_size))[i]? = some 0 := by
  obtain ⟨page, hpage⟩ := Option.ne_none_iff_exists'.1 hp
  unfold page_image
  rw [write_page_page h.pevent cd h.long_size page hpage]
  refine ⟨mem_read_length _ _ _, ?_⟩
  intro i hi hlt
  rw [mem_read_get _ _ _ _ hlt, Nat.zero_add]
  have hc := hQ.1
  have hlo := hQ.2.1
  have hcommit : ∀ w v, w ≤ h.long_size →
      mem_write page cd.commit (host_bytes h.pevent w v) i = 0 := by
    intro w v hw
    rw [mem_write_outside _ _ _ _ (by rw [host_bytes_length]; omega)]
    exact hQ.2.2 page i hpage (by omega) hlt
  have hfirst : (if h.long_size = 8 then
        mem_write page cd.commit
          (host_bytes h.pevent 8 (tep_read_var h.pevent 8 (commit_value cd h.long_size)))
      else
        mem_write page cd.commit
          (host_bytes h.pevent 4 (tep_read_var h.pevent 4 (commit_value cd h.long_size)))) i
      = 0 := by
    by_cases h8 : h.long_size = 8
    · rw [if_pos h8]
      exact hcommit 8 _ (by omega)
    · rw [if_neg h8]
      exact hcommit 4 _ (by omega)
  unfold write_page_mem
  rw [missed_ptr_eq]
  by_cases hm : cd.missed_events ≠ 0
  · rw [if_pos hm] at hi ⊢
    simp only
    rw [mem_write_outside _ _ _ _ (by rw [host_bytes_length]; omega)]
    exact congrArg some hfirst
  · rw [if_neg hm]
    simp only
    exact congrArg some hfirst

/-- C19: no run of `parse_cpu` ends for want of fuel, and for every page that a
run flushes, the image handed to `write` has exactly `page_size` bytes, and
every byte of it at an offset from `index` on (from `index + 8` on when the
builder holds a missed-events count, which is when `write_page` sets
MISSING_STORED) is zero. -/
theorem parse_cpu_flushed_tail_zero (handle : tracecmd_input) (cpu_data : Nat → cpu_data)
    (start stop count_limit : Nat) (percpu : Bool) (cpu0 : Nat) (type : split_types)
    (hl : handle.long_size = 4 ∨ handle.long_size = 8) :
    parse_cpu handle cpu_data start stop count_limit percpu cpu0 type ≠ .error .out_of_fuel ∧
    ∀ s, parse_cpu handle cpu_data start stop count_limit percpu cpu0 type = .ok s →
      ∀ c cd, Event.flushed c cd ∈ s.log →
        (page_image handle.page_size cd).length = handle.page_size ∧
        ∀ i, cd.index + (if cd.missed_events ≠ 0 then 8 else 0) ≤ i → i < handle.page_size →
          (page_image handle.page_size cd)[i]? = some 0 := by
  refine ⟨parse_cpu_fuel handle cpu_data start stop count_limit percpu cpu0 type, ?_⟩
  intro s hrun c cd hmem
  have hpg := parse_cpu_pages (fun _ => True) (tail_zero handle) handle cpu_data start
    stop count_limit percpu cpu0 type s (tail_zero_fact handle) (fun _ _ _ => trivial) hrun
  obtain ⟨l1, l2, _, hfl⟩ := Every_mem _ _ _ hpg.1 hmem
  obtain ⟨r, cd0, _, hp0, hQ, hcd⟩ := hfl c cd rfl
  have hf := write_page_fields handle.pevent cd0 handle.long_size
  have ht := write_page_tail handle r cd0 hl hp0 hQ
  rw [hcd, hf.1, hf.2.2.1]
  exact ht

/-- Witness of C19: the two pages of the example capture; the first is full, the
second holds the missed-events count 7 at its `index` 40 and zeros behind it. -/
theorem parse_cpu_flushed_tail_zero_witness :
    (flushed_builders (final_state
        (parse_cpu demo_handle demo_cpu_data 0 0 0 true 0 .SPLIT_NONE)
        (empty_state demo_handle)).log).map
      (fun cd => (cd.index, cd.missed_events, (page_image 64 cd).drop cd.index))
      = [(64, 0, []),
         (40, 7, [7, 0, 0, 0, 0, 0, 0, 0, 0, 0, 0, 0, 0, 0, 0, 0, 0, 0, 0, 0, 0, 0, 0, 0])] ∧
    ∀ c cd, Event.flushed c cd ∈ (final_state
        (parse_cpu demo_handle demo_cpu_data 0 0 0 true 0 .SPLIT_NONE)
        (empty_state demo_handle)).log →
      (page_image demo_handle.page_size cd).length = demo_handle.page_size ∧
      ∀ i, cd.index + (if cd.missed_events ≠ 0 then 8 else 0) ≤ i → i < demo_handle.page_size →
        (page_image demo_handle.page_size cd)[i]? = some 0 :=
  ⟨by decide,
   (parse_cpu_flushed_tail_zero demo_handle demo_cpu_data 0 0 0 true 0 .SPLIT_NONE
    (by decide)).2 _ demo_run⟩

/-! ## Every flushed page holds its first record -/

/-- An event on another CPU leaves the open page of `c` alone. -/
theorem open_at_other (l : List Event) (e : Event) (c : Nat) (hc : e.cpu ≠ c) :
    open_at (l ++ [e]) c = open_at l c := by
  apply open_at_append_of_not_page
  rintro (⟨r, h⟩ | ⟨cd, h⟩) <;> subst h <;> exact hc rfl

/-- The state between the first `if` of the body and the call of `write_record`,
under the invariant `started_inv`. -/
theorem started_inv_page_step (h : tracecmd_input) (percpu : Bool) (cpu0 : Nat)
    (type : split_types) (count_limit : Nat) (s : parse_state) (r : tep_record)
    (s1 : parse_state) (hinv : started_inv h percpu cpu0 s) (hr : s.record = some r)
    (hps : page_step type count_limit s r = (false, s1)) :
    s1.cpu = s.cpu ∧ s1.handle = s.handle ∧
    Every (flush_ok h (first_written h)) s1.log ∧ Every (after_open_ok h) s1.log ∧
    (∀ c r0, c ≠ s.cpu → open_at s1.log c = some r0 → first_written h r0 (s1.cpu_data c)) ∧
    ((s1 = s) ∨
     (s1.log.getLast? = some (Event.opened s.cpu r) ∧ open_at s1.log s.cpu = some r ∧
      ∃ cd0 page, s1.cpu_data s.cpu = start_page h cd0 page r)) := by
  obtain ⟨hpi, hopen, hfl, hao, hlast⟩ := hinv
  have hst := hpi.1.1
  have hrel : relevant percpu cpu0 h.cpus s.cpu :=
    relevant_of_iter _ h percpu cpu0 (s.record, s.cpu, s.handle) hpi.1 (by simp [hr])
  rcases page_step_shape type count_limit s r false s1 hps with hc | hc | hc
  · exact absurd hc.1 (by decide)
  · rw [hc.2.1]
    exact ⟨rfl, rfl, hfl, hao, fun c r0 _ ho => hopen c r0 ho, Or.inl rfl⟩
  · have hs := new_page_shape
      { s with pages := if type = .SPLIT_PAGES then s.pages + 1 else s.pages } r
    rw [← hc.2.2.2] at hs
    obtain ⟨_, hcpu, hhandle, _, _, _, hother, hcase⟩ := hs
    simp only at hcpu hhandle hother hcase
    refine ⟨hcpu, hhandle, ?_⟩
    rcases hcase with ⟨hnone, hcd, hlog⟩ | ⟨hsome, hcd, hlog⟩
    · rw [hlog]
      refine ⟨Every_append_one _ _ _ hfl (fun c cd he => by cases he),
        Every_append_one _ _ _ hao (fun c r0 hl => absurd hl (hlast c r0)), ?_, Or.inr ⟨?_, ?_, ?_⟩⟩
      · intro c r0 hne ho
        rw [open_at_other _ (Event.opened s.cpu r) _ (fun e => hne e.symm)] at ho
        rw [hother c hne]
        exact hopen c r0 ho
      · exact getLast_snoc _ _
      · rw [open_at_append]
        exact Function.update_same _ _ _
      · exact ⟨_, _, hcd.trans (start_page_static s.handle h hst _ _ _)⟩
    · have hlog2 : s1.log = (s.log ++
          [Event.flushed s.cpu (write_page s.handle.pevent (s.cpu_data s.cpu)
            s.handle.long_size)]) ++ [Event.opened s.cpu r] := by
        rw [hlog]; simp
      rw [hlog2]
      have hop0 : ∃ r0, open_at s.log s.cpu = some r0 := by
        rcases Option.eq_none_or_eq_some (open_at s.log s.cpu) with hn | ⟨r0, hn⟩
        · exact absurd (hpi.2.2.2.1 s.cpu hn hrel) hsome
        · exact ⟨r0, hn⟩
      obtain ⟨r0, hop0⟩ := hop0
      refine ⟨Every_append_one _ _ _ (Every_append_one _ _ _ hfl ?_)
          (fun c cd he => by cases he),
        Every_append_one _ _ _ (Every_append_one _ _ _ hao
          (fun c r1 hl => absurd hl (hlast c r1))) ?_, ?_, Or.inr ⟨?_, ?_, ?_⟩⟩
      · intro c cd he
        injection he with h1 h2
        subst h1 h2
        exact ⟨r0, s.cpu_data s.cpu, hop0, hsome, hopen _ _ hop0, by rw [hst.1, hst.2.1]⟩
      · intro c r1 hl
        rw [getLast_snoc] at hl
        cases hl
      · intro c r1 hne ho
        rw [open_at_other _ (Event.opened s.cpu r) _ (fun e => hne e.symm),
          open_at_other _ (Event.flushed s.cpu _) _ (fun e => hne e.symm)] at ho
        rw [hother c hne]
        exact hopen c r1 ho
      · exact getLast_snoc _ _
      · rw [open_at_append]
        exact Function.update_same _ _ _
      · exact ⟨_, _, hcd.trans (start_page_static s.handle h hst _ _ _)⟩

/-- The fact `first_written` survives a call of `write_record` on the page. -/
theorem first_written_write (h : tracecmd_input) (r0 record : tep_record) (cd cd2 : cpu_data)
    (ret : Nat) (hQ : first_written h r0 cd)
    (hw : write_record h.pevent record { cd with offset := record.offset } = .ok (ret, cd2)) :
    first_written h r0 cd2 := by
  obtain ⟨page, page2, hp, hp2, hidx, hc, _, hfr, _⟩ :=
    write_record_frame h.pevent record _ cd2 ret hw
  simp only at hp hidx hc hfr
  obtain ⟨h1, h2, h3, h4⟩ := hQ
  refine ⟨hc.trans h1, by omega, ?_, ?_⟩
  · rw [← h3]
    unfold page_read
    rw [hp, hp2]
    exact mem_read_congr _ _ _ _ (fun i _ hi => hfr i (Or.inl (by omega)))
  · rw [← h4]
    unfold page_read
    rw [hp, hp2]
    exact mem_read_congr _ _ _ _ (fun i _ hi => hfr i (Or.inl (by omega)))

/-- The first call of `write_record` on a page started for the record leaves
`first_written`, and it returns 1. -/
theorem first_written_start (h : tracecmd_input) (record : tep_record) (cd0 cd2 : cpu_data)
    (pg : Mem) (ret : Nat)
    (hw : write_record h.pevent record
      { start_page h cd0 pg record with offset := record.offset } = .ok (ret, cd2)) :
    ret = 1 ∧ first_written h record cd2 := by
  have hret : ret = 1 := by
    rcases (write_record_page _ _ _ _ _ hw).2.2 with h0 | h1
    · exact absurd rfl ((write_record_ts _ _ _ _ _ hw).2 h0)
    · exact h1
  obtain ⟨page, page2, hp, hp2, hidx, hc, _, hfr, hhdr⟩ :=
    write_record_frame h.pevent record _ cd2 ret hw
  have hd : ts_diff record { start_page h cd0 pg record with offset := record.offset } = 0 :=
    ts_diff_self _ _ rfl
  have hh := hhdr hret
  rw [hd] at hh
  simp only [start_page, Option.some.injEq] at hp hidx hc hfr hh
  refine ⟨hret, hc, by omega, ?_, ?_⟩
  · unfold page_read
    rw [hp2]
    simp only
    rw [mem_read_congr page2 page 0 8 (fun i _ hi => hfr i (Or.inl (by omega))), ← hp,
      ← host_bytes_tep_read_var]
    have := mem_read_mem_write_same (mem_zero pg h.page_size) 0
      (host_bytes h.pevent 8 (tep_read_var h.pevent 8 record.ts))
    rw [host_bytes_length] at this
    exact this
  · unfold page_read
    rw [hp2]
    simp only
    exact hh

/-- The invariant `started_inv` survives a pass through the body of the main loop. -/
theorem started_inv_loop_body (h : tracecmd_input) (percpu : Bool) (cpu0 : Nat)
    (type : split_types) (count_limit : Nat) (s : parse_state) (r : tep_record) (b : Bool)
    (s2 : parse_state) (hinv : started_inv h percpu cpu0 s) (hr : s.record = some r)
    (hstep : loop_body type count_limit percpu s r = .ok (b, s2)) :
    started_inv h percpu cpu0 s2 := by
  have hpi2 := pages_inv_loop_body _ _ h percpu cpu0 (page_fact_trivial _ h) type count_limit
    s r b s2 hinv.1 hr hstep
  rcases loop_body_shape type count_limit percpu s r b s2 hstep with ⟨_, hps⟩ | ⟨_, s1, hps, hrs⟩
  · rcases page_step_shape type count_limit s r true s2 hps with hc | hc | hc
    · refine ⟨hpi2, ?_⟩
      rw [hc.2.2.2.1]
      exact hinv.2
    · exact absurd hc.1 (by decide)
    · exact absurd hc.1 (by decide)
  · obtain ⟨hcpu, hhandle, hfl1, hao1, hother1, hcase⟩ :=
      started_inv_page_step h percpu cpu0 type count_limit s r s1 hinv hr hps
    obtain ⟨ret, cd2, hw, hret, hlog, hcds, _, _⟩ :=
      record_step_result type count_limit percpu s1 r s2 hrs
    have hst := hinv.1.1.1
    have hrel : relevant percpu cpu0 h.cpus s.cpu :=
      relevant_of_iter _ h percpu cpu0 (s.record, s.cpu, s.handle) hinv.1.1 (by simp [hr])
    rw [hhandle, hst.1] at hw
    have hne : ∀ c, ¬ page_event c
        (if ret = 1 then Event.appended s1.cpu r (s1.cpu_data s1.cpu).index
         else Event.extended s1.cpu r (s1.cpu_data s1.cpu).index) := by
      intro c
      rcases hret with h0 | h0 <;> subst h0 <;> simp [page_event]
    have hkey : ∃ r0, open_at s1.log s1.cpu = some r0 ∧ first_written h r0 cd2 ∧
        after_open_ok h s1.log
          (if ret = 1 then Event.appended s1.cpu r (s1.cpu_data s1.cpu).index
           else Event.extended s1.cpu r (s1.cpu_data s1.cpu).index) := by
      rcases hcase with hs1 | ⟨hlast1, hop1, cd0, pg, hcd⟩
      · subst hs1
        have hpage := (write_record_page _ _ _ _ _ hw).1
        rcases Option.eq_none_or_eq_some (open_at s1.log s1.cpu) with hn | ⟨r0, hn⟩
        · exact absurd (hinv.1.2.2.2.1 s1.cpu hn hrel) hpage
        · exact ⟨r0, hn, first_written_write h r0 r _ cd2 ret (hinv.2.1 _ _ hn) hw,
            fun c1 r1 hl => absurd hl (hinv.2.2.2.2 c1 r1)⟩
      · rw [hcpu, hcd] at hw
        obtain ⟨hret1, hfw⟩ := first_written_start h r cd0 cd2 pg ret hw
        refine ⟨r, by rw [hcpu]; exact hop1, hfw, ?_⟩
        intro c1 r1 hl
        rw [hlast1] at hl
        injection hl with hl
        injection hl with h1 h2
        subst h1 h2
        rw [if_pos hret1, hcpu, hcd]
        rfl
    obtain ⟨r0, hop0, hfw0, hao0⟩ := hkey
    refine ⟨hpi2, ?_, ?_, ?_, ?_⟩
    · intro c r1 ho
      rw [hlog, open_at_append_of_not_page _ _ _ (hne c)] at ho
      by_cases hcc : c = s1.cpu
      · subst hcc
        rw [hop0] at ho
        injection ho with ho
        subst ho
        rcases hcds s1.cpu with hx | hx
        · rw [hx, Function.update_same]
          exact hfw0
        · rw [hx, Function.update_same]
          exact ⟨hfw0.1, hfw0.2.1, hfw0.2.2.1, hfw0.2.2.2⟩
      · have hfw1 := hother1 c r1 (by rw [← hcpu]; exact hcc) ho
        rcases hcds c with hx | hx
        · rw [hx, Function.update_noteq hcc]
          exact hfw1
        · rw [hx, Function.update_noteq hcc]
          exact ⟨hfw1.1, hfw1.2.1, hfw1.2.2.1, hfw1.2.2.2⟩
    · rw [hlog]
      refine Every_append_one _ _ _ hfl1 ?_
      intro c cd he
      exact absurd (Or.inr ⟨cd, he⟩) (hne c)
    · rw [hlog]
      exact Every_append_one _ _ _ hao1 hao0
    · intro c r1 hl
      rw [hlog, getLast_snoc] at hl
      injection hl with hl
      exact absurd (Or.inl ⟨r1, hl⟩) (hne c)

/-! ## The log after the final flush -/

/-- The final flush of one builder adds at most one event, a flush. -/
theorem final_flush_one_log (h : tracecmd_input) (cds : Nat → cpu_data) (log : List Event)
    (a : Nat) :
    ((cds a).page = none ∧ (final_flush_one h cds log a).2 = log) ∨
    ((cds a).page ≠ none ∧
      (final_flush_one h cds log a).2
        = log ++ [Event.flushed a (write_page h.pevent (cds a) h.long_size)]) := by
  unfold final_flush_one
  cases hp : (cds a).page with
  | none => exact Or.inl ⟨rfl, rfl⟩
  | some p => exact Or.inr ⟨Option.noConfusion, rfl⟩

/-- The final flush adds only flushes to the log. -/
theorem final_flush_log (percpu : Bool) (s : parse_state) :
    ∃ fl, (final_flush percpu s).log = s.log ++ fl ∧
      ∀ e ∈ fl, ∃ c cd, e = Event.flushed c cd := by
  unfold final_flush
  cases percpu with
  | true =>
    rw [if_pos rfl]
    rcases final_flush_one_log s.handle s.cpu_data s.log s.cpu with h1 | h1
    · exact ⟨[], by simp only [h1.2, List.append_nil], fun e he => by cases he⟩
    · refine ⟨_, h1.2, fun e he => ?_⟩
      rw [List.mem_singleton] at he
      exact ⟨_, _, he⟩
  | false =>
    rw [if_neg (by decide)]
    simp only
    generalize List.range s.handle.cpus = cs
    induction cs using List.reverseRecOn with
    | nil => exact ⟨[], by simp, fun e he => by cases he⟩
    | append_singleton cs a ih =>
      rw [List.foldl_append]
      simp only [List.foldl_cons, List.foldl_nil]
      obtain ⟨fl, hfl, hall⟩ := ih
      rcases final_flush_one_log s.handle
        (cs.foldl (fun acc c => final_flush_one s.handle acc.1 acc.2 c) (s.cpu_data, s.log)).1
        (cs.foldl (fun acc c => final_flush_one s.handle acc.1 acc.2 c) (s.cpu_data, s.log)).2
        a with h1 | h1
      · exact ⟨fl, by rw [h1.2]; exact hfl, hall⟩
      · refine ⟨fl ++ [_], by rw [h1.2, hfl, List.append_assoc], fun e he => ?_⟩
        rw [List.mem_append, List.mem_singleton] at he
        rcases he with he | he
        · exact hall e he
        · exact ⟨_, _, he⟩

/-- Flushes added to a log keep it true that every page start is followed by
the append of its record. -/
theorem after_open_extend (h : tracecmd_input) (fl : List Event)
    (hall : ∀ e ∈ fl, ∃ c cd, e = Event.flushed c cd) :
    ∀ l, Every (after_open_ok h) l → (∀ c r, l.getLast? ≠ some (Event.opened c r)) →
      Every (after_open_ok h) (l ++ fl) ∧
      (∀ c r, (l ++ fl).getLast? ≠ some (Event.opened c r)) := by
  induction fl with
  | nil =>
    intro l h1 h2
    rw [List.append_nil]
    exact ⟨h1, h2⟩
  | cons e fl ih =>
    intro l h1 h2
    have he := hall e (List.mem_cons_self _ _)
    obtain ⟨c0, cd0, he⟩ := he
    have := ih (fun x hx => hall x (List.mem_cons_of_mem _ hx)) (l ++ [e])
      (Every_append_one _ _ _ h1 (fun c r hl => absurd hl (h2 c r)))
      (fun c r hl => by
        rw [getLast_snoc, he] at hl
        cases hl)
    rw [List.append_assoc] at this
    exact this

/-- In a log in which every page start is followed by the append of its record,
and which does not end with a page start, the event after a page start is the
append of the record at the first offset behind the page header. -/
theorem opened_then_appended (h : tracecmd_input) (log : List Event)
    (h1 : Every (after_open_ok h) log) (h2 : ∀ c r, log.getLast? ≠ some (Event.opened c r))
    (l1 l2 : List Event) (c : Nat) (r : tep_record)
    (hsplit : log = l1 ++ Event.opened c r :: l2) :
    ∃ l3, l2 = Event.appended c r (8 + h.long_size) :: l3 := by
  cases l2 with
  | nil =>
    exact absurd (by rw [hsplit]; exact getLast_snoc _ _) (h2 c r)
  | cons e l3 =>
    have := h1 (l1 ++ [Event.opened c r]) e l3 (by rw [hsplit]; simp) c r (getLast_snoc _ _)
    exact ⟨l3, by rw [this]⟩

/-- The call `write_page` leaves alone the bytes of the page that lie before
`index` and outside of the commit slot. -/
theorem write_page_keeps (h : tracecmd_input) (cd : cpu_data)
    (hl : h.long_size = 4 ∨ h.long_size = 8) (hc : cd.commit = 8) (off n : Nat)
    (ho : off + n ≤ 8 ∨ 8 + h.long_size ≤ off) (hi : off + n ≤ cd.index) :
    page_read (write_page h.pevent cd h.long_size) off n = page_read cd off n := by
  unfold page_read
  cases hp : cd.page with
  | none =>
    unfold write_page
    simp [hp]
  | some page =>
    rw [write_page_page h.pevent cd h.long_size page hp]
    simp only
    unfold write_page_mem
    rw [missed_ptr_eq]
    have hfirst : mem_read (if h.long_size = 8 then
        mem_write page cd.commit
          (host_bytes h.pevent 8 (tep_read_var h.pevent 8 (commit_value cd h.long_size)))
      else
        mem_write page cd.commit
          (host_bytes h.pevent 4 (tep_read_var h.pevent 4 (commit_value cd h.long_size))))
        off n = mem_read page off n := by
      by_cases h8 : h.long_size = 8
      · rw [if_pos h8]
        exact mem_read_mem_write_disjoint _ _ _ _ _ (by rw [host_bytes_length]; omega)
      · rw [if_neg h8]
        exact mem_read_mem_write_disjoint _ _ _ _ _ (by rw [host_bytes_length]; omega)
    by_cases hm : cd.missed_events ≠ 0
    · rw [if_pos hm]
      simp only
      rw [mem_read_mem_write_disjoint _ _ _ _ _ (Or.inl hi)]
      exact hfirst
    · rw [if_neg hm]
      exact hfirst

theorem read_long_eq (pevent : tep_handle) (cd : cpu_data) (off : Nat) :
    read_long pevent cd off = of_file_bytes pevent (page_read cd off 8) := by
  unfold read_long page_read
  cases cd.page with
  | none => cases hb : pevent.file_bigendian <;> simp [of_file_bytes, hb, of_be_bytes, of_le_bytes]
  | some p => rfl

theorem read_word_eq (pevent : tep_handle) (cd : cpu_data) (off : Nat) :
    read_word pevent cd off = of_file_bytes pevent (page_read cd off 4) := by
  unfold read_word page_read
  cases cd.page with
  | none => cases hb : pevent.file_bigendian <;> simp [of_file_bytes, hb, of_be_bytes, of_le_bytes]
  | some p => rfl

theorem inline_len_le (r : tep_record) : inline_len r ≤ 28 := by
  unfold inline_len
  split <;> omega

/-- A page that holds its first record shows it to the reader after the flush. -/
theorem first_written_flushed (h : tracecmd_input) (r : tep_record) (cd : cpu_data)
    (hl : h.long_size = 4 ∨ h.long_size = 8) (hQ : first_written h r cd) :
    page_well_started h r (write_page h.pevent cd h.long_size) := by
  obtain ⟨hc, hidx, hts, hhdr⟩ := hQ
  have h0 : page_read (write_page h.pevent cd h.long_size) 0 8 = file_bytes h.pevent 8 r.ts := by
    rw [write_page_keeps h cd hl hc 0 8 (Or.inl (by omega)) (by omega)]
    exact hts
  have h1 : read_word h.pevent (write_page h.pevent cd h.long_size) (8 + h.long_size)
      = type_len_word h.pevent 0 (inline_len r) := by
    rw [read_word_eq, write_page_keeps h cd hl hc _ 4 (Or.inr (le_refl _)) (by omega), hhdr,
      of_file_bytes_file_bytes]
    exact Nat.mod_eq_of_lt (by have := type_len_word_lt h.pevent 0 (inline_len r); omega)
  have hle := inline_len_le r
  have hdec := header_decode h.pevent 0 (inline_len r) (by norm_num) (by omega)
  refine ⟨by rw [(write_page_fields h.pevent cd h.long_size).1]; exact hidx, h0, ?_, ?_, hle, ?_⟩
  · rw [read_long_eq, h0, of_file_bytes_file_bytes]
    norm_num
  · rw [h1]
    exact hdec.2
  · rw [h1]
    exact hdec.1

/-- The invariant `started_inv` holds at the end of the main loop of a run. -/
theorem parse_cpu_started (handle : tracecmd_input) (cpu_data : Nat → cpu_data)
    (start stop count_limit : Nat) (percpu : Bool) (cpu0 : Nat) (type : split_types)
    (s : parse_state)
    (hrun : parse_cpu handle cpu_data start stop count_limit percpu cpu0 type = .ok s) :
    ∃ s1, started_inv handle percpu cpu0 s1 ∧ s = final_flush percpu s1 := by
  refine parse_cpu_inv (started_inv handle percpu cpu0) handle cpu_data start stop count_limit
    percpu cpu0 type s ?_ ?_ hrun
  · intro s0 hs0
    have hlog := (parse_start_spec handle cpu_data start percpu cpu0 s0 hs0).1
    refine ⟨parse_start_inv _ _ handle cpu_data start percpu cpu0 s0
      (parse_start_iter (fun _ => True) handle cpu_data start percpu cpu0 s0
        (fun _ _ _ => trivial) hs0) hs0, ?_, ?_, ?_, ?_⟩
    · intro c r ho
      rw [hlog] at ho
      cases ho
    · rw [hlog]
      exact Every_nil _
    · rw [hlog]
      exact Every_nil _
    · intro c r hl
      rw [hlog] at hl
      cases hl
  · intro st r b s2 hP hr _ hb
    exact started_inv_loop_body handle percpu cpu0 type count_limit st r b s2 hP hr hb

/-- C17: no run of `parse_cpu` ends for want of fuel, and in the log of a run
every page start for a record `r` is followed at once by the append of `r` at
the offset `8 + long_size`, and later by the flush of that page, with no other
page of the CPU started or flushed in between; every flush is the flush of a
page started so; and the flushed page is `page_well_started`: `index` lies at
least 8 bytes behind the page header (the page is not empty), its first 8 bytes
are the timestamp of `r`, and the header word at `8 + long_size` is that of a
normal record (`len_field` at most 28, not the 30 of a TIME_EXTEND) with delta 0. -/
theorem parse_cpu_page_started (handle : tracecmd_input) (cpu_data : Nat → cpu_data)
    (start stop count_limit : Nat) (percpu : Bool) (cpu0 : Nat) (type : split_types)
    (hl : handle.long_size = 4 ∨ handle.long_size = 8) :
    parse_cpu handle cpu_data start stop count_limit percpu cpu0 type ≠ .error .out_of_fuel ∧
    ∀ s, parse_cpu handle cpu_data start stop count_limit percpu cpu0 type = .ok s →
      (∀ l1 l2 c r, s.log = l1 ++ Event.opened c r :: l2 →
        ∃ l3 cd l4, l2 = Event.appended c r (8 + handle.long_size) :: l3 ++
            Event.flushed c cd :: l4 ∧
          (∀ e ∈ l3, ¬ page_event c e) ∧ page_well_started handle r cd) ∧
      (∀ l1 l2 c cd, s.log = l1 ++ Event.flushed c cd :: l2 →
        ∃ r, open_at l1 c = some r ∧ page_well_started handle r cd) := by
  refine ⟨parse_cpu_fuel handle cpu_data start stop count_limit percpu cpu0 type, ?_⟩
  intro s hrun
  obtain ⟨s1, ⟨hpi, hop, hfl, hao, hlast⟩, hs⟩ :=
    parse_cpu_started handle cpu_data start stop count_limit percpu cpu0 type s hrun
  have hpi2 : pages_inv (fun _ => True) (first_written handle) handle percpu cpu0 s1 :=
    ⟨hpi.1, hpi.2.1, fun c r ho => ⟨(hpi.2.2.1 c r ho).1, hop c r ho⟩, hpi.2.2.2.1, hfl,
      hpi.2.2.2.2.2.1, hpi.2.2.2.2.2.2⟩
  have hff := pages_inv_final_flush _ _ handle percpu cpu0 s1 hpi2
  obtain ⟨fl, hfl2, hall⟩ := final_flush_log percpu s1
  have hext := after_open_extend handle fl hall s1.log hao hlast
  rw [← hfl2, ← hs] at hext
  rw [← hs] at hff
  constructor
  · intro l1 l2 c r hsplit
    obtain ⟨l3a, hl3a⟩ := opened_then_appended handle s.log hext.1 hext.2 l1 l2 c r hsplit
    obtain ⟨l3, cd0, l4, h1, h2, _, hQ⟩ := opened_page_flushed (first_written handle) handle
      s.log hff.1 hff.2.1 hff.2.2.2 l1 l2 c r hsplit
    cases l3 with
    | nil =>
      rw [hl3a] at h1
      simp at h1
    | cons e l3b =>
      rw [hl3a] at h1
      simp only [List.cons_append, List.cons.injEq] at h1
      refine ⟨l3b, _, l4, ?_, fun x hx => h2 x (List.mem_cons_of_mem _ hx),
        first_written_flushed handle r cd0 hl hQ⟩
      rw [hl3a, h1.2]
      rfl
  · intro l1 l2 c cd hsplit
    obtain ⟨r, cd0, ho, _, hQ, hcd⟩ := hff.1 l1 _ l2 hsplit c cd rfl
    exact ⟨r, ho, by rw [hcd]; exact first_written_flushed handle r cd0 hl hQ⟩

/-- Witness of C17: the two pages of the example capture start with the
timestamps 100 and 130 and with a normal record of `len_field` 1 and delta 0. -/
theorem parse_cpu_page_started_witness :
    (flushed_builders (final_state
        (parse_cpu demo_handle demo_cpu_data 0 0 0 true 0 .SPLIT_NONE)
        (empty_state demo_handle)).log).map
      (fun cd => (read_long demo_handle.pevent cd 0,
        header_len_field demo_handle.pevent (read_word demo_handle.pevent cd 16),
        header_delta demo_handle.pevent (read_word demo_handle.pevent cd 16)))
      = [(100, 1, 0), (130, 1, 0)] ∧
    ∀ l1 l2 c cd, (final_state
        (parse_cpu demo_handle demo_cpu_data 0 0 0 true 0 .SPLIT_NONE)
        (empty_state demo_handle)).log = l1 ++ Event.flushed c cd :: l2 →
      ∃ r, open_at l1 c = some r ∧ page_well_started demo_handle r cd :=
  ⟨by decide,
   ((parse_cpu_page_started demo_handle demo_cpu_data 0 0 0 true 0 .SPLIT_NONE
    (by decide)).2 _ demo_run).2⟩

/-! ## The page limit of `SPLIT_PAGES` -/

theorem page_starts_opened (l : List Event) (c : Nat) (r : tep_record) :
    page_starts (l ++ [Event.opened c r]) = page_starts l + 1 := by
  simp [page_starts, List.countP_append]

theorem page_starts_flushed (l : List Event) (c : Nat) (cd : cpu_data) :
    page_starts (l ++ [Event.flushed c cd]) = page_starts l := by
  simp [page_starts, List.countP_append]

theorem page_starts_record (l : List Event) (c : Nat) (r : tep_record) (i ret : Nat) :
    page_starts (l ++ [if ret = 1 then Event.appended c r i else Event.extended c r i])
      = page_starts l := by
  by_cases h : ret = 1 <;> simp [page_starts, List.countP_append, h]

theorem flushed_builders_opened (l : List Event) (c : Nat) (r : tep_record) :
    flushed_builders (l ++ [Event.opened c r]) = flushed_builders l := by
  simp [flushed_builders, List.filterMap_append]

theorem flushed_builders_flushed (l : List Event) (c : Nat) (cd : cpu_data) :
    flushed_builders (l ++ [Event.flushed c cd]) = flushed_builders l ++ [cd] := by
  simp [flushed_builders, List.filterMap_append]

theorem flushed_builders_record (l : List Event) (c : Nat) (r : tep_record) (i ret : Nat) :
    flushed_builders (l ++ [if ret = 1 then Event.appended c r i else Event.extended c r i])
      = flushed_builders l := by
  by_cases h : ret = 1 <;> simp [flushed_builders, List.filterMap_append, h]

/-- The invariant `pages_count_inv` survives a pass through the body of the loop. -/
theorem pages_count_loop_body (h : tracecmd_input) (cpu0 n : Nat) (s : parse_state)
    (r : tep_record) (b : Bool) (s2 : parse_state) (hinv : pages_count_inv h cpu0 n s)
    (hr : s.record = some r)
    (hstep : loop_body .SPLIT_PAGES n true s r = .ok (b, s2)) :
    pages_count_inv h cpu0 n s2 := by
  obtain ⟨hpi, hmin, hfl⟩ := hinv
  have hpi2 := pages_inv_loop_body _ _ h true cpu0 (page_fact_trivial _ h) .SPLIT_PAGES n
    s r b s2 hpi hr hstep
  have hcpu : s.cpu = cpu0 := hpi.1.2.2.2.1 rfl
  rcases loop_body_shape .SPLIT_PAGES n true s r b s2 hstep with ⟨_, hps⟩ | ⟨_, s1, hps, hrs⟩
  · rcases page_step_shape .SPLIT_PAGES n s r true s2 hps with hc | hc | hc
    · refine ⟨hpi2, ?_, ?_⟩
      · rw [hc.2.2.2.1]
        simp only
        have := hc.2.2.1
        omega
      · rw [hc.2.2.2.1]
        exact hfl
    · exact absurd hc.1 (by decide)
    · exact absurd hc.1 (by decide)
  · obtain ⟨ret, cd2, hw, _, hlog, hcds, _, hpages⟩ :=
      record_step_result .SPLIT_PAGES n true s1 r s2 hrs
    have hp2 := (write_record_page _ _ _ _ _ hw).2.1
    have hp1 : (s1.cpu_data s1.cpu).page ≠ none := (write_record_page _ _ _ _ _ hw).1
    have hf1 := page_step_fields .SPLIT_PAGES n s r false s1 hps
    have hcpu1 : s1.cpu = cpu0 := hf1.2.1.trans hcpu
    have hopen2 : (s2.cpu_data cpu0).page ≠ none := by
      rcases hcds cpu0 with hx | hx
      · rw [hx, ← hcpu1, Function.update_same]
        exact hp2
      · rw [hx, ← hcpu1, Function.update_same]
        exact hp2
    have hmid : page_starts s1.log = min s1.pages n ∧
        page_starts s1.log = (flushed_builders s1.log).length + 1 := by
      rcases page_step_shape .SPLIT_PAGES n s r false s1 hps with hc | hc | hc
      · exact absurd hc.1 (by decide)
      · rw [hc.2.1] at hp1 ⊢
        rw [hcpu] at hp1
        rw [if_pos (Option.isSome_iff_ne_none.2 hp1)] at hfl
        exact ⟨hmin, hfl⟩
      · have hle := hc.2.2.1 rfl
        have hs := new_page_shape { s with pages := if split_types.SPLIT_PAGES
          = split_types.SPLIT_PAGES then s.pages + 1 else s.pages } r
        rw [← hc.2.2.2] at hs
        obtain ⟨_, _, _, _, _, hpg, _, hcase⟩ := hs
        simp only [if_true] at hpg hcase
        rcases hcase with ⟨hnone, _, hl1⟩ | ⟨hsome, _, hl1⟩
        · rw [hcpu] at hnone
          rw [if_neg (by rw [hnone]; simp)] at hfl
          rw [hl1, page_starts_opened, flushed_builders_opened, hpg]
          omega
        · rw [hcpu] at hsome
          rw [if_pos (Option.isSome_iff_ne_none.2 hsome)] at hfl
          have hl2 : s1.log = (s.log ++
              [Event.flushed s.cpu (write_page s.handle.pevent (s.cpu_data s.cpu)
                s.handle.long_size)]) ++ [Event.opened s.cpu r] := by
            rw [hl1]; simp
          rw [hl2, page_starts_opened, flushed_builders_opened, page_starts_flushed,
            flushed_builders_flushed, List.length_append, hpg]
          simp only [List.length_singleton]
          omega
    refine ⟨hpi2, ?_, ?_⟩
    · rw [hlog, page_starts_record, hpages]
      exact hmid.1
    · rw [hlog, page_starts_record, flushed_builders_record,
        if_pos (Option.isSome_iff_ne_none.2 hopen2)]
      exact hmid.2

/-- The counters when `parse_cpu` enters its main loop, and the start of the
chunk when none was requested: the timestamp of the first record. -/
theorem parse_start_counts (handle : tracecmd_input) (cpu_data : Nat → cpu_data) (start : Nat)
    (percpu : Bool) (cpu0 : Nat) (s : parse_state)
    (hs : parse_start handle cpu_data start percpu cpu0 = .ok s) :
    s.pages = 0 ∧ s.count = 0 ∧ (start = 0 → ∀ r, s.record = some r → s.start = r.ts) ∧
    (start = 0 → s.record = none → s.start = 0) := by
  unfold parse_start at hs
  simp only at hs
  split at hs
  · next hst =>
    split at hs
    · cases hs
    · injection hs with hs
      subst hs
      exact ⟨rfl, rfl, fun h0 => absurd h0 hst, fun h0 => absurd h0 hst⟩
  · next hst =>
    injection hs with hs
    subst hs
    refine ⟨rfl, rfl, fun _ r hr => ?_, fun h0 hr => ?_⟩
    · simp only at hr
      simp only [hr]
    · simp only at hr
      simp only [hr]
      exact h0

/-- The log and the counters after the final flush of a per-CPU run. -/
theorem final_flush_percpu (s : parse_state) :
    (final_flush true s).log = (final_flush_one s.handle s.cpu_data s.log s.cpu).2 ∧
    (final_flush true s).pages = s.pages ∧ (final_flush true s).count = s.count ∧
    (final_flush true s).record = s.record ∧ (final_flush true s).start = s.start :=
  ⟨rfl, rfl, rfl, rfl, rfl⟩

/-- Whatever the records, a per-CPU run of `parse_cpu` with `SPLIT_PAGES` and
the limit `n` does not end for want of fuel; in its log every event is on its
CPU, every page started is flushed, and the number of flushed pages is
`min pages n`, where `pages` counts the records that were sent to a new page:
at most `n`, and exactly `n` when a record asked for page `n + 1`; and the pass
of the loop in which a record asks for a page beyond the limit leaves the loop
with the record in hand and nothing written. -/
theorem parse_cpu_pages_counter (handle : tracecmd_input) (cpu_data : Nat → cpu_data)
    (start stop n cpu0 : Nat) :
    parse_cpu handle cpu_data start stop n true cpu0 .SPLIT_PAGES ≠ .error .out_of_fuel ∧
    (∀ s, parse_cpu handle cpu_data start stop n true cpu0 .SPLIT_PAGES = .ok s →
      (∀ e ∈ s.log, e.cpu = cpu0) ∧
      page_starts s.log = (flushed_builders s.log).length ∧
      (flushed_builders s.log).length = min s.pages n ∧
      (flushed_builders s.log).length ≤ n ∧
      (n < s.pages → (flushed_builders s.log).length = n)) ∧
    (∀ st r, needs_new_page st.handle.page_size (st.cpu_data st.cpu) r = true →
      n < st.pages + 1 →
      loop_body .SPLIT_PAGES n true st r = .ok (true, { st with pages := st.pages + 1 })) := by
  refine ⟨parse_cpu_fuel handle cpu_data start stop n true cpu0 .SPLIT_PAGES, ?_, ?_⟩
  · intro s hrun
    obtain ⟨s1, ⟨hpi, hmin, hfl⟩, hs⟩ := parse_cpu_inv (pages_count_inv handle cpu0 n)
      handle cpu_data start stop n true cpu0 .SPLIT_PAGES s
      (fun s0 hs0 => by
        have hsp := parse_start_spec handle cpu_data start true cpu0 s0 hs0
        have hc := parse_start_counts handle cpu_data start true cpu0 s0 hs0
        have hnone : (s0.cpu_data cpu0).page = none := by
          rw [hsp.2.1]
          exact (force_new_pages_spec handle.page_size handle.cpus true cpu0 cpu_data cpu0
            (by unfold relevant; rw [if_pos rfl])).1
        refine ⟨parse_start_inv _ _ handle cpu_data start true cpu0 s0
          (parse_start_iter (fun _ => True) handle cpu_data start true cpu0 s0
            (fun _ _ _ => trivial) hs0) hs0, ?_, ?_⟩
        · rw [hsp.1, hc.1]
          simp [page_starts]
        · rw [hsp.1, hnone]
          simp [page_starts, flushed_builders])
      (fun st r b s2 hP hr _ hb => pages_count_loop_body handle cpu0 n st r b s2 hP hr hb)
      hrun
    have hcpu : s1.cpu = cpu0 := hpi.1.2.2.2.1 rfl
    have hrel : ∀ e ∈ s1.log, e.cpu = cpu0 := by
      intro e he
      have := hpi.2.1 e he
      unfold relevant at this
      rw [if_pos rfl] at this
      exact this
    have hlog : (s.log = s1.log ∧ (s1.cpu_data cpu0).page = none) ∨
        ((s1.cpu_data cpu0).page ≠ none ∧ ∃ cd, s.log = s1.log ++ [Event.flushed cpu0 cd]) := by
      rw [hs, (final_flush_percpu s1).1]
      rcases final_flush_one_log s1.handle s1.cpu_data s1.log s1.cpu with h1 | h1
      · rw [hcpu] at h1
        exact Or.inl ⟨by rw [hcpu]; exact h1.2, h1.1⟩
      · rw [hcpu] at h1
        exact Or.inr ⟨h1.1, _, by rw [hcpu]; exact h1.2⟩
    have hpages : s.pages = s1.pages := by rw [hs]; rfl
    rw [hpages]
    rcases hlog with ⟨h1, h2⟩ | ⟨h2, cd, h1⟩
    · rw [h2] at hfl
      simp only [Option.isSome_none, Bool.false_eq_true, if_false, Nat.add_zero] at hfl
      rw [h1]
      exact ⟨hrel, hfl, by omega, by omega, by omega⟩
    · rw [if_pos (Option.isSome_iff_ne_none.2 h2)] at hfl
      rw [h1, page_starts_flushed, flushed_builders_flushed, List.length_append,
        List.length_singleton]
      refine ⟨?_, hfl, by omega, by omega, by omega⟩
      intro e he
      rw [List.mem_append, List.mem_singleton] at he
      rcases he with he | he
      · exact hrel e he
      · rw [he]
        rfl
  · intro st r hn hlim
    unfold loop_body
    rw [page_step_break .SPLIT_PAGES n st r hn rfl hlim]

/-- The example capture with `SPLIT_PAGES` and a limit of one page: the fourth
record asks for a second page, the loop is left, and one page is flushed. -/
theorem demo_pages_limit :
    run_keys (parse_cpu demo_handle demo_cpu_data 0 0 1 true 0 .SPLIT_PAGES)
      = some [(0, 0, 100, 0), (2, 0, 100, 16), (2, 0, 110, 24), (2, 0, 120, 36),
              (1, 0, 120, 64)] ∧
    (final_state (parse_cpu demo_handle demo_cpu_data 0 0 1 true 0 .SPLIT_PAGES)
      (empty_state demo_handle)).pages = 2 := by
  decide

/-! ## The events of one pass through the body of the main loop -/

/-- The log and the iterator after one pass through the body of the main loop:
the pass adds the events of the new-page branch, if it was taken, and then either
the TIME_EXTEND of the record, which stays in hand, or the append of the record,
after which the next record is read and the split predicate consulted. -/
theorem loop_body_log (type : split_types) (count_limit : Nat) (percpu : Bool)
    (s : parse_state) (r : tep_record) (b : Bool) (s2 : parse_state)
    (hstep : loop_body type count_limit percpu s r = .ok (b, s2)) :
    s2.start = s.start ∧
    ∃ pe, (∀ e ∈ pe, page_event s.cpu e) ∧
      ((b = true ∧ type = .SPLIT_PAGES ∧ s2.log = s.log ∧ s2.record = s.record) ∨
       (b = false ∧ ∃ i,
        (s2.log = s.log ++ pe ++ [Event.extended s.cpu r i] ∧ s2.record = s.record ∧
          s2.count = s.count ∧ s2.handle = s.handle ∧ s2.cpu = s.cpu) ∨
        (s2.log = s.log ++ pe ++ [Event.appended s.cpu r i] ∧
          s2.record = (apply_split type s.start count_limit
            (read_record s.handle percpu s.cpu).1 s.count).1 ∧
          s2.count = (apply_split type s.start count_limit
            (read_record s.handle percpu s.cpu).1 s.count).2 ∧
          s2.handle = (read_record s.handle percpu s.cpu).2.2 ∧
          (∀ y, (read_record s.handle percpu s.cpu).1 = some y →
            s2.cpu = (read_record s.handle percpu s.cpu).2.1)))) := by
  rcases loop_body_shape type count_limit percpu s r b s2 hstep with ⟨hb, hps⟩ | ⟨hb, s1, hps, hrs⟩
  · rcases page_step_shape type count_limit s r true s2 hps with hc | hc | hc
    · rw [hc.2.2.2.1]
      refine ⟨rfl, [], ?_, Or.inl ⟨hb, hc.2.1, rfl, rfl⟩⟩
      intro e he
      cases he
    · exact absurd hc.1 (by decide)
    · exact absurd hc.1 (by decide)
  · have hf := page_step_fields type count_limit s r false s1 hps
    have hpe : ∃ pe, (∀ e ∈ pe, page_event s.cpu e) ∧ s1.log = s.log ++ pe := by
      rcases page_step_shape type count_limit s r false s1 hps with hc | hc | hc
      · exact absurd hc.1 (by decide)
      · rw [hc.2.1]
        refine ⟨[], ?_, by simp⟩
        intro e he
        cases he
      · have hs := new_page_shape
          { s with pages := if type = .SPLIT_PAGES then s.pages + 1 else s.pages } r
        rw [← hc.2.2.2] at hs
        rcases hs.2.2.2.2.2.2.2 with h1 | h1
        · refine ⟨_, ?_, h1.2.2⟩
          intro e he
          rw [List.mem_singleton] at he
          exact Or.inl ⟨_, he⟩
        · refine ⟨_, ?_, h1.2.2⟩
          intro e he
          simp only [List.mem_cons, List.mem_singleton, List.not_mem_nil, or_false] at he
          rcases he with he | he
          · exact Or.inr ⟨_, he⟩
          · exact Or.inl ⟨_, he⟩
    obtain ⟨pe, hpe1, hpe2⟩ := hpe
    obtain ⟨ret, cd2, hw, hcase⟩ := record_step_shape type count_limit percpu s1 r s2 hrs
    rcases hcase with ⟨_, hs2⟩ | ⟨_, hs2⟩
    · have hcf := consume_fields type count_limit percpu s1 r cd2
      have hcs := consume_shape type count_limit percpu s1 r cd2
      rw [← hs2, hf.2.2.1, hf.2.1, hf.2.2.2.1, hf.2.2.2.2.1] at hcf
      rw [← hs2, hf.2.2.1, hf.2.1, hf.2.2.2.1, hf.2.2.2.2.1, hpe2] at hcs
      exact ⟨hcs.2.1, pe, hpe1, Or.inr ⟨hb, _, Or.inr ⟨hcs.1, hcf.2.1, hcs.2.2.2, hcf.1,
        hcf.2.2.2⟩⟩⟩
    · rw [hs2]
      refine ⟨hf.2.2.2.1, pe, hpe1, Or.inr ⟨hb, (s1.cpu_data s1.cpu).index, Or.inl ⟨?_, hf.1,
        hf.2.2.2.2.1, hf.2.2.1, hf.2.1⟩⟩⟩
      simp only
      rw [hpe2, hf.2.1]

/-! ## The time predicates -/

theorem final_flush_start (percpu : Bool) (s : parse_state) :
    (final_flush percpu s).start = s.start ∧ (final_flush percpu s).record = s.record ∧
    (final_flush percpu s).count = s.count ∧ (final_flush percpu s).pages = s.pages :=
  ⟨rfl, rfl, rfl, rfl⟩

/-- The main loop ends with no record in hand, or with a record beyond `stop`,
or by the `break` of a pass through its body; and an invariant of the body holds
of the state in which it ends. -/
theorem main_loop_exit (P : parse_state → Prop) (type : split_types)
    (stop count_limit : Nat) (percpu : Bool)
    (hstep : ∀ s r b s2, P s → s.record = some r → (stop = 0 ∨ r.ts ≤ stop) →
      loop_body type count_limit percpu s r = .ok (b, s2) → P s2) :
    ∀ fuel s s2, P s → main_loop type stop count_limit percpu fuel s = .ok s2 →
      P s2 ∧
      (s2.record = none ∨ (∃ r, s2.record = some r ∧ ¬ (stop = 0 ∨ r.ts ≤ stop)) ∨
       (∃ s3 r, P s3 ∧ s3.record = some r ∧
         loop_body type count_limit percpu s3 r = .ok (true, s2))) := by
  intro fuel
  induction fuel with
  | zero =>
    intro s s2 _ h
    simp [main_loop] at h
  | succ n ih =>
    intro s s2 hP h
    unfold main_loop at h
    cases hr : s.record with
    | none =>
      rw [hr] at h
      simp only [Except.ok.injEq] at h
      subst h
      exact ⟨hP, Or.inl hr⟩
    | some r =>
      rw [hr] at h
      simp only at h
      by_cases hstop : stop = 0 ∨ r.ts ≤ stop
      · rw [if_pos hstop] at h
        cases hb : loop_body type count_limit percpu s r with
        | error e =>
          rw [hb] at h
          cases h
        | ok p =>
          obtain ⟨b, s3⟩ := p
          rw [hb] at h
          have hP3 := hstep s r b s3 hP hr hstop hb
          cases b with
          | true =>
            simp only [Except.ok.injEq] at h
            subst h
            exact ⟨hP3, Or.inr (Or.inr ⟨s, r, hP, hr, hb⟩)⟩
          | false =>
            simp only at h
            exact ih s3 s2 hP3 h
      · rw [if_neg hstop] at h
        simp only [Except.ok.injEq] at h
        subst h
        exact ⟨hP, Or.inr (Or.inl ⟨r, hr, hstop⟩)⟩

/-- A run of `parse_cpu` that returns: the state at the entry of the main loop,
the state in which the loop ended, with an invariant of its body and the reason
of its end, and the final flush. -/
theorem parse_cpu_exit (P : parse_state → Prop)
    (handle : tracecmd_input) (cpu_data : Nat → cpu_data) (start stop count_limit : Nat)
    (percpu : Bool) (cpu0 : Nat) (type : split_types) (s : parse_state)
    (hstart : ∀ s0, parse_start handle cpu_data start percpu cpu0 = .ok s0 → P s0)
    (hstep : ∀ s r b s2, P s → s.record = some r → (stop = 0 ∨ r.ts ≤ stop) →
      loop_body type count_limit percpu s r = .ok (b, s2) → P s2)
    (hrun : parse_cpu handle cpu_data start stop count_limit percpu cpu0 type = .ok s) :
    ∃ s1, P s1 ∧ s = final_flush percpu s1 ∧
      (s1.record = none ∨ (∃ r, s1.record = some r ∧ ¬ (stop = 0 ∨ r.ts ≤ stop)) ∨
       (∃ s3 r, P s3 ∧ s3.record = some r ∧
         loop_body type count_limit percpu s3 r = .ok (true, s1))) := by
  unfold parse_cpu at hrun
  cases hps : parse_start handle cpu_data start percpu cpu0 with
  | error e =>
    rw [hps] at hrun
    cases hrun
  | ok s0 =>
    rw [hps] at hrun
    simp only at hrun
    cases hml : main_loop type stop count_limit percpu
        (2 * pending s0.handle percpu s0.cpu + 3) s0 with
    | error e =>
      rw [hml] at hrun
      cases hrun
    | ok s1 =>
      rw [hml] at hrun
      simp only [Except.ok.injEq] at hrun
      have := main_loop_exit P type stop count_limit percpu hstep _ s0 s1 (hstart s0 hps) hml
      exact ⟨s1, this.1, hrun.symm, this.2⟩

/-! ## The event limit of `SPLIT_EVENTS` -/

theorem appended_records_pages (l pe : List Event) (c0 : Nat)
    (hpe : ∀ e ∈ pe, page_event c0 e) : appended_records (l ++ pe) = appended_records l := by
  unfold appended_records
  rw [List.filterMap_append]
  have : pe.filterMap (fun e =>
      match e with
      | .appended _ r _ => some r
      | _ => none) = [] := by
    rw [List.filterMap_eq_nil_iff]
    intro e he
    rcases hpe e he with ⟨r1, h1⟩ | ⟨cd, h1⟩ <;> rw [h1]
  rw [this, List.append_nil]

theorem appended_records_flushes (l fl : List Event)
    (hall : ∀ e ∈ fl, ∃ c cd, e = Event.flushed c cd) :
    appended_records (l ++ fl) = appended_records l := by
  unfold appended_records
  rw [List.filterMap_append]
  have : fl.filterMap (fun e =>
      match e with
      | .appended _ r _ => some r
      | _ => none) = [] := by
    rw [List.filterMap_eq_nil_iff]
    intro e he
    obtain ⟨c, cd, h1⟩ := hall e he
    rw [h1]
  rw [this, List.append_nil]

theorem appended_records_appended (l : List Event) (c : Nat) (r : tep_record) (i : Nat) :
    appended_records (l ++ [Event.appended c r i]) = appended_records l ++ [r] := by
  simp [appended_records, List.filterMap_append]

theorem appended_records_extended (l : List Event) (c : Nat) (r : tep_record) (i : Nat) :
    appended_records (l ++ [Event.extended c r i]) = appended_records l := by
  simp [appended_records, List.filterMap_append]

/-- The `case SPLIT_EVENTS` of the `switch (type)`. -/
theorem apply_split_events (start n : Nat) (record : Option tep_record) (count : Nat) :
    apply_split .SPLIT_EVENTS start n record count
      = (if count + 1 ≥ n then none else record, count + 1) := by
  unfold apply_split
  simp only
  split <;> rfl

theorem drain_none (percpu : Bool) (fuel : Nat) (h : tracecmd_input) (c : Nat)
    (hn : (read_record h percpu c).1 = none) : drain percpu fuel h c = [] := by
  cases fuel with
  | zero => rfl
  | succ k =>
    unfold drain
    rw [hn]

theorem drain_some (percpu : Bool) (h : tracecmd_input) (c : Nat) (y : tep_record)
    (hn : (read_record h percpu c).1 = some y) :
    drain percpu (pending h percpu c) h c
      = y :: drain percpu
          (pending (read_record h percpu c).2.2 percpu (read_record h percpu c).2.1)
          (read_record h percpu c).2.2 (read_record h percpu c).2.1 := by
  rw [← (pending_read h percpu c).2 y hn]
  conv_lhs => unfold drain
  rw [hn]

/-- The invariant `events_inv` survives a pass through the body of the main loop. -/
theorem events_inv_loop_body (percpu : Bool) (stop n : Nat) (T : List tep_record)
    (s : parse_state) (r : tep_record) (b : Bool) (s2 : parse_state)
    (hinv : events_inv percpu stop n T s) (hr : s.record = some r)
    (hwin : stop = 0 ∨ r.ts ≤ stop)
    (hstep : loop_body .SPLIT_EVENTS n percpu s r = .ok (b, s2)) :
    events_inv percpu stop n T s2 := by
  obtain ⟨hcnt, hlt, hT⟩ := hinv
  have hlt2 : s.count < n := by
    rcases hlt with h | h
    · exact h
    · rw [hr] at h
      cases h
  obtain ⟨_, pe, hpe, hcase⟩ := loop_body_log .SPLIT_EVENTS n percpu s r b s2 hstep
  rcases hcase with ⟨_, ht, _⟩ | ⟨_, i, ⟨hlog, hrec, hcount, hhandle, hcpu⟩ |
    ⟨hlog, hrec, hcount, hhandle, hcpu⟩⟩
  · cases ht
  · have hap : appended_records s2.log = appended_records s.log := by
      rw [hlog, appended_records_extended, appended_records_pages _ _ _ hpe]
    have hav : avail percpu s2 = avail percpu s := by
      unfold avail
      rw [hrec, hhandle, hcpu]
    exact ⟨by rw [hcount, hap]; exact hcnt, Or.inl (by rw [hcount]; exact hlt2),
      by rw [hap, hav, hcount]; exact hT⟩
  · have hap : appended_records s2.log = appended_records s.log ++ [r] := by
      rw [hlog, appended_records_appended, appended_records_pages _ _ _ hpe]
    rw [apply_split_events] at hrec hcount
    simp only at hrec hcount
    have hav : avail percpu s
        = r :: drain percpu (pending s.handle percpu s.cpu) s.handle s.cpu := by
      unfold avail
      rw [hr]
    rw [hav, List.takeWhile_cons, if_pos (by simpa using hwin),
      show n - s.count = (n - s.count - 1) + 1 by omega, List.take_succ_cons] at hT
    refine ⟨by rw [hcount, hap, List.length_append, List.length_singleton, hcnt], ?_, ?_⟩
    · by_cases hfull : s.count + 1 ≥ n
      · right
        rw [hrec, if_pos hfull]
      · left
        rw [hcount]
        omega
    · rw [hap, hcount, List.append_assoc, ← hT]
      congr 1
      simp only [List.singleton_append, List.cons.injEq, true_and]
      by_cases hfull : s.count + 1 ≥ n
      · rw [show n - (s.count + 1) = 0 by omega, show n - s.count - 1 = 0 by omega]
        rfl
      · rw [if_neg hfull] at hrec
        rw [show n - s.count - 1 = n - (s.count + 1) by omega]
        congr 2
        rcases Option.eq_none_or_eq_some (read_record s.handle percpu s.cpu).1 with hn | ⟨y, hn⟩
        · rw [drain_none percpu _ _ _ hn]
          unfold avail
          rw [hrec, hn]
        · rw [drain_some percpu _ _ y hn]
          unfold avail
          rw [hrec, hn, hhandle, hcpu y hn]

/-- In per-CPU mode `read_record` returns the records behind the cursor of the
CPU, each once, in their order. -/
theorem drain_percpu (c : Nat) : ∀ (l : List tep_record) (h : tracecmd_input),
    h.next c = l → drain true l.length h c = l := by
  intro l
  induction l with
  | nil =>
    intro h _
    rfl
  | cons y ys ih =>
    intro h hn
    have hrd : read_record h true c
        = (some y, c, { h with next := Function.update h.next c ys }) := by
      unfold read_record tracecmd_read_data
      rw [if_pos rfl, hn]
    simp only [List.length_cons]
    unfold drain
    rw [hrd]
    simp only
    rw [ih _ (Function.update_same _ _ _)]

/-- Without a requested start, the records available to a per-CPU pass are the
records behind the cursor of its CPU. -/
theorem avail_percpu_start (handle : tracecmd_input) (cpu_data : Nat → cpu_data)
    (cpu0 : Nat) (s0 : parse_state)
    (hs0 : parse_start handle cpu_data 0 true cpu0 = .ok s0) :
    avail true s0 = handle.next cpu0 := by
  have hsp := (parse_start_spec handle cpu_data 0 true cpu0 s0 hs0).2.2.1 rfl
  rw [force_new_pages_cpu _ _ _ _ _ rfl] at hsp
  cases hn : handle.next cpu0 with
  | nil =>
    have hrd : read_record handle true cpu0 = (none, cpu0, handle) := by
      unfold read_record tracecmd_read_data
      rw [if_pos rfl, hn]
    rw [hrd] at hsp
    injection hsp with h1 h2
    unfold avail
    rw [h1]
  | cons y ys =>
    have hrd : read_record handle true cpu0
        = (some y, cpu0, { handle with next := Function.update handle.next cpu0 ys }) := by
      unfold read_record tracecmd_read_data
      rw [if_pos rfl, hn]
    rw [hrd] at hsp
    injection hsp with h1 h2
    injection h2 with h2 h3
    unfold avail pending
    rw [h1, h2, h3, if_pos rfl]
    simp only [Function.update_same]
    rw [drain_percpu cpu0 ys _ (Function.update_same _ _ _)]

/-- Under `SPLIT_EVENTS` with a limit `n > 0`, over well-framed records, a
run of `parse_cpu` returns, and the records that it appended are, in their
order, the first `n` of the records available to it up to the first one beyond
`stop`: the record in hand when the main loop is entered, followed by those
that `read_record` returns; so their number is `min n k`, `k` being the number
of those records; and `count` is that number: a TIME_EXTEND and the retry of a
record are not counted.  In a per-CPU pass without a requested start the
records available are the records behind the cursor of the CPU. -/
theorem parse_cpu_events_count (handle : tracecmd_input) (cpu_data : Nat → cpu_data)
    (start stop n : Nat) (percpu : Bool) (cpu0 : Nat) (hn : 0 < n)
    (hps : handle.page_size < 2 ^ 31)
    (hG : ∀ c y, y ∈ handle.recs c ∨ y ∈ handle.next c → well_framed handle y) :
    ∃ s0 s, parse_start handle cpu_data start percpu cpu0 = .ok s0 ∧
      parse_cpu handle cpu_data start stop n percpu cpu0 .SPLIT_EVENTS = .ok s ∧
      appended_records s.log
        = ((avail percpu s0).takeWhile (fun r => decide (stop = 0 ∨ r.ts ≤ stop))).take n ∧
      (appended_records s.log).length
        = min n ((avail percpu s0).takeWhile
            (fun r => decide (stop = 0 ∨ r.ts ≤ stop))).length ∧
      s.count = (appended_records s.log).length ∧
      (start = 0 → percpu = true → avail percpu s0 = handle.next cpu0) := by
  obtain ⟨s0, hs0⟩ := parse_start_ok handle cpu_data start percpu cpu0
  obtain ⟨s, hrun⟩ := parse_cpu_total handle cpu_data start stop n percpu cpu0 .SPLIT_EVENTS
    hps hG
  have hsp := parse_start_spec handle cpu_data start percpu cpu0 s0 hs0
  have hc0 := parse_start_counts handle cpu_data start percpu cpu0 s0 hs0
  obtain ⟨s1, ⟨hcnt, _, hT⟩, hs, hexit⟩ := parse_cpu_exit
    (events_inv percpu stop n
      (((avail percpu s0).takeWhile (fun r => decide (stop = 0 ∨ r.ts ≤ stop))).take n))
    handle cpu_data start stop n percpu cpu0 .SPLIT_EVENTS s
    (fun s0b hs0b => by
      have he : s0b = s0 := by
        rw [hs0] at hs0b
        injection hs0b with h
        exact h.symm
      subst he
      refine ⟨by rw [hsp.1, hc0.2.1]; rfl, Or.inl (by rw [hc0.2.1]; exact hn), ?_⟩
      rw [hsp.1, hc0.2.1]
      rfl)
    (fun st r b s2 hP hr hwin hb => events_inv_loop_body percpu stop n _ st r b s2 hP hr hwin hb)
    hrun
  have hnil : ((avail percpu s1).takeWhile (fun r => decide (stop = 0 ∨ r.ts ≤ stop))) = [] := by
    rcases hexit with hnone | ⟨r, hr, hw⟩ | ⟨s3, r, _, _, hb⟩
    · unfold avail
      rw [hnone]
      rfl
    · unfold avail
      rw [hr]
      simp only
      rw [List.takeWhile_cons, if_neg (by simpa using hw)]
    · rcases loop_body_shape .SPLIT_EVENTS n percpu s3 r true s1 hb with ⟨_, hps3⟩ | ⟨hf, _⟩
      · rcases page_step_shape .SPLIT_EVENTS n s3 r true s1 hps3 with hc | hc | hc
        · exact absurd hc.2.1 (by decide)
        · exact absurd hc.1 (by decide)
        · exact absurd hc.1 (by decide)
      · exact absurd hf (by decide)
  rw [hnil, List.take_nil, List.append_nil] at hT
  obtain ⟨fl, hfl, hall⟩ := final_flush_log percpu s1
  have hap : appended_records s.log = appended_records s1.log := by
    rw [hs, hfl]
    exact appended_records_flushes _ _ hall
  refine ⟨s0, s, hs0, hrun, by rw [hap]; exact hT, ?_, ?_, ?_⟩
  · rw [hap, hT, List.length_take]
  · rw [hap, hs, (final_flush_start percpu s1).2.2.1]
    exact hcnt
  · intro h0 hp
    subst h0 hp
    exact avail_percpu_start handle cpu_data cpu0 s0 hs0

/-- The example capture with a limit of 2 events and no requested start: the
records at 100 and 110 are appended, and the page is flushed. -/
theorem demo_events_count :
    run_keys (parse_cpu demo_handle demo_cpu_data 0 0 2 true 0 .SPLIT_EVENTS)
      = some [(0, 0, 100, 0), (2, 0, 100, 16), (2, 0, 110, 24), (1, 0, 110, 36)] ∧
    ∃ s0 s, parse_start demo_handle demo_cpu_data 0 true 0 = .ok s0 ∧
      parse_cpu demo_handle demo_cpu_data 0 0 2 true 0 .SPLIT_EVENTS = .ok s ∧
      appended_records s.log
        = ((avail true s0).takeWhile (fun r => decide (0 = 0 ∨ r.ts ≤ 0))).take 2 ∧
      (appended_records s.log).length
        = min 2 ((avail true s0).takeWhile (fun r => decide (0 = 0 ∨ r.ts ≤ 0))).length ∧
      s.count = (appended_records s.log).length ∧
      (0 = 0 → true = true → avail true s0 = demo_handle.next 0) :=
  ⟨by decide,
   parse_cpu_events_count demo_handle demo_cpu_data 0 0 2 true 0 (by decide) (by decide)
    demo_well_framed⟩

/-- The example capture with a limit of 5 events: the TIME_EXTEND of the fifth
record is in the log, and `count` is 5. -/
theorem demo_events_extend :
    run_keys (parse_cpu demo_handle demo_cpu_data 0 0 5 true 0 .SPLIT_EVENTS)
      = some [(0, 0, 100, 0), (2, 0, 100, 16), (2, 0, 110, 24), (2, 0, 120, 36),
              (1, 0, 120, 64), (0, 0, 130, 0), (2, 0, 130, 16), (3, 0, 134217863, 24),
              (2, 0, 134217863, 32), (1, 0, 134217863, 40)] ∧
    (final_state (parse_cpu demo_handle demo_cpu_data 0 0 5 true 0 .SPLIT_EVENTS)
      (empty_state demo_handle)).count = 5 := by
  decide

/-! ## The function `parse_file` -/

/-- C11 (the run that fails): the example capture has the records 100, 110,
120, 130, ... on CPU 0; `parse_file` with the start 105, the end 125 and no
predicate sends the cursor to the record at 110, and `parse_cpu` reads that
record, sends the cursor to it again, and appends it twice: the chunk holds
110, 110, 120, where the records of the window are 110, 120.  A call of
`parse_cpu` alone, from the beginning of the capture with the start 100, appends
the record at 100 twice. -/
theorem parse_file_duplicates_first :
    (appended_records (file_final
        (parse_file demo_handle demo_cpu_data 105 125 true (-1) 0 .SPLIT_NONE)
        (empty_file demo_handle)).log).map (fun r => r.ts) = [110, 110, 120] ∧
    (demo_records.filter (fun r => decide (105 ≤ r.ts ∧ r.ts ≤ 125))).map (fun r => r.ts)
      = [110, 120] ∧
    (appended_records (final_state
        (parse_cpu demo_handle demo_cpu_data 100 125 0 true 0 .SPLIT_NONE)
        (empty_state demo_handle)).log).map (fun r => r.ts) = [100, 100, 110, 120] := by
  decide

/-- The value `current` that `parse_file` computes is at least `stop`, and at
least the timestamp of the record read back for every CPU with a noted offset
(with equality in reach, so not strictly beyond it); it is `stop` when no
offset is noted. -/
theorem next_start_bounds (h : tracecmd_input) (cds : Nat → cpu_data) (stop : Nat)
    (hts : ∀ c r, tracecmd_read_at h (cds c).offset = some r → r.ts + 1 < 2 ^ 64) :
    stop ≤ (List.range h.cpus).foldl (next_start_step h cds) stop ∧
    (∀ c, c < h.cpus → (cds c).offset ≠ 0 →
      ∀ r, tracecmd_read_at h (cds c).offset = some r →
        r.ts ≤ (List.range h.cpus).foldl (next_start_step h cds) stop) ∧
    ((∀ c, c < h.cpus → (cds c).offset = 0) →
      (List.range h.cpus).foldl (next_start_step h cds) stop = stop) := by
  have hstep : ∀ cur c, cur ≤ next_start_step h cds cur c ∧
      ((cds c).offset ≠ 0 → ∀ r, tracecmd_read_at h (cds c).offset = some r →
        r.ts ≤ next_start_step h cds cur c) ∧
      ((cds c).offset = 0 → next_start_step h cds cur c = cur) := by
    intro cur c
    unfold next_start_step
    by_cases ho : (cds c).offset ≠ 0
    · rw [if_pos ho]
      rcases Option.eq_none_or_eq_some (tracecmd_read_at h (cds c).offset) with hn | ⟨r, hn⟩
      · rw [hn]
        exact ⟨le_refl _, (fun _ r hr => by cases hr), fun h0 => absurd h0 ho⟩
      · rw [hn]
        have := hts c r hn
        simp only
        by_cases hc : cur = 0 ∨ r.ts > cur
        · rw [if_pos hc, Nat.mod_eq_of_lt this]
          refine ⟨by omega, fun _ r2 hr2 => ?_, fun h0 => absurd h0 ho⟩
          injection hr2 with hr2
          rw [← hr2]
          omega
        · rw [if_neg hc]
          refine ⟨le_refl _, fun _ r2 hr2 => ?_, fun h0 => absurd h0 ho⟩
          injection hr2 with hr2
          rw [← hr2]
          omega
    · rw [if_neg ho]
      exact ⟨le_refl _, fun h0 => absurd h0 ho, fun _ => rfl⟩
  have hfold : ∀ (cs : List Nat) (cur : Nat),
      cur ≤ cs.foldl (next_start_step h cds) cur ∧
      (∀ c ∈ cs, (cds c).offset ≠ 0 → ∀ r, tracecmd_read_at h (cds c).offset = some r →
        r.ts ≤ cs.foldl (next_start_step h cds) cur) ∧
      ((∀ c ∈ cs, (cds c).offset = 0) → cs.foldl (next_start_step h cds) cur = cur) := by
    intro cs
    induction cs with
    | nil =>
      intro cur
      exact ⟨le_refl _, (fun c hc => by cases hc), fun _ => rfl⟩
    | cons a cs ih =>
      intro cur
      simp only [List.foldl_cons]
      have h1 := hstep cur a
      have h2 := ih (next_start_step h cds cur a)
      refine ⟨le_trans h1.1 h2.1, ?_, ?_⟩
      · intro c hc ho r hr
        rw [List.mem_cons] at hc
        rcases hc with hc | hc
        · subst hc
          exact le_trans (h1.2.1 ho r hr) h2.1
        · exact h2.2.1 c hc ho r hr
      · intro hall
        rw [h1.2.2 (hall a (List.mem_cons_self _ _))]
        rw [h1.2.2 (hall a (List.mem_cons_self _ _))] at h2
        exact h2.2.2 (fun c hc => hall c (List.mem_cons_of_mem _ hc))
  have := hfold (List.range h.cpus) stop
  exact ⟨this.1, fun c hc => this.2.1 c (List.mem_range.mpr hc),
    fun hall => this.2.2 (fun c hc => hall c (List.mem_range.mp hc))⟩

/-- The conversion to `double` changes no value below `2 ^ 53`. -/
theorem double_of_u64_exact (v : Nat) (hv : v < 2 ^ 53) : double_of_u64 v = v := by
  unfold double_of_u64
  rw [if_pos hv]

/-- From `2 ^ 53` on the conversion to `double` rounds: to the even neighbour
when two are equally near, and up to `2 ^ 64` from the greatest value. -/
theorem double_of_u64_rounds :
    double_of_u64 (2 ^ 53 + 1) = 2 ^ 53 ∧ double_of_u64 (2 ^ 53 + 2) = 2 ^ 53 + 2 ∧
    double_of_u64 (2 ^ 53 + 3) = 2 ^ 53 + 4 ∧ double_of_u64 (2 ^ 63 + 1024) = 2 ^ 63 ∧
    double_of_u64 (2 ^ 63 + 1025) = 2 ^ 63 + 2048 ∧
    double_of_u64 (2 ^ 64 - 1) = 2 ^ 64 := by
  decide

/-- In per-CPU mode `read_record` takes the first record behind the cursor. -/
theorem held_read_record (h : tracecmd_input) (cpu : Nat) :
    held (read_record h true cpu) = h.next cpu := by
  unfold held read_record tracecmd_read_data
  rw [if_pos rfl]
  cases hn : h.next cpu with
  | nil => rfl
  | cons y ys =>
    simp only
    rw [Function.update_same]

/-- In per-CPU mode the records available to the main loop are the record in
hand and the records behind the cursor. -/
theorem avail_held (s : parse_state) : avail true s = held (s.record, s.cpu, s.handle) := by
  unfold avail held pending
  rw [if_pos rfl]
  cases hr : s.record with
  | none => rfl
  | some r =>
    simp only
    rw [drain_percpu s.cpu _ s.handle rfl]

/-- In per-CPU mode the skip loop drops the records before `start` from the
record in hand and the records behind the cursor, and nothing else. -/
theorem skip_loop_held (start : Nat) : ∀ (fuel : Nat)
    (x res : Option tep_record × Nat × tracecmd_input),
    skip_loop true start fuel x = .ok res →
    held res = (held x).dropWhile (fun r => decide (r.ts < start)) := by
  intro fuel
  induction fuel with
  | zero =>
    intro x res hsk
    unfold skip_loop at hsk
    cases hsk
  | succ fuel ih =>
    intro x res hsk
    obtain ⟨record, cpu, h⟩ := x
    unfold skip_loop at hsk
    cases record with
    | none =>
      simp only [Except.ok.injEq] at hsk
      subst hsk
      rfl
    | some r =>
      simp only at hsk
      by_cases hlt : r.ts < start
      · rw [if_pos hlt] at hsk
        rw [ih _ _ hsk, held_read_record]
        unfold held
        simp only
        rw [List.dropWhile_cons_of_pos (by simpa using hlt)]
      · rw [if_neg hlt] at hsk
        simp only [Except.ok.injEq] at hsk
        subst hsk
        unfold held
        simp only
        rw [List.dropWhile_cons_of_neg (by simpa using hlt)]

/-- Dropping the records before `start` a second time drops nothing. -/
theorem dropWhile_twice (start : Nat) : ∀ (l : List tep_record),
    (l.dropWhile (fun r => decide (r.ts < start))).dropWhile (fun r => decide (r.ts < start))
      = l.dropWhile (fun r => decide (r.ts < start)) := by
  intro l
  induction l with
  | nil => rfl
  | cons y ys ih =>
    by_cases hlt : y.ts < start
    · rw [List.dropWhile_cons_of_pos (by simpa using hlt)]
      exact ih
    · rw [List.dropWhile_cons_of_neg (by simpa using hlt),
        List.dropWhile_cons_of_neg (by simpa using hlt)]

/-- With a requested start, the records available to a per-CPU pass are the
records of its CPU from `start` on, preceded by the record that was behind the
cursor at the call when that record is not before `start`: `parse_cpu` reads a
record before it directs the cursor to `start`. -/
theorem avail_percpu_seek (handle : tracecmd_input) (cpu_data : Nat → cpu_data)
    (start cpu0 : Nat) (s0 : parse_state) (hst : start ≠ 0)
    (hs0 : parse_start handle cpu_data start true cpu0 = .ok s0) :
    avail true s0 =
      match handle.next cpu0 with
      | [] => []
      | first :: _ =>
        if first.ts < start then
          (handle.recs cpu0).dropWhile (fun r => decide (r.ts < start))
        else first :: (handle.recs cpu0).dropWhile (fun r => decide (r.ts < start)) := by
  obtain ⟨_, fuel, hsk⟩ := (parse_start_spec handle cpu_data start true cpu0 s0 hs0).2.2.2 hst
  rw [force_new_pages_cpu _ _ _ _ _ rfl] at hsk
  rw [avail_held, skip_loop_held start fuel _ _ hsk]
  have hcpu : (read_record handle true cpu0).2.1 = cpu0 := by
    unfold read_record
    rw [if_pos rfl]
  have hrecs : (read_record handle true cpu0).2.2.recs = handle.recs := by
    unfold read_record tracecmd_read_data
    rw [if_pos rfl]
    cases handle.next cpu0 <;> rfl
  have hnext : (set_cpu_time (read_record handle true cpu0).2.2 true start
      cpu0 handle.cpus).next cpu0
        = (handle.recs cpu0).dropWhile (fun r => decide (r.ts < start)) := by
    rw [set_cpu_time_next _ true start cpu0 handle.cpus cpu0 rfl, hrecs]
  have hfirst : (read_record handle true cpu0).1 = (handle.next cpu0).head? := by
    unfold read_record tracecmd_read_data
    rw [if_pos rfl]
    cases handle.next cpu0 <;> rfl
  unfold held
  simp only
  rw [hfirst, hcpu, hnext]
  cases handle.next cpu0 with
  | nil => rfl
  | cons first rest =>
    simp only [List.head?_cons]
    by_cases hlt : first.ts < start
    · rw [if_pos hlt, List.dropWhile_cons_of_pos (by simpa using hlt), dropWhile_twice]
    · rw [if_neg hlt, List.dropWhile_cons_of_neg (by simpa using hlt)]

/-! ## The pages of a run and the pages that the records need -/

/-- The records before a per-CPU pass are those available to its main loop. -/
theorem avail_pass_records (handle : tracecmd_input) (cpu_data : Nat → cpu_data)
    (start cpu0 : Nat) (s0 : parse_state)
    (hs0 : parse_start handle cpu_data start true cpu0 = .ok s0) :
    avail true s0 = pass_records handle start cpu0 := by
  unfold pass_records
  by_cases hst : start = 0
  · subst hst
    rw [if_pos rfl]
    exact avail_percpu_start handle cpu_data cpu0 s0 hs0
  · rw [if_neg hst]
    exact avail_percpu_seek handle cpu_data start cpu0 s0 hst hs0

/-- With a requested start, the first loop of `parse_file` sends the cursor of
every CPU to `start`, as `set_cpu_time` does for all CPUs. -/
theorem parse_file_start_handle (handle : tracecmd_input) (cds : Nat → cpu_data) (start : Nat)
    (hst : start ≠ 0) :
    (parse_file_start handle cds start).1 = set_cpu_time handle false start 0 handle.cpus := by
  unfold parse_file_start set_cpu_time
  rw [if_neg (by decide)]
  generalize List.range handle.cpus = cs
  induction cs using List.reverseRecOn with
  | nil => rfl
  | append_singleton cs a ih =>
    rw [List.foldl_append, List.foldl_append]
    simp only [List.foldl_cons, List.foldl_nil]
    rw [if_pos hst, ih]

/-- With a requested start, `parse_file` calls `parse_cpu` with the cursor of
every CPU on the first record of that CPU from `start` on. -/
theorem parse_file_start_cursor (handle : tracecmd_input) (cds : Nat → cpu_data)
    (start c : Nat) (hst : start ≠ 0) (hc : c < handle.cpus) :
    (parse_file_start handle cds start).1.next c
      = ((parse_file_start handle cds start).1.recs c).dropWhile
          (fun r => decide (r.ts < start)) := by
  rw [parse_file_start_handle handle cds start hst,
    set_cpu_time_next handle false start 0 handle.cpus c
      (by unfold relevant; rw [if_neg (by decide)]; exact hc),
    (set_cpu_time_spec handle false start 0 handle.cpus).1.2.2.2.2]

/-- The example capture with a requested start of 100, the cursor on the record
at 100, and a limit of one page: the record at 100 is written twice, and the
record at 120 asks for the second page and is not written, where without the
second copy it would have found room. -/
theorem demo_pages_limit_seek :
    demo_handle.next 0 = (demo_handle.recs 0).dropWhile (fun r => decide (r.ts < 100)) ∧
    (pass_records demo_handle 100 0).map (fun r => r.ts)
      = [100, 100, 110, 120, 130, 134217863] ∧
    (appended_records (final_state
        (parse_cpu demo_handle demo_cpu_data 100 0 1 true 0 .SPLIT_PAGES)
        (empty_state demo_handle)).log).map (fun r => r.ts) = [100, 100, 110] ∧
    (flushed_builders (final_state
        (parse_cpu demo_handle demo_cpu_data 100 0 1 true 0 .SPLIT_PAGES)
        (empty_state demo_handle)).log).length = 1 :=
  ⟨rfl, by decide, by decide, by decide⟩

/-! ## The events of a pass with a requested start -/

/-- In per-CPU mode under `SPLIT_EVENTS` with a limit `n > 0`, over well-framed
records, the records that a run of `parse_cpu` appends are the first `n` of the
records before the pass within the window, and `count` is their number. -/
theorem parse_cpu_events_pass (handle : tracecmd_input) (cpu_data : Nat → cpu_data)
    (start stop n cpu0 : Nat) (hn : 0 < n)
    (hps : handle.page_size < 2 ^ 31)
    (hG : ∀ c y, y ∈ handle.recs c ∨ y ∈ handle.next c → well_framed handle y) :
    ∃ s, parse_cpu handle cpu_data start stop n true cpu0 .SPLIT_EVENTS = .ok s ∧
      appended_records s.log = (in_window stop (pass_records handle start cpu0)).take n ∧
      s.count = (appended_records s.log).length := by
  obtain ⟨s0, s, hs0, hrun, happ, _, hcount, _⟩ :=
    parse_cpu_events_count handle cpu_data start stop n true cpu0 hn hps hG
  rw [avail_pass_records handle cpu_data start cpu0 s0 hs0] at happ
  exact ⟨s, hrun, happ, hcount⟩

/-- C13 (the run that fails): on the example capture, whose records are at 100,
110, 120, 130, ... on CPU 0, a pass of `parse_cpu` with the start 100, the end
125 and a limit of 10 events appends the record at 100 twice, since it reads a
record before it sends the cursor to `start`: four records are appended and
`count` is 4, where the window holds three records.  Through `parse_file` with
the start 105 the records appended are 110, 110, 120, where the window holds
two. -/
theorem parse_cpu_events_duplicate :
    (appended_records (final_state
        (parse_cpu demo_handle demo_cpu_data 100 125 10 true 0 .SPLIT_EVENTS)
        (empty_state demo_handle)).log).map (fun r => r.ts) = [100, 100, 110, 120] ∧
    (final_state (parse_cpu demo_handle demo_cpu_data 100 125 10 true 0 .SPLIT_EVENTS)
        (empty_state demo_handle)).count = 4 ∧
    (demo_records.filter (fun r => decide (100 ≤ r.ts ∧ r.ts ≤ 125))).map (fun r => r.ts)
      = [100, 110, 120] ∧
    (appended_records (file_final
        (parse_file demo_handle demo_cpu_data 105 125 true (-1) 10 .SPLIT_EVENTS)
        (empty_file demo_handle)).log).map (fun r => r.ts) = [110, 110, 120] ∧
    (demo_records.filter (fun r => decide (105 ≤ r.ts ∧ r.ts ≤ 125))).map (fun r => r.ts)
      = [110, 120] := by
  decide

end TraceSplit
